import Mathlib

/-
Verification of the render-graph compiler (src/src/core/system.h, resource.h,
graph.h, barrier.h, resource_types.h of the render-graph repository).

The C++ code is shallowly embedded: machine integers become Nat (with an
explicit `% 2^32` where a uint32 cast can truncate a value that the
surrounding algorithm observes, namely the pack/unpack helpers and the
per-resource version counters), std::vector state becomes Lean lists or
explicitly-updated functions, and the user-supplied setup callbacks become
deep-embedded command lists over the exact operation surface that
pass_setup_context offers.  Loops that the source runs until a worklist or
queue empties are embedded with an explicit fuel argument; the fuel chosen
by the embedding is proved sufficient, so the embedded function computes the
same fixed point the C++ loop does.

Representation notes, referenced from the definitions below:
* The C++ dependency capture writes flat CSR arrays (read_list/usage_bits
  plus begins/lengthes per pass), where each pass's `begins` offset is
  captured immediately before its setup callback runs, and callbacks only
  append.  Hence the records of pass p are exactly the contiguous segment
  appended while p's callback ran, in call order.  The embedding stores that
  segment directly as a per-pass list (PassDeps); the flat arrays are the
  concatenation of these segments.
* std::sort followed by std::unique on a vector<uint32_t> produces the
  sorted list with duplicate runs collapsed; the embedding computes the same
  (unique) result with an insertion sort followed by adjacent deduplication.
* The barrier planner's per-pass std::unordered_map accumulation is embedded
  as an association list in first-touch order; the C++ iteration order of
  the hash map is implementation-defined, and no claim below depends on the
  order of distinct logical resources within one pass's barrier slice.
-/

set_option maxHeartbeats 1000000
set_option maxRecDepth 4000

namespace RenderGraph

/-- Point update of a handle-indexed table, the embedding of a vector
element assignment vec[i] = v. -/
def setAt {α : Type} (f : Nat → α) (i : Nat) (v : α) : Nat → α :=
  fun x => if x = i then v else f x

/-- Point update of a (handle, version)-indexed table. -/
def setAt2 {α : Type} (f : Nat → Nat → α) (i j : Nat) (v : α) : Nat → Nat → α :=
  fun x y => if x = i ∧ y = j then v else f x y

/-! ### Handle packing (resource.h lines 11-33) -/

/-- 2^32, the modulus of a uint32. -/
def two32 : Nat := 4294967296

/-- resource.h line 18: invalid_resource_version = 0xFFFFFFFFFFFFFFFF. -/
def invalidResourceVersion : Nat := 18446744073709551615

/-- system.h line 72: invalid_pass = numeric_limits of uint32. -/
def invalidPass : Nat := 4294967295

/-- system.h line 73: invalid_resource = numeric_limits of uint32. -/
def invalidResource : Nat := 4294967295

/-- resource.h lines 20-23: pack(index, version) = (u64(version) << 32) | u64(index).
Both parameters have type uint32 in the source, hence the `% two32`. -/
def pack (index version : Nat) : Nat := (version % two32) * two32 + index % two32

/-- resource.h lines 25-28: unpack_to_resource(handle) = u32(handle & 0xFFFFFFFF). -/
def unpackToResource (handle : Nat) : Nat := handle % two32

/-- resource.h lines 30-33: unpack_to_version(handle) = u32((handle >> 32) & 0xFFFFFFFF). -/
def unpackToVersion (handle : Nat) : Nat := handle / two32 % two32

/-! ### Image / buffer metadata (resource.h) -/

/-- resource_types.h lines 58-63: extent_3d. -/
structure Extent3d where
  width : Nat
  height : Nat
  depth : Nat
deriving DecidableEq

/-- resource.h lines 36-48: image_info.  Enum-typed fields (format, usage,
type, flags) are embedded as their uint32 underlying values. -/
structure ImageInfo where
  name : String
  fmt : Nat
  extent : Extent3d
  usage : Nat
  type : Nat
  flags : Nat
  mip_levels : Nat
  array_layers : Nat
  sample_counts : Nat
  imported : Bool
deriving DecidableEq

/-- resource.h lines 50-56: buffer_info. -/
structure BufferInfo where
  name : String
  size : Nat
  usage : Nat
  imported : Bool
deriving DecidableEq

/-- resource.h lines 60-127: image_meta (SoA table). -/
structure ImageMeta where
  names : List String := []
  formats : List Nat := []
  extents : List Extent3d := []
  usages : List Nat := []
  types : List Nat := []
  flags : List Nat := []
  mip_levels : List Nat := []
  array_layers : List Nat := []
  sample_counts : List Nat := []
  is_imported : List Bool := []
  is_transient : List Bool := []
deriving DecidableEq

/-- resource.h lines 79-96: image_meta::add.  Returns the fresh handle
(= names.size() before the pushes) together with the grown table;
is_transient is initialized to !imported. -/
def ImageMeta.add (m : ImageMeta) (info : ImageInfo) : Nat × ImageMeta :=
  (m.names.length,
   { names := m.names ++ [info.name]
     formats := m.formats ++ [info.fmt]
     extents := m.extents ++ [info.extent]
     usages := m.usages ++ [info.usage]
     types := m.types ++ [info.type]
     flags := m.flags ++ [info.flags]
     mip_levels := m.mip_levels ++ [info.mip_levels]
     array_layers := m.array_layers ++ [info.array_layers]
     sample_counts := m.sample_counts ++ [info.sample_counts]
     is_imported := m.is_imported ++ [info.imported]
     is_transient := m.is_transient ++ [!info.imported] })

/-- resource.h lines 98-111: image_meta::is_compatible — strict equality of
format, extent, usage bits, type, flags, mips, layers and samples, with a
range check against names.size(). -/
def ImageMeta.is_compatible (m : ImageMeta) (a b : Nat) : Bool :=
  let count := m.names.length
  if a ≥ count ∨ b ≥ count then false
  else
    m.formats.getD a 0 = m.formats.getD b 0 ∧
    (m.extents.getD a ⟨0, 0, 0⟩).width = (m.extents.getD b ⟨0, 0, 0⟩).width ∧
    (m.extents.getD a ⟨0, 0, 0⟩).height = (m.extents.getD b ⟨0, 0, 0⟩).height ∧
    (m.extents.getD a ⟨0, 0, 0⟩).depth = (m.extents.getD b ⟨0, 0, 0⟩).depth ∧
    m.usages.getD a 0 = m.usages.getD b 0 ∧
    m.types.getD a 0 = m.types.getD b 0 ∧
    m.flags.getD a 0 = m.flags.getD b 0 ∧
    m.mip_levels.getD a 0 = m.mip_levels.getD b 0 ∧
    m.array_layers.getD a 0 = m.array_layers.getD b 0 ∧
    m.sample_counts.getD a 0 = m.sample_counts.getD b 0

/-- resource.h lines 113-126: image_meta::clear — clears every column,
including is_imported and is_transient. -/
def ImageMeta.clear (_ : ImageMeta) : ImageMeta :=
  { names := [], formats := [], extents := [], usages := [], types := []
    flags := [], mip_levels := [], array_layers := [], sample_counts := []
    is_imported := [], is_transient := [] }

/-- resource.h lines 130-168: buffer_meta (SoA table). -/
structure BufferMeta where
  names : List String := []
  sizes : List Nat := []
  usages : List Nat := []
  is_imported : List Bool := []
  is_transient : List Bool := []
deriving DecidableEq

/-- resource.h lines 141-150: buffer_meta::add. -/
def BufferMeta.add (m : BufferMeta) (info : BufferInfo) : Nat × BufferMeta :=
  (m.names.length,
   { names := m.names ++ [info.name]
     sizes := m.sizes ++ [info.size]
     usages := m.usages ++ [info.usage]
     is_imported := m.is_imported ++ [info.imported]
     is_transient := m.is_transient ++ [!info.imported] })

/-- resource.h lines 152-160: buffer_meta::is_compatible — equal size and
equal usage bits, with a range check. -/
def BufferMeta.is_compatible (m : BufferMeta) (a b : Nat) : Bool :=
  let count := m.names.length
  if a ≥ count ∨ b ≥ count then false
  else m.sizes.getD a 0 = m.sizes.getD b 0 ∧ m.usages.getD a 0 = m.usages.getD b 0

/-- resource.h lines 162-167: buffer_meta::clear.  NOTE: faithfully to the
source, only names, sizes and usages are cleared; the is_imported and
is_transient columns are left untouched (unlike image_meta::clear). -/
def BufferMeta.clear (m : BufferMeta) : BufferMeta :=
  { m with names := [], sizes := [], usages := [] }

/-- resource.h lines 171-181: resource_meta_table. -/
structure ResourceMetaTable where
  image_metas : ImageMeta := {}
  buffer_metas : BufferMeta := {}
deriving DecidableEq

/-- resource.h lines 176-180: resource_meta_table::clear. -/
def ResourceMetaTable.clear (t : ResourceMetaTable) : ResourceMetaTable :=
  { image_metas := t.image_metas.clear, buffer_metas := t.buffer_metas.clear }

/-! ### Dependency capture (graph.h) -/

/-- One read or write site: the resource handle passed by the callback and
the uint32 usage bits, as appended to read_list/write_list and usage_bits in
graph.h lines 68-94. -/
structure DepRecord where
  resource : Nat
  usage : Nat
deriving DecidableEq

/-- The dependency records one pass appends during its setup callback: the
contiguous CSR segment [begins[p], begins[p]+lengthes[p]) of each of the
four flat lists of system.h lines 21-24, in call order (graph.h lines
68-94 only ever push_back). -/
structure PassDeps where
  imageReads : List DepRecord := []
  imageWrites : List DepRecord := []
  bufferReads : List DepRecord := []
  bufferWrites : List DepRecord := []
deriving DecidableEq

/-- How a setup callback names a resource handle.  `lit n` is a hard-coded
handle value (as in the unit tests' read_image(0, ...)); `fresh k` is the
value of a variable capturing the handle returned by the k-th
create_image / create_buffer call (of the same kind) executed during the
current compile, across all passes in declaration order.  Since creates are
the only operations that grow a meta table and each returns the table size,
the k-th create of a compile returns (size at compile entry) + k, which is
what `fresh k` resolves to. -/
inductive ResRef where
  | lit (n : Nat)
  | fresh (k : Nat)
deriving DecidableEq

/-- Resolve a resource reference against the table size at compile entry. -/
def resolveRef (base : Nat) : ResRef → Nat
  | .lit n => n
  | .fresh k => base + k

/-- Deep embedding of the operation surface pass_setup_context exposes to a
setup callback (graph.h lines 35-95). -/
inductive SetupCmd where
  | createImage (info : ImageInfo)
  | createBuffer (info : BufferInfo)
  | readImage (resource : ResRef) (usage : Nat)
  | readBuffer (resource : ResRef) (usage : Nat)
  | writeImage (resource : ResRef) (usage : Nat)
  | writeBuffer (resource : ResRef) (usage : Nat)
  | declareImageOutput (resource : ResRef)
  | declareBufferOutput (resource : ResRef)
deriving DecidableEq

/-- State threaded through one pass's setup callback: the shared meta table
and output table, plus this pass's own dependency segment. -/
structure SetupState where
  meta_table : ResourceMetaTable
  deps : PassDeps
  image_outputs : List Nat
  buffer_outputs : List Nat
deriving DecidableEq

/-- Semantics of one setup-context call (graph.h lines 47-94).  create_*
appends to the meta table and the returned handle is the table size.
declare_*_output push_back unconditionally (their asserts are debug-only
range checks).  read_*/write_* append a record to this pass's segment.
baseImg / baseBuf are the meta table sizes at compile entry, against which
captured handles resolve. -/
def runCmd (baseImg baseBuf : Nat) (s : SetupState) : SetupCmd → SetupState
  | .createImage info =>
      { s with meta_table := { s.meta_table with
          image_metas := (s.meta_table.image_metas.add info).2 } }
  | .createBuffer info =>
      { s with meta_table := { s.meta_table with
          buffer_metas := (s.meta_table.buffer_metas.add info).2 } }
  | .readImage r u =>
      { s with deps := { s.deps with
          imageReads := s.deps.imageReads ++ [⟨resolveRef baseImg r, u⟩] } }
  | .readBuffer r u =>
      { s with deps := { s.deps with
          bufferReads := s.deps.bufferReads ++ [⟨resolveRef baseBuf r, u⟩] } }
  | .writeImage r u =>
      { s with deps := { s.deps with
          imageWrites := s.deps.imageWrites ++ [⟨resolveRef baseImg r, u⟩] } }
  | .writeBuffer r u =>
      { s with deps := { s.deps with
          bufferWrites := s.deps.bufferWrites ++ [⟨resolveRef baseBuf r, u⟩] } }
  | .declareImageOutput r =>
      { s with image_outputs := s.image_outputs ++ [resolveRef baseImg r] }
  | .declareBufferOutput r =>
      { s with buffer_outputs := s.buffer_outputs ++ [resolveRef baseBuf r] }

/-- Run one pass's setup callback (the loop body of system.h lines 113-125):
the pass starts with an empty dependency segment (its begins offsets are
captured before the callback runs). -/
def runPassSetup (baseImg baseBuf : Nat) (meta : ResourceMetaTable)
    (imgOuts bufOuts : List Nat) (cmds : List SetupCmd) : SetupState :=
  cmds.foldl (runCmd baseImg baseBuf) ⟨meta, {}, imgOuts, bufOuts⟩

/-- Result of Step A (system.h lines 100-125): the post-setup meta table,
the per-pass dependency segments, and the output table. -/
structure SetupOut where
  meta_table : ResourceMetaTable
  pass_deps : List PassDeps
  image_outputs : List Nat
  buffer_outputs : List Nat
deriving DecidableEq

/-- Step A: run every pass's setup callback in declaration order
(system.h lines 113-125).  Captured handles resolve against the meta
table sizes at compile entry. -/
def runSetups (meta0 : ResourceMetaTable) (passes : List (List SetupCmd)) : SetupOut :=
  passes.foldl
    (fun acc cmds =>
      let st := runPassSetup meta0.image_metas.names.length
        meta0.buffer_metas.names.length acc.meta_table acc.image_outputs
        acc.buffer_outputs cmds
      { meta_table := st.meta_table
        pass_deps := acc.pass_deps ++ [st.deps]
        image_outputs := st.image_outputs
        buffer_outputs := st.buffer_outputs })
    ⟨meta0, [], [], []⟩

/-! ### Step B: resource versioning (system.h lines 130-228)

The image and buffer sweeps are textually identical up to which dependency
lists and counters they touch (system.h lines 151-189 for images, 191-227
for buffers), so the embedding defines the sweep once and instantiates it
per kind.  Counters are uint32 in the source (version_handle), hence the
`% two32` on increment. -/

/-- The read branch of the versioning sweep (system.h lines 155-170 / 195-208):
next_version is ctr[res] when res is in range and 0 otherwise; a zero counter
yields the sentinel, otherwise pack(res, ctr[res] - 1). -/
def readVersionHandle (count : Nat) (ctr : Nat → Nat) (res : Nat) : Nat :=
  let next_version := if res < count then ctr res else 0
  if next_version = 0 then invalidResourceVersion
  else pack res (next_version - 1)

/-- The write branch (system.h lines 173-189 / 211-227): an out-of-range
handle records the sentinel and leaves the counter alone; otherwise the
site records pack(res, ctr[res]) and the uint32 counter is incremented. -/
def writeVersions (count : Nat) (ctr : Nat → Nat) :
    List DepRecord → List Nat × (Nat → Nat)
  | [] => ([], ctr)
  | r :: rest =>
    if r.resource ≥ count then
      (invalidResourceVersion :: (writeVersions count ctr rest).1,
       (writeVersions count ctr rest).2)
    else
      (pack r.resource (ctr r.resource) ::
         (writeVersions count
           (setAt ctr r.resource ((ctr r.resource + 1) % two32)) rest).1,
       (writeVersions count
         (setAt ctr r.resource ((ctr r.resource + 1) % two32)) rest).2)

/-- One pass of the versioning sweep for one resource kind: all of the
pass's reads are versioned first, then all of its writes (this is the
statement order of system.h lines 151-189: the read loop precedes the
write loop within each pass). -/
def versionPass (count : Nat) (ctr : Nat → Nat) (reads writes : List DepRecord) :
    List Nat × List Nat × (Nat → Nat) :=
  (reads.map fun r => readVersionHandle count ctr r.resource,
   (writeVersions count ctr writes).1, (writeVersions count ctr writes).2)

/-- The full versioning sweep over passes in declaration order (system.h
lines 147-228), for one resource kind given as the per-pass (reads, writes)
record lists.  Returns per-pass read version handles, per-pass write version
handles, and the final counters (image_next_versions / buffer_next_versions
after the loop). -/
def versionPasses (count : Nat) (ctr : Nat → Nat) :
    List (List DepRecord × List DepRecord) →
      List (List Nat) × List (List Nat) × (Nat → Nat)
  | [] => ([], [], ctr)
  | pr :: rest =>
    ((versionPass count ctr pr.1 pr.2).1 ::
       (versionPasses count (versionPass count ctr pr.1 pr.2).2.2 rest).1,
     (versionPass count ctr pr.1 pr.2).2.1 ::
       (versionPasses count (versionPass count ctr pr.1 pr.2).2.2 rest).2.1,
     (versionPasses count (versionPass count ctr pr.1 pr.2).2.2 rest).2.2)

/-! ### Step C: producer lookup table (system.h lines 230-323, resource.h
lines 183-213)

The flat producers array is keyed by offsets[h] + v where the offsets are
the prefix sums of the per-handle version counts; position (offsets[h] + v)
exists, i.e. is below offsets[h+1], iff v < counts[h].  The embedding keeps
the offsets as a function so that the source's `base + ver < end` guards can
be written verbatim. -/

/-- Prefix-sum offsets over the per-handle version counts (the `running`
accumulator of system.h lines 240-253). -/
def versionOffsets (vc : Nat → Nat) : Nat → Nat
  | 0 => 0
  | n + 1 => versionOffsets vc n + vc n

/-- latest_img / latest_buf entry for handle h (system.h lines 245-249 and
264-268): pack(h, counts[h] - 1) when the final counter is positive, the
sentinel otherwise. -/
def latestVersion (vc : Nat → Nat) (h : Nat) : Nat :=
  if vc h > 0 then pack h (vc h - 1) else invalidResourceVersion

/-- Fill loop body for one pass's write records (system.h lines 276-298 /
301-323): each stored versioned write handle is unpacked, range-checked, and
the producing pass recorded at (resource, version) if that slot exists. -/
def fillProducersPass (count : Nat) (vc : Nat → Nat) (pass : Nat)
    (prod : Nat → Nat → Nat) (writeVers : List Nat) : Nat → Nat → Nat :=
  writeVers.foldl
    (fun prod vh =>
      let res := unpackToResource vh
      let ver := unpackToVersion vh
      if res ≥ count then prod
      else if versionOffsets vc res + ver < versionOffsets vc (res + 1) then
        setAt2 prod res ver pass
      else prod)
    prod

/-- The full producer fill sweep (system.h lines 276-298): passes in
declaration order; all producer slots start at invalid_pass. -/
def fillProducers (count : Nat) (vc : Nat → Nat) (writeVers : List (List Nat)) :
    Nat → Nat → Nat :=
  (List.range writeVers.length).foldl
    (fun prod p => fillProducersPass count vc p prod (writeVers.getD p []))
    (fun _ _ => invalidPass)

/-- get_image_producer / get_buffer_producer (system.h lines 389-431): the
sentinel, an out-of-range resource, or a version with no producer slot give
invalid_pass; otherwise the producers table is consulted. -/
def getProducerFrom (count : Nat) (vc : Nat → Nat) (prod : Nat → Nat → Nat)
    (vh : Nat) : Nat :=
  if vh = invalidResourceVersion then invalidPass
  else
    let res := unpackToResource vh
    let ver := unpackToVersion vh
    if res ≥ count then invalidPass
    else if versionOffsets vc res + ver < versionOffsets vc (res + 1) then
      prod res ver
    else invalidPass

/-! ### Step D: culling (system.h lines 325-474) -/

/-- Worklist state of the culling stage: the active_pass_flags vector
(a predicate over pass handles) and the FIFO worklist. -/
structure CullState where
  flags : Nat → Bool
  wl : List Nat

/-- enqueue_pass (system.h lines 332-343): skip invalid or out-of-range
handles; mark and push a pass not yet marked. -/
def enqueuePass (passCount : Nat) (st : CullState) (pass : Nat) : CullState :=
  if pass = invalidPass ∨ pass ≥ passCount then st
  else if st.flags pass then st
  else { flags := setAt st.flags pass true, wl := st.wl ++ [pass] }

/-- enqueue_image_producer / enqueue_buffer_producer (system.h lines
345-387).  Their guard chain (sentinel, out-of-range resource, missing
producer slot) returns without enqueuing exactly when get_*_producer
(system.h lines 389-431) returns invalid_pass for the same handle, and
enqueue_pass ignores invalid_pass, so the composition is the same
function. -/
def enqueueProducer (passCount count : Nat) (vc : Nat → Nat)
    (prod : Nat → Nat → Nat) (st : CullState) (vh : Nat) : CullState :=
  enqueuePass passCount st (getProducerFrom count vc prod vh)

/-- Seeding (system.h lines 433-447): for each declared output handle in
range, enqueue the producer of its latest version. -/
def seedOutputs (passCount count : Nat) (vc : Nat → Nat)
    (prod : Nat → Nat → Nat) (outs : List Nat) (st : CullState) : CullState :=
  outs.foldl
    (fun st out =>
      if out < count then enqueueProducer passCount count vc prod st (latestVersion vc out)
      else st)
    st

/-- Everything the culling loop body needs: per-kind counts, version counts,
producer tables and per-pass read version handles. -/
structure CullCtx where
  passCount : Nat
  imageCount : Nat
  bufferCount : Nat
  imgVc : Nat → Nat
  bufVc : Nat → Nat
  imgProd : Nat → Nat → Nat
  bufProd : Nat → Nat → Nat
  imgReadVers : Nat → List Nat
  bufReadVers : Nat → List Nat

/-- Processing one popped pass (system.h lines 450-474): enqueue the
producer of every image read record, then of every buffer read record. -/
def cullStep (ctx : CullCtx) (st : CullState) (p : Nat) : CullState :=
  let st1 := (ctx.imgReadVers p).foldl
    (enqueueProducer ctx.passCount ctx.imageCount ctx.imgVc ctx.imgProd) st
  (ctx.bufReadVers p).foldl
    (enqueueProducer ctx.passCount ctx.bufferCount ctx.bufVc ctx.bufProd) st1

/-- The culling worklist loop (system.h lines 450-474), with explicit fuel.
cullFuel below is proved sufficient for the loop to drain the worklist. -/
def cullLoop (ctx : CullCtx) : Nat → CullState → CullState
  | 0, st => st
  | fuel + 1, st =>
    match st.wl with
    | [] => st
    | p :: rest => cullLoop ctx fuel (cullStep ctx { st with wl := rest } p)

/-- Fuel for the culling loop: each loop iteration pops one element while
every enqueue grows the worklist and the marked set together, so
(worklist length + passCount - marked count) decreases by one per
iteration and the initial value is at most wl.length + passCount. -/
def cullFuel (passCount : Nat) (st : CullState) : Nat := st.wl.length + passCount

/-- The whole culling stage: seed from the declared outputs, then drain. -/
def cullingStage (ctx : CullCtx) (imgOuts bufOuts : List Nat) : CullState :=
  let st0 : CullState := ⟨fun _ => false, []⟩
  let st1 := seedOutputs ctx.passCount ctx.imageCount ctx.imgVc ctx.imgProd imgOuts st0
  let st2 := seedOutputs ctx.passCount ctx.bufferCount ctx.bufVc ctx.bufProd bufOuts st1
  cullLoop ctx (cullFuel ctx.passCount st2) st2

/-- active_pass_count (system.h line 701): std::count over the flags
vector, which has pass_count entries. -/
def activeCountOf (passCount : Nat) (flags : Nat → Bool) : Nat :=
  ((List.range passCount).filter fun p => flags p).length

/-! ### Step F: DAG construction (system.h lines 571-664) -/

/-- add_edge guards (system.h lines 582-601): both endpoints valid, in
range, distinct and active. -/
def edgeOk (passCount : Nat) (flags : Nat → Bool) (e : Nat × Nat) : Bool :=
  ¬ e.1 = invalidPass ∧ ¬ e.2 = invalidPass ∧
  e.1 < passCount ∧ e.2 < passCount ∧ ¬ e.1 = e.2 ∧ flags e.1 ∧ flags e.2

/-- The edge list built by the consumer sweep (system.h lines 603-632):
for each active consumer pass, the producer of each of its image read
records and then of each of its buffer read records, filtered through the
add_edge guards, in push order. -/
def dagEdges (ctx : CullCtx) (flags : Nat → Bool) : List (Nat × Nat) :=
  (List.range ctx.passCount).flatMap fun c =>
    if flags c then
      (((ctx.imgReadVers c).map fun vh =>
          (getProducerFrom ctx.imageCount ctx.imgVc ctx.imgProd vh, c)) ++
       ((ctx.bufReadVers c).map fun vh =>
          (getProducerFrom ctx.bufferCount ctx.bufVc ctx.bufProd vh, c))).filter
        (edgeOk ctx.passCount flags)
    else []

/-- The raw per-producer adjacency (outgoing[from] of system.h line 581,
before sorting): the consumers of the edges whose producer is `from`, in
push order. -/
def outgoingRaw (edges : List (Nat × Nat)) (pfrom : Nat) : List Nat :=
  (edges.filter fun e => e.1 = pfrom).map fun e => e.2

/-- Sorted insertion, the helper of insertionSort below. -/
def orderedInsert (a : Nat) : List Nat → List Nat
  | [] => [a]
  | b :: l => if a ≤ b then a :: b :: l else b :: orderedInsert a l

/-- std::sort on a vector<uint32_t> (system.h line 643) produces the unique
sorted permutation of the input; insertionSort computes the same list. -/
def insertionSort : List Nat → List Nat
  | [] => []
  | a :: l => orderedInsert a (insertionSort l)

/-- std::unique on a sorted vector (system.h line 644): collapse each run
of consecutive duplicates to its first element. -/
def dedupAdjacent : List Nat → List Nat
  | [] => []
  | [a] => [a]
  | a :: b :: rest =>
    if a = b then dedupAdjacent (b :: rest) else a :: dedupAdjacent (b :: rest)

/-- The deduplicated adjacency list of one producer (system.h lines
640-645). -/
def adjacencyOf (edges : List (Nat × Nat)) (pfrom : Nat) : List Nat :=
  dedupAdjacent (insertionSort (outgoingRaw edges pfrom))

/-- in_degrees recomputed from the deduplicated lists (system.h lines
646-653): the number of occurrences of v across all producers' adjacency
lists; since each increment in the source adds one per occurrence, the
total is this sum. -/
def inDegreeOf (passCount : Nat) (adj : Nat → List Nat) (v : Nat) : Nat :=
  ((List.range passCount).map fun u => (adj u).count v).sum

/-- out_degrees (system.h line 648). -/
def outDegreeOf (adj : Nat → List Nat) (u : Nat) : Nat := (adj u).length

/-! ### Step G: Kahn scheduling (system.h lines 666-702) -/

/-- Kahn loop state: the working copy of the in-degrees, the
zero-in-degree FIFO queue, and the schedule built so far. -/
structure KahnState where
  ctr : Nat → Nat
  queue : List Nat
  sorted : List Nat

/-- Relaxing one successor edge (system.h lines 691-699): decrement the
destination's in-degree copy (a uint32; the cycle-check development below
proves the counter is positive whenever this runs, so truncated
subtraction agrees with the source) and enqueue it on reaching zero. -/
def kahnRelax (st : KahnState) (dst : Nat) : KahnState :=
  { st with
    ctr := setAt st.ctr dst (st.ctr dst - 1)
    queue := if st.ctr dst - 1 = 0 then st.queue ++ [dst] else st.queue }

/-- The Kahn worklist loop (system.h lines 682-700) with explicit fuel:
pop the front pass, append it to the schedule, relax its outgoing edges. -/
def kahnLoop (adj : Nat → List Nat) : Nat → KahnState → KahnState
  | 0, st => st
  | fuel + 1, st =>
    match st.queue with
    | [] => st
    | p :: rest =>
      kahnLoop adj fuel
        ((adj p).foldl kahnRelax { st with queue := rest, sorted := st.sorted ++ [p] })

/-- Initial Kahn state (system.h lines 670-680): the in-degree copy, and
every active zero-in-degree pass queued in increasing handle order. -/
def kahnInit (passCount : Nat) (flags : Nat → Bool) (adj : Nat → List Nat) : KahnState :=
  { ctr := inDegreeOf passCount adj
    queue := (List.range passCount).filter fun p =>
      flags p ∧ inDegreeOf passCount adj p = 0
    sorted := [] }

/-- Fuel for the Kahn loop: every iteration pops one queue element and
appends it to the schedule, scheduled passes are distinct and below
pass_count, so at most pass_count iterations can ever run; the proofs
below show this fuel drains the queue, making the fueled loop compute
the same fixed point as the source's while loop. -/
def kahnFuel (passCount : Nat) : Nat := passCount + 1

/-- The whole scheduling stage (system.h lines 666-702): the schedule and
the cycle flag, which is set exactly when the drained queue scheduled
fewer passes than are active (the condition of the fatal assert at
system.h line 702). -/
def topoSort (passCount : Nat) (flags : Nat → Bool) (adj : Nat → List Nat) :
    List Nat × Bool :=
  let final := kahnLoop adj (kahnFuel passCount) (kahnInit passCount flags adj)
  (final.sorted, final.sorted.length ≠ activeCountOf passCount flags)

/-! ### Step H.1/H.2: lifetime analysis (system.h lines 704-775) -/

/-- sorted_pass_indices (system.h lines 712-716): map each scheduled pass
to its schedule position; entries start at 0 and sorted_pass_indices of
sorted[i] is assigned i, later assignments winning. -/
def sortedPassIndices (sorted : List Nat) : Nat → Nat :=
  (List.range sorted.length).foldl
    (fun f i => setAt f (sorted.getD i 0) i)
    (fun _ => 0)

/-- update_lifetime (system.h lines 729-737) on the (firsts, lasts) pair:
ignore out-of-range handles; set first on first touch; always set last. -/
def updateLifetime (count idx : Nat) (st : (Nat → Nat) × (Nat → Nat)) (res : Nat) :
    (Nat → Nat) × (Nat → Nat) :=
  if res ≥ count then st
  else
    ((if st.1 res = invalidPass then setAt st.1 res idx else st.1),
     setAt st.2 res idx)

/-- The lifetime sweep for one resource kind (system.h lines 718-775):
walk the schedule in order; for each pass, update the lifetime of every
resource it reads and then every resource it writes (firsts start at
invalid_pass, lasts at 0). -/
def lifetimeStage (count : Nat) (recsOf : Nat → List DepRecord)
    (spIdx : Nat → Nat) (sorted : List Nat) : (Nat → Nat) × (Nat → Nat) :=
  sorted.foldl
    (fun st pass =>
      (recsOf pass).foldl (fun st r => updateLifetime count (spIdx pass) st r.resource) st)
    (fun _ => invalidPass, fun _ => 0)

/-! ### Step H.3: greedy first-fit aliasing (system.h lines 777-912) -/

/-- is_overlapping (system.h lines 781-784). -/
def isOverlapping (startA endA startB endB : Nat) : Bool :=
  max startA startB ≤ min endA endB

/-- Whether any interval already on a slot overlaps [first, last]
(system.h lines 826-834 / 885-893). -/
def overlapsAny (first last : Nat) (ivs : List (Nat × Nat)) : Bool :=
  ivs.any fun iv => isOverlapping first last iv.1 iv.2

/-- Aliasing allocator state: the physical representative table, the
handle-to-physical mapping (invalid_resource when unassigned), and the
per-slot lifetime interval lists. -/
structure AliasState where
  physical_meta : List Nat
  handle_to_physical : Nat → Nat
  life_intervals : List (List (Nat × Nat))

/-- The first-fit scan over existing slots (system.h lines 814-843):
skip slots with an empty interval list (imported slots), skip
incompatible representatives, skip slots with an overlapping interval;
return the first eligible slot index. -/
def findAliasSlot (compat : Nat → Nat → Bool) (res first last : Nat) :
    List Nat → List (List (Nat × Nat)) → Nat → Option Nat
  | [], _, _ => none
  | _, [], _ => none
  | rep :: reps, ivs :: rest, u =>
    if ivs.isEmpty then findAliasSlot compat res first last reps rest (u + 1)
    else if ¬ compat rep res then findAliasSlot compat res first last reps rest (u + 1)
    else if overlapsAny first last ivs then findAliasSlot compat res first last reps rest (u + 1)
    else some u

/-- Processing one resource handle (system.h lines 794-852): skip unused
resources; give imported resources a fresh slot with an empty interval
list; otherwise first-fit into an eligible slot or open a fresh one. -/
def aliasOne (isImported : Nat → Bool) (compat : Nat → Nat → Bool)
    (firstU lastU : Nat → Nat) (st : AliasState) (res : Nat) : AliasState :=
  let first := firstU res
  let last := lastU res
  if first = invalidPass then st
  else if isImported res then
    { physical_meta := st.physical_meta ++ [res]
      handle_to_physical := setAt st.handle_to_physical res st.physical_meta.length
      life_intervals := st.life_intervals ++ [[]] }
  else
    match findAliasSlot compat res first last st.physical_meta st.life_intervals 0 with
    | some u =>
      { st with
        life_intervals :=
          st.life_intervals.set u (st.life_intervals.getD u [] ++ [(first, last)])
        handle_to_physical := setAt st.handle_to_physical res u }
    | none =>
      { physical_meta := st.physical_meta ++ [res]
        handle_to_physical := setAt st.handle_to_physical res st.physical_meta.length
        life_intervals := st.life_intervals ++ [[(first, last)]] }

/-- The whole aliasing pass for one kind (system.h lines 786-853 for
images, 856-912 for buffers): resources in handle order, starting from an
empty physical table and an all-invalid mapping. -/
def aliasStage (count : Nat) (isImported : Nat → Bool) (compat : Nat → Nat → Bool)
    (firstU lastU : Nat → Nat) : AliasState :=
  (List.range count).foldl (aliasOne isImported compat firstU lastU)
    ⟨[], fun _ => invalidResource, []⟩

/-! ### Step I: barrier plan (system.h lines 914-1121, barrier.h) -/

/-- barrier.h lines 12-16: resource_kind. -/
inductive ResourceKind where
  | image
  | buffer
deriving DecidableEq

/-- barrier.h lines 18-23: access_type. -/
inductive AccessType where
  | read
  | write
  | read_write
deriving DecidableEq

/-- barrier.h lines 26-32: pipeline_domain. -/
inductive PipelineDomain where
  | any
  | graphics
  | compute
  | copy
deriving DecidableEq

/-- barrier.h lines 34-39: barrier_op_type. -/
inductive BarrierOpType where
  | transition
  | uav
  | aliasing
deriving DecidableEq

/-- barrier.h lines 43-68: barrier_op with its member defaults; ops the
source constructs leave unset fields at these defaults. -/
structure BarrierOp where
  type : BarrierOpType := .transition
  kind : ResourceKind := .image
  logical : Nat := 0
  physical : Nat := 0
  src_domain : PipelineDomain := .any
  dst_domain : PipelineDomain := .any
  src_access : AccessType := .read
  dst_access : AccessType := .read
  src_usage_bits : Nat := 0
  dst_usage_bits : Nat := 0
  prev_logical : Nat := 0
deriving DecidableEq

/-- system.h lines 923-930: the last_use record per physical slot. -/
structure LastUse where
  logical : Nat := 0
  usage_bits : Nat := 0
  domain : PipelineDomain := .any
  access : AccessType := .read
  valid : Bool := false
deriving DecidableEq

/-- to_access (system.h lines 936-941). -/
def toAccess (hasRead hasWrite : Bool) : AccessType :=
  if hasRead && hasWrite then .read_write
  else if hasWrite then .write
  else .read

/-- needs_uav_like (system.h lines 943-950): image_usage::STORAGE = 8 for
images, buffer_usage::STORAGE_BUFFER = 8 for buffers
(resource_types.h lines 24 and 46). -/
def needsUavLike (kind : ResourceKind) (usageBits : Nat) : Bool :=
  match kind with
  | .image => usageBits &&& 8 ≠ 0
  | .buffer => usageBits &&& 8 ≠ 0

/-- insert_barrier (system.h lines 952-1018): given the last-use table of
the touched kind (of size physCount), emit the aliasing op, the
transition op and the UAV op in that order as dictated by the previous
state of the physical slot, and update the slot's last use. -/
def insertBarrier (physCount : Nat) (last : Nat → LastUse) (kind : ResourceKind)
    (logical physical : Nat) (desiredAccess : AccessType) (desiredUsageBits : Nat) :
    List BarrierOp × (Nat → LastUse) :=
  if physical = invalidResource then ([], last)
  else if physical ≥ physCount then ([], last)
  else
    let l := last physical
    let aliasingOps : List BarrierOp :=
      if l.valid ∧ ¬ l.logical = logical then
        [{ type := .aliasing, kind := kind, logical := logical,
           prev_logical := l.logical, physical := physical }]
      else []
    let transitionOps : List BarrierOp :=
      if l.valid ∧ (¬ l.usage_bits = desiredUsageBits ∨ ¬ l.access = desiredAccess ∨
          ¬ l.domain = PipelineDomain.any) then
        [{ type := .transition, kind := kind, logical := logical, physical := physical,
           src_domain := l.domain, dst_domain := .any,
           src_access := l.access, dst_access := desiredAccess,
           src_usage_bits := l.usage_bits, dst_usage_bits := desiredUsageBits }]
      else []
    let uavOps : List BarrierOp :=
      if l.valid ∧ ¬ l.access = AccessType.read ∧ needsUavLike kind desiredUsageBits then
        [{ type := .uav, kind := kind, logical := logical, physical := physical }]
      else []
    let newLast : LastUse :=
      { valid := true, logical := logical, access := desiredAccess,
        domain := .any, usage_bits := desiredUsageBits }
    (aliasingOps ++ transitionOps ++ uavOps, setAt last physical newLast)

/-- The merge of one pass's read and write records for one kind into
(logical, has-read/has-write flags, OR of usage bits) descriptors
(system.h lines 1025-1044 / 1057-1076).  The source accumulates into an
unordered_map whose iteration order is implementation-defined; the
embedding fixes first-touch order. -/
def rwUpsert (entries : List (Nat × (Bool × Bool) × Nat)) (logical : Nat)
    (upd : Bool × Bool → Bool × Bool) (bits : Nat) :
    List (Nat × (Bool × Bool) × Nat) :=
  match entries with
  | [] => [(logical, upd (false, false), Nat.lor 0 bits)]
  | (l, f, u) :: rest =>
    if l = logical then (l, upd f, Nat.lor u bits) :: rest
    else (l, f, u) :: rwUpsert rest logical upd bits

/-- Collect the (read, write, usage) descriptors of one pass for one kind:
reads first, then writes, as in system.h lines 1028-1044. -/
def collectRW (reads writes : List DepRecord) : List (Nat × (Bool × Bool) × Nat) :=
  let e1 := reads.foldl (fun es r => rwUpsert es r.resource (fun f => (true, f.2)) r.usage) []
  writes.foldl (fun es r => rwUpsert es r.resource (fun f => (f.1, true)) r.usage) e1

/-- One pass's barrier ops for one kind (system.h lines 1046-1052 /
1078-1084): look up each touched logical's physical id (guarded by the
mapping-table size, i.e. the resource count) and run insert_barrier. -/
def barrierPassKind (count physCount : Nat) (h2p : Nat → Nat) (kind : ResourceKind)
    (reads writes : List DepRecord) (last : Nat → LastUse) :
    List BarrierOp × (Nat → LastUse) :=
  (collectRW reads writes).foldl
    (fun acc e =>
      (acc.1 ++ (insertBarrier physCount acc.2 kind e.1
          (if e.1 < count then h2p e.1 else invalidResource)
          (toAccess e.2.1.1 e.2.1.2) e.2.2).1,
       (insertBarrier physCount acc.2 kind e.1
          (if e.1 < count then h2p e.1 else invalidResource)
          (toAccess e.2.1.1 e.2.1.2) e.2.2).2))
    ([], last)

/-- The barrier planning sweep (system.h lines 1020-1121): walk the
schedule; per pass handle images then buffers; finally lay the per-pass op
lists out by pass handle (unscheduled passes get empty slices, as in the
CSR flattening of lines 1088-1121). -/
def barrierStage (passCount imageCount bufferCount physImgCount physBufCount : Nat)
    (h2pImg h2pBuf : Nat → Nat) (depsOf : Nat → PassDeps) (sorted : List Nat) :
    List (List BarrierOp) :=
  let final := sorted.foldl
    (fun (acc : (Nat → List BarrierOp) × (Nat → LastUse) × (Nat → LastUse)) pass =>
      (setAt acc.1 pass
        (acc.1 pass ++
          (barrierPassKind imageCount physImgCount h2pImg .image
            (depsOf pass).imageReads (depsOf pass).imageWrites acc.2.1).1 ++
          (barrierPassKind bufferCount physBufCount h2pBuf .buffer
            (depsOf pass).bufferReads (depsOf pass).bufferWrites acc.2.2).1),
       (barrierPassKind imageCount physImgCount h2pImg .image
         (depsOf pass).imageReads (depsOf pass).imageWrites acc.2.1).2,
       (barrierPassKind bufferCount physBufCount h2pBuf .buffer
         (depsOf pass).bufferReads (depsOf pass).bufferWrites acc.2.2).2))
    (fun _ => [], fun _ => {}, fun _ => {})
  (List.range passCount).map final.1

/-! ### compile() (system.h lines 69-1134) -/

/- (definitions continue; all theorems are collected further below) -/

/-- Everything compile() computes and stores on the system object.
Derived arrays indexed by handles are kept as functions; per-pass and
per-slot tables as lists. -/
structure CompileResult where
  meta_table : ResourceMetaTable
  pass_deps : List PassDeps
  image_outputs : List Nat
  buffer_outputs : List Nat
  img_ver_reads : List (List Nat)
  img_ver_writes : List (List Nat)
  buf_ver_reads : List (List Nat)
  buf_ver_writes : List (List Nat)
  img_version_count : Nat → Nat
  buf_version_count : Nat → Nat
  img_producers : Nat → Nat → Nat
  buf_producers : Nat → Nat → Nat
  active_pass_flags : Nat → Bool
  dag_adj : Nat → List Nat
  sorted_passes : List Nat
  cycle_error : Bool
  image_first_used : Nat → Nat
  image_last_used : Nat → Nat
  buffer_first_used : Nat → Nat
  buffer_last_used : Nat → Nat
  physical_image_meta : List Nat
  handle_to_physical_img : Nat → Nat
  physical_buffer_meta : List Nat
  handle_to_physical_buf : Nat → Nat
  barriers : List (List BarrierOp)

/-- Per-pass (reads, writes) pairs of the image kind. -/
def passPairsImg (deps : List PassDeps) : List (List DepRecord × List DepRecord) :=
  deps.map fun d => (d.imageReads, d.imageWrites)

/-- Per-pass (reads, writes) pairs of the buffer kind. -/
def passPairsBuf (deps : List PassDeps) : List (List DepRecord × List DepRecord) :=
  deps.map fun d => (d.bufferReads, d.bufferWrites)

/-- The culling context derived from the post-versioning state. -/
def cullCtxOf (passCount imageCount bufferCount : Nat)
    (imgCtr bufCtr : Nat → Nat) (imgProd bufProd : Nat → Nat → Nat)
    (imgVR bufVR : List (List Nat)) : CullCtx :=
  { passCount := passCount
    imageCount := imageCount
    bufferCount := bufferCount
    imgVc := imgCtr
    bufVc := bufCtr
    imgProd := imgProd
    bufProd := bufProd
    imgReadVers := fun p => imgVR.getD p []
    bufReadVers := fun p => bufVR.getD p [] }

/-- Step A of compile: the setup phase output. -/
def compileSetup (passes : List (List SetupCmd)) (m : ResourceMetaTable) : SetupOut :=
  runSetups m passes

/-- image_count at system.h line 127. -/
def compileImageCount (passes : List (List SetupCmd)) (m : ResourceMetaTable) : Nat :=
  (compileSetup passes m).meta_table.image_metas.names.length

/-- buffer_count at system.h line 128. -/
def compileBufferCount (passes : List (List SetupCmd)) (m : ResourceMetaTable) : Nat :=
  (compileSetup passes m).meta_table.buffer_metas.names.length

/-- Step B for images: versioned read/write handles and final counters. -/
def compileImgVersions (passes : List (List SetupCmd)) (m : ResourceMetaTable) :
    List (List Nat) × List (List Nat) × (Nat → Nat) :=
  versionPasses (compileImageCount passes m) (fun _ => 0)
    (passPairsImg (compileSetup passes m).pass_deps)

/-- Step B for buffers. -/
def compileBufVersions (passes : List (List SetupCmd)) (m : ResourceMetaTable) :
    List (List Nat) × List (List Nat) × (Nat → Nat) :=
  versionPasses (compileBufferCount passes m) (fun _ => 0)
    (passPairsBuf (compileSetup passes m).pass_deps)

/-- Step C for images: the filled producer table. -/
def compileImgProducers (passes : List (List SetupCmd)) (m : ResourceMetaTable) :
    Nat → Nat → Nat :=
  fillProducers (compileImageCount passes m) (compileImgVersions passes m).2.2
    (compileImgVersions passes m).2.1

/-- Step C for buffers. -/
def compileBufProducers (passes : List (List SetupCmd)) (m : ResourceMetaTable) :
    Nat → Nat → Nat :=
  fillProducers (compileBufferCount passes m) (compileBufVersions passes m).2.2
    (compileBufVersions passes m).2.1

/-- The per-kind tables Steps D and F read. -/
def compileCtx (passes : List (List SetupCmd)) (m : ResourceMetaTable) : CullCtx :=
  cullCtxOf passes.length (compileImageCount passes m) (compileBufferCount passes m)
    (compileImgVersions passes m).2.2 (compileBufVersions passes m).2.2
    (compileImgProducers passes m) (compileBufProducers passes m)
    (compileImgVersions passes m).1 (compileBufVersions passes m).1

/-- Step D: the active_pass_flags after culling. -/
def compileFlags (passes : List (List SetupCmd)) (m : ResourceMetaTable) : Nat → Bool :=
  (cullingStage (compileCtx passes m) (compileSetup passes m).image_outputs
    (compileSetup passes m).buffer_outputs).flags

/-- Step F: the deduplicated CSR adjacency. -/
def compileAdj (passes : List (List SetupCmd)) (m : ResourceMetaTable) : Nat → List Nat :=
  adjacencyOf (dagEdges (compileCtx passes m) (compileFlags passes m))

/-- Step G: the schedule and the cycle flag. -/
def compileTopo (passes : List (List SetupCmd)) (m : ResourceMetaTable) :
    List Nat × Bool :=
  topoSort passes.length (compileFlags passes m) (compileAdj passes m)

/-- Step H.1/H.2 for images. -/
def compileImgLife (passes : List (List SetupCmd)) (m : ResourceMetaTable) :
    (Nat → Nat) × (Nat → Nat) :=
  lifetimeStage (compileImageCount passes m)
    (fun p => ((compileSetup passes m).pass_deps.getD p {}).imageReads ++
      ((compileSetup passes m).pass_deps.getD p {}).imageWrites)
    (sortedPassIndices (compileTopo passes m).1) (compileTopo passes m).1

/-- Step H.1/H.2 for buffers. -/
def compileBufLife (passes : List (List SetupCmd)) (m : ResourceMetaTable) :
    (Nat → Nat) × (Nat → Nat) :=
  lifetimeStage (compileBufferCount passes m)
    (fun p => ((compileSetup passes m).pass_deps.getD p {}).bufferReads ++
      ((compileSetup passes m).pass_deps.getD p {}).bufferWrites)
    (sortedPassIndices (compileTopo passes m).1) (compileTopo passes m).1

/-- Step H.3 for images. -/
def compileAliasImg (passes : List (List SetupCmd)) (m : ResourceMetaTable) : AliasState :=
  aliasStage (compileImageCount passes m)
    (fun r => (compileSetup passes m).meta_table.image_metas.is_imported.getD r false)
    (fun a b => (compileSetup passes m).meta_table.image_metas.is_compatible a b)
    (compileImgLife passes m).1 (compileImgLife passes m).2

/-- Step H.3 for buffers. -/
def compileAliasBuf (passes : List (List SetupCmd)) (m : ResourceMetaTable) : AliasState :=
  aliasStage (compileBufferCount passes m)
    (fun r => (compileSetup passes m).meta_table.buffer_metas.is_imported.getD r false)
    (fun a b => (compileSetup passes m).meta_table.buffer_metas.is_compatible a b)
    (compileBufLife passes m).1 (compileBufLife passes m).2

/-- Step I: the per-pass barrier plan. -/
def compileBarriers (passes : List (List SetupCmd)) (m : ResourceMetaTable) :
    List (List BarrierOp) :=
  barrierStage passes.length (compileImageCount passes m) (compileBufferCount passes m)
    (compileAliasImg passes m).physical_meta.length
    (compileAliasBuf passes m).physical_meta.length
    (compileAliasImg passes m).handle_to_physical
    (compileAliasBuf passes m).handle_to_physical
    (fun p => (compileSetup passes m).pass_deps.getD p {}) (compileTopo passes m).1

/-- render_graph_system::compile (system.h lines 69-1134).  The graph is
the list of per-pass setup command lists (graph.passes[i] = i by
construction of add_pass, system.h lines 57-65); meta0 is the meta table
the system carries into the call (compile never resets it; only clear()
touches it). -/
def compile (passes : List (List SetupCmd)) (m : ResourceMetaTable) : CompileResult :=
  { meta_table := (compileSetup passes m).meta_table
    pass_deps := (compileSetup passes m).pass_deps
    image_outputs := (compileSetup passes m).image_outputs
    buffer_outputs := (compileSetup passes m).buffer_outputs
    img_ver_reads := (compileImgVersions passes m).1
    img_ver_writes := (compileImgVersions passes m).2.1
    buf_ver_reads := (compileBufVersions passes m).1
    buf_ver_writes := (compileBufVersions passes m).2.1
    img_version_count := (compileImgVersions passes m).2.2
    buf_version_count := (compileBufVersions passes m).2.2
    img_producers := compileImgProducers passes m
    buf_producers := compileBufProducers passes m
    active_pass_flags := compileFlags passes m
    dag_adj := compileAdj passes m
    sorted_passes := (compileTopo passes m).1
    cycle_error := (compileTopo passes m).2
    image_first_used := (compileImgLife passes m).1
    image_last_used := (compileImgLife passes m).2
    buffer_first_used := (compileBufLife passes m).1
    buffer_last_used := (compileBufLife passes m).2
    physical_image_meta := (compileAliasImg passes m).physical_meta
    handle_to_physical_img := (compileAliasImg passes m).handle_to_physical
    physical_buffer_meta := (compileAliasBuf passes m).physical_meta
    handle_to_physical_buf := (compileAliasBuf passes m).handle_to_physical
    barriers := compileBarriers passes m }

/-- render_graph_system::clear (system.h lines 1157-1160): only the meta
table is cleared. -/
def clearMeta (m : ResourceMetaTable) : ResourceMetaTable := m.clear

/-! ### Specification-side notions referenced by the claims -/

/-- The culling seed passes: for every declared output handle in range, the
producer of its latest version, kept when it is a valid in-range pass
(the conditions under which enqueue_pass actually marks, system.h lines
332-343 and 433-447). -/
def cullSeedsOf (ctx : CullCtx) (imgOuts bufOuts : List Nat) : List Nat :=
  (((imgOuts.filter fun o => o < ctx.imageCount).map fun o =>
      getProducerFrom ctx.imageCount ctx.imgVc ctx.imgProd (latestVersion ctx.imgVc o)) ++
   ((bufOuts.filter fun o => o < ctx.bufferCount).map fun o =>
      getProducerFrom ctx.bufferCount ctx.bufVc ctx.bufProd (latestVersion ctx.bufVc o))).filter
    fun p => ¬ p = invalidPass ∧ p < ctx.passCount

/-- The read-site producer edges followed backwards by culling: the valid
in-range producers of pass q's image and buffer read records. -/
def cullSuccOf (ctx : CullCtx) (q : Nat) : List Nat :=
  (((ctx.imgReadVers q).map (getProducerFrom ctx.imageCount ctx.imgVc ctx.imgProd)) ++
   ((ctx.bufReadVers q).map (getProducerFrom ctx.bufferCount ctx.bufVc ctx.bufProd))).filter
    fun p => ¬ p = invalidPass ∧ p < ctx.passCount

/-- Transitive reachability from a seed set along a successor-list
relation; culling is claimed to mark exactly the passes reachable in this
sense. -/
inductive ReachesFrom (seeds : List Nat) (succ : Nat → List Nat) : Nat → Prop where
  | seed (p : Nat) : p ∈ seeds → ReachesFrom seeds succ p
  | step (q p : Nat) : ReachesFrom seeds succ q → p ∈ succ q → ReachesFrom seeds succ p

/-- The number of in-range write records to handle res in one record
list (an out-of-range write does not advance the version counter). -/
def countWritesTo (count res : Nat) (writes : List DepRecord) : Nat :=
  (writes.filter fun r => r.resource = res ∧ r.resource < count).length

/-- The number of in-range writes to res performed by the passes strictly
before pass p, over the per-pass (reads, writes) pairs of one kind. -/
def writesBeforePass (count res : Nat)
    (pairs : List (List DepRecord × List DepRecord)) (p : Nat) : Nat :=
  ((pairs.take p).map fun pr => countWritesTo count res pr.2).sum

/-- The total number of in-range writes to res across all passes. -/
def totalWritesTo (count res : Nat)
    (pairs : List (List DepRecord × List DepRecord)) : Nat :=
  (pairs.map fun pr => countWritesTo count res pr.2).sum

/-- The total number of write records (of one kind) across all passes,
used as a decidable bound ensuring the uint32 version counters cannot
wrap. -/
def flatWriteLen (pairs : List (List DepRecord × List DepRecord)) : Nat :=
  (pairs.map fun pr => pr.2.length).sum

/-- The image read records a command list produces, in call order, with
captured handles resolved: the projection of runCmd's readImage case. -/
def extractImageReads (base : Nat) (cmds : List SetupCmd) : List DepRecord :=
  cmds.filterMap fun c => match c with
    | .readImage r u => some ⟨resolveRef base r, u⟩
    | _ => none

/-- The image write records a command list produces, in call order. -/
def extractImageWrites (base : Nat) (cmds : List SetupCmd) : List DepRecord :=
  cmds.filterMap fun c => match c with
    | .writeImage r u => some ⟨resolveRef base r, u⟩
    | _ => none

/-- The buffer read records a command list produces, in call order. -/
def extractBufferReads (base : Nat) (cmds : List SetupCmd) : List DepRecord :=
  cmds.filterMap fun c => match c with
    | .readBuffer r u => some ⟨resolveRef base r, u⟩
    | _ => none

/-- The buffer write records a command list produces, in call order. -/
def extractBufferWrites (base : Nat) (cmds : List SetupCmd) : List DepRecord :=
  cmds.filterMap fun c => match c with
    | .writeBuffer r u => some ⟨resolveRef base r, u⟩
    | _ => none

/-- The dependency segment one callback produces, independent of the
shared meta-table / output-table state it threads. -/
def depsOfCmds (baseImg baseBuf : Nat) (cmds : List SetupCmd) : PassDeps :=
  { imageReads := extractImageReads baseImg cmds
    imageWrites := extractImageWrites baseImg cmds
    bufferReads := extractBufferReads baseBuf cmds
    bufferWrites := extractBufferWrites baseBuf cmds }

/-- What the spec says the versioning stage computes for one resource
kind, in terms of prior-write counts: the final counter of every handle is
its total number of in-range writes; latest[h] packs the last version or
is the sentinel; the j-th read record of pass p sees the number of writes
by earlier passes (a pass's reads are versioned before any of its own
writes); the j-th write record of pass p packs the number of in-range
writes strictly before it (earlier passes plus earlier sites in the same
pass), the counter value at that site. -/
def versioningSpec (count : Nat) (pairs : List (List DepRecord × List DepRecord))
    (verReads verWrites : List (List Nat)) (vc : Nat → Nat) : Prop :=
  (∀ res, vc res = totalWritesTo count res pairs) ∧
  (∀ h, h < count → latestVersion vc h =
    if totalWritesTo count h pairs = 0 then invalidResourceVersion
    else pack h (totalWritesTo count h pairs - 1)) ∧
  (∀ p, p < pairs.length → verReads.getD p [] =
    (pairs.getD p ([], [])).1.map fun r =>
      if r.resource < count ∧ ¬ writesBeforePass count r.resource pairs p = 0 then
        pack r.resource (writesBeforePass count r.resource pairs p - 1)
      else invalidResourceVersion) ∧
  (∀ p, p < pairs.length → ∀ j, j < (pairs.getD p ([], [])).2.length →
    (verWrites.getD p []).getD j 0 =
      if ((pairs.getD p ([], [])).2.getD j ⟨0, 0⟩).resource < count then
        pack ((pairs.getD p ([], [])).2.getD j ⟨0, 0⟩).resource
          (writesBeforePass count ((pairs.getD p ([], [])).2.getD j ⟨0, 0⟩).resource
              pairs p +
            countWritesTo count ((pairs.getD p ([], [])).2.getD j ⟨0, 0⟩).resource
              ((pairs.getD p ([], [])).2.take j))
      else invalidResourceVersion)

/-- A directed cycle in an adjacency-function graph: some node reaches
itself by at least one edge. -/
def HasCycle (adj : Nat → List Nat) : Prop :=
  ∃ p, Relation.TransGen (fun a b => b ∈ adj a) p p

/-- The number of edges into v from passes not yet scheduled: what the
working copy of the in-degrees holds at every point of Kahn's loop. -/
def remainingDeg (n : Nat) (adj : Nat → List Nat) (sorted : List Nat) (v : Nat) : Nat :=
  (((List.range n).filter fun u => ¬ u ∈ sorted).map fun u => (adj u).count v).sum

/-- Whether a setup command creates a logical resource (the only commands
that mutate the meta table). -/
def hasCreate : SetupCmd → Bool
  | .createImage _ => true
  | .createBuffer _ => true
  | _ => false

/-- A graph whose setup callbacks never create resources, so compile
leaves the meta table exactly as it found it. -/
def noCreates (passes : List (List SetupCmd)) : Bool :=
  passes.all fun cmds => cmds.all fun c => ! hasCreate c

/-! ### Concrete scenario inputs used by counterexamples and witnesses -/

/-- A 64x64 color-attachment image description (as in the unit tests). -/
def imgInfoA : ImageInfo :=
  { name := "img", fmt := 1, extent := ⟨64, 64, 1⟩, usage := 16, type := 1,
    flags := 0, mip_levels := 1, array_layers := 1, sample_counts := 1,
    imported := false }

/-- Straight-line chain: pass 0 creates and writes image 0; pass 1 reads
image 0 and creates and writes image 1; pass 2 reads image 1, creates and
writes image 2 and declares it the output. -/
def chainGraph : List (List SetupCmd) :=
  [ [.createImage imgInfoA, .writeImage (.fresh 0) 16],
    [.readImage (.lit 0) 4, .createImage imgInfoA, .writeImage (.fresh 1) 16],
    [.readImage (.lit 1) 4, .createImage imgInfoA, .writeImage (.fresh 2) 16,
     .declareImageOutput (.fresh 2)] ]

/-- One pass that creates an image, writes the returned handle and declares
it the output (the captured-handle pattern of all the unit tests). -/
def singlePassGraph : List (List SetupCmd) :=
  [[.createImage imgInfoA, .writeImage (.fresh 0) 16, .declareImageOutput (.fresh 0)]]

/-- A graph whose only pass reads an image and creates nothing. -/
def noCreateGraph : List (List SetupCmd) := [[.readImage (.lit 0) 4]]

/-- A 16-byte storage buffer description. -/
def bufInfoA : BufferInfo := { name := "buf", size := 16, usage := 8, imported := false }

/-- UAV scenario: pass 0 creates buffer 0 and writes it with
STORAGE_BUFFER usage (8); pass 1 reads buffer 0 with STORAGE_BUFFER
usage, creates and writes buffer 1 and declares it the output. -/
def uavGraph : List (List SetupCmd) :=
  [ [.createBuffer bufInfoA, .writeBuffer (.fresh 0) 8],
    [.readBuffer (.lit 0) 8, .createBuffer bufInfoA, .writeBuffer (.fresh 1) 8,
     .declareBufferOutput (.fresh 1)] ]

/-- A hand-built two-node cycle (the shape the dag_cycle unit test injects
into the scheduler): adjacency 0 -> 1 and 1 -> 0. -/
def cycleAdj : Nat → List Nat :=
  fun p => if p = 0 then [1] else if p = 1 then [0] else []

/-- Both passes of the two-node cycle are live. -/
def cycleFlags : Nat → Bool := fun p => p < 2

/-- One interleaved pass for the read-before-write ordering claim:
pass 0 creates and writes image 0; pass 1 first writes image 0 and only
then reads it inside the same callback, then creates and writes image 1,
the declared output. -/
def interleavedGraph : List (List SetupCmd) :=
  [ [.createImage imgInfoA, .writeImage (.fresh 0) 16],
    [.writeImage (.lit 0) 16, .readImage (.lit 0) 4, .createImage imgInfoA,
     .writeImage (.fresh 1) 16, .declareImageOutput (.fresh 1)] ]

/-! ## Theorems -/

/-! ### Packing helpers -/

theorem unpackToResource_pack {h v : Nat} (hh : h < two32) :
    unpackToResource (pack h v) = h := by
  unfold unpackToResource pack
  rw [Nat.mod_eq_of_lt hh, Nat.add_comm, Nat.add_mul_mod_self_right, Nat.mod_eq_of_lt hh]

theorem unpackToVersion_pack {h v : Nat} (hh : h < two32) (hv : v < two32) :
    unpackToVersion (pack h v) = v := by
  unfold unpackToVersion pack
  rw [Nat.mod_eq_of_lt hh, Nat.mod_eq_of_lt hv, Nat.mul_comm,
    Nat.mul_add_div (by decide : 0 < two32), Nat.div_eq_of_lt hh, Nat.add_zero,
    Nat.mod_eq_of_lt hv]

theorem versionOffsets_succ_lt (vc : Nat → Nat) (h v : Nat) :
    (versionOffsets vc h + v < versionOffsets vc (h + 1)) ↔ v < vc h := by
  simp only [versionOffsets]
  omega

/-! ### C9: pack / unpack round-trip -/

/-- C9: for every representable pair, i.e. every 32-bit resource handle h
and 32-bit version v, unpacking pack(h, v) yields back exactly (h, v). -/
theorem pack_unpack_roundtrip (h v : Nat) (hh : h < two32) (hv : v < two32) :
    unpackToResource (pack h v) = h ∧ unpackToVersion (pack h v) = v :=
  ⟨unpackToResource_pack hh, unpackToVersion_pack hh hv⟩

/-- Witness for C9 at the concrete pair (5, 7). -/
theorem pack_unpack_roundtrip_witness :
    (5 : Nat) < two32 ∧ (7 : Nat) < two32 ∧
      (unpackToResource (pack 5 7) = 5 ∧ unpackToVersion (pack 5 7) = 7) :=
  ⟨by decide, by decide, pack_unpack_roundtrip 5 7 (by decide) (by decide)⟩

/-! ### C8: clear() and the buffer meta columns -/

/-- C8 (failing input): a system whose meta table holds one non-imported
buffer.  After clear(), the names/sizes/usages columns of the buffer table
are empty, but — contrary to the claim — the is_imported and is_transient
columns still hold the old entry, because buffer_meta::clear (resource.h
lines 162-167) omits them, unlike image_meta::clear (lines 113-126).  A
buffer created after this clear() receives handle 0 while its flags land
at index 1, so the SoA columns are misaligned. -/
theorem buffer_clear_retains_flag_columns :
    (((ResourceMetaTable.clear
        { buffer_metas := (BufferMeta.add {} bufInfoA).2 }).buffer_metas.names = [] ∧
      (ResourceMetaTable.clear
        { buffer_metas := (BufferMeta.add {} bufInfoA).2 }).buffer_metas.sizes = [] ∧
      (ResourceMetaTable.clear
        { buffer_metas := (BufferMeta.add {} bufInfoA).2 }).buffer_metas.usages = []) ∧
     (ResourceMetaTable.clear
        { buffer_metas := (BufferMeta.add {} bufInfoA).2 }).buffer_metas.is_imported
        = [false] ∧
     (ResourceMetaTable.clear
        { buffer_metas := (BufferMeta.add {} bufInfoA).2 }).buffer_metas.is_transient
        = [true]) ∧
    ((BufferMeta.add (ResourceMetaTable.clear
        { buffer_metas := (BufferMeta.add {} bufInfoA).2 }).buffer_metas bufInfoA).1 = 0 ∧
     (BufferMeta.add (ResourceMetaTable.clear
        { buffer_metas := (BufferMeta.add {} bufInfoA).2 }).buffer_metas
        bufInfoA).2.is_imported.length = 2) := by
  decide

/-! ### C4: compiling twice without clear() -/

theorem runCmd_meta_of_no_create (bi bb : Nat) (s : SetupState) (c : SetupCmd)
    (h : hasCreate c = false) : (runCmd bi bb s c).meta_table = s.meta_table := by
  cases c <;> simp_all [runCmd, hasCreate]

theorem foldl_runCmd_meta (bi bb : Nat) :
    ∀ (cmds : List SetupCmd) (s : SetupState),
      (cmds.all fun c => ! hasCreate c) = true →
      (cmds.foldl (runCmd bi bb) s).meta_table = s.meta_table := by
  intro cmds
  induction cmds with
  | nil => intro s _; rfl
  | cons c rest ih =>
    intro s h
    simp only [List.all_cons, Bool.and_eq_true, Bool.not_eq_true'] at h
    simp only [List.foldl_cons]
    rw [ih _ (by simpa using h.2), runCmd_meta_of_no_create bi bb s c h.1]

theorem runSetups_meta_of_noCreates (passes : List (List SetupCmd))
    (m : ResourceMetaTable) (h : noCreates passes = true) :
    (runSetups m passes).meta_table = m := by
  unfold runSetups
  suffices H : ∀ (l : List (List SetupCmd)) (acc : SetupOut),
      (l.all fun cmds => cmds.all fun c => ! hasCreate c) = true →
      ((l.foldl (fun acc cmds =>
        let st := runPassSetup m.image_metas.names.length m.buffer_metas.names.length
          acc.meta_table acc.image_outputs acc.buffer_outputs cmds
        { meta_table := st.meta_table
          pass_deps := acc.pass_deps ++ [st.deps]
          image_outputs := st.image_outputs
          buffer_outputs := st.buffer_outputs }) acc).meta_table = acc.meta_table) by
    exact H passes ⟨m, [], [], []⟩ h
  intro l
  induction l with
  | nil => intro acc _; rfl
  | cons cmds rest ih =>
    intro acc h
    simp only [List.all_cons, Bool.and_eq_true] at h
    simp only [List.foldl_cons]
    rw [ih _ h.2]
    exact foldl_runCmd_meta _ _ cmds _ h.1

/-- C4 (counterexample): compile() does not reset the meta table, so for a
pass that creates a resource and writes the returned handle, a second
compile() with no clear() in between records a shifted handle and the
dependency lists differ from the first run's. -/
theorem compile_twice_differs :
    (compile singlePassGraph (compile singlePassGraph {}).meta_table).pass_deps ≠
      (compile singlePassGraph {}).pass_deps := by
  decide

/-- C4 (amended): if no setup callback creates a logical resource, the meta
table is left unchanged by compile(), and a second compile() on the same
input with no clear() in between produces the identical result — all
dependency lists, producer tables, DAG, schedule, lifetimes, physical
mapping and barrier plan included.  (When a setup does create a resource,
the created metadata persists into the second call and the recorded
handles shift, as the counterexample shows.) -/
theorem compile_twice_noCreates_idempotent (passes : List (List SetupCmd))
    (m : ResourceMetaTable) (h : noCreates passes = true) :
    compile passes (compile passes m).meta_table = compile passes m := by
  have hm : (compile passes m).meta_table = m :=
    runSetups_meta_of_noCreates passes m h
  rw [hm]

/-- Witness for C4's amended theorem on the create-free graph. -/
theorem compile_twice_noCreates_idempotent_witness :
    noCreates noCreateGraph = true ∧
      compile noCreateGraph (compile noCreateGraph {}).meta_table =
        compile noCreateGraph {} :=
  ⟨by decide, compile_twice_noCreates_idempotent noCreateGraph {} (by decide)⟩

/-! ### Point-update helpers -/

theorem setAt_same {α : Type} (f : Nat → α) (i : Nat) (v : α) : setAt f i v i = v := by
  simp [setAt]

theorem setAt_other {α : Type} (f : Nat → α) {i x : Nat} (v : α) (h : ¬ x = i) :
    setAt f i v x = f x := by
  simp [setAt, h]

theorem setAt2_same {α : Type} (f : Nat → Nat → α) (i j : Nat) (v : α) :
    setAt2 f i j v i j = v := by
  simp [setAt2]

theorem setAt2_other {α : Type} (f : Nat → Nat → α) {i j x y : Nat} (v : α)
    (h : ¬ (x = i ∧ y = j)) : setAt2 f i j v x y = f x y := by
  simp only [setAt2, if_neg h]

/-! ### Versioning lemmas (Step B) -/

theorem readVersionHandle_eq (count : Nat) (ctr : Nat → Nat) (res : Nat) :
    readVersionHandle count ctr res =
      if res < count ∧ ¬ ctr res = 0 then pack res (ctr res - 1)
      else invalidResourceVersion := by
  unfold readVersionHandle
  by_cases h1 : res < count
  · by_cases h2 : ctr res = 0 <;> simp [h1, h2]
  · simp [h1]

theorem countWritesTo_cons (count res : Nat) (r : DepRecord) (rest : List DepRecord) :
    countWritesTo count res (r :: rest) =
      (if r.resource = res ∧ r.resource < count then 1 else 0) +
        countWritesTo count res rest := by
  by_cases h1 : r.resource = res
  · subst h1
    by_cases h2 : r.resource < count
    · simp [countWritesTo, List.filter_cons, h2, Nat.add_comm]
    · simp [countWritesTo, List.filter_cons, h2]
  · simp [countWritesTo, List.filter_cons, h1]

theorem countWritesTo_le_length (count res : Nat) (l : List DepRecord) :
    countWritesTo count res l ≤ l.length := by
  unfold countWritesTo
  exact List.length_filter_le _ l

theorem totalWritesTo_cons (count res : Nat) (pr : List DepRecord × List DepRecord)
    (rest : List (List DepRecord × List DepRecord)) :
    totalWritesTo count res (pr :: rest) =
      countWritesTo count res pr.2 + totalWritesTo count res rest := by
  simp [totalWritesTo]

theorem totalWritesTo_le_flat (count res : Nat)
    (pairs : List (List DepRecord × List DepRecord)) :
    totalWritesTo count res pairs ≤ flatWriteLen pairs := by
  induction pairs with
  | nil => simp [totalWritesTo, flatWriteLen]
  | cons pr rest ih =>
    simp only [totalWritesTo_cons, flatWriteLen, List.map_cons, List.sum_cons]
    exact Nat.add_le_add (countWritesTo_le_length _ _ _) ih

theorem writesBeforePass_zero (count res : Nat)
    (pairs : List (List DepRecord × List DepRecord)) :
    writesBeforePass count res pairs 0 = 0 := by
  simp [writesBeforePass]

theorem writesBeforePass_cons_succ (count res : Nat)
    (pr : List DepRecord × List DepRecord)
    (rest : List (List DepRecord × List DepRecord)) (p : Nat) :
    writesBeforePass count res (pr :: rest) (p + 1) =
      countWritesTo count res pr.2 + writesBeforePass count res rest p := by
  simp [writesBeforePass, List.take_succ_cons]

theorem writeVersions_ctr (count : Nat) :
    ∀ (writes : List DepRecord) (ctr : Nat → Nat) (res : Nat),
      ctr res + countWritesTo count res writes < two32 →
      (writeVersions count ctr writes).2 res = ctr res + countWritesTo count res writes := by
  intro writes
  induction writes with
  | nil =>
    intro ctr res _
    simp [writeVersions, countWritesTo]
  | cons r rest ih =>
    intro ctr res hb
    rw [countWritesTo_cons] at hb ⊢
    by_cases hge : r.resource ≥ count
    · have hcond : ¬ (r.resource = res ∧ r.resource < count) := by omega
      rw [if_neg hcond] at hb ⊢
      simp only [writeVersions, if_pos hge]
      simpa using ih ctr res (by omega)
    · simp only [writeVersions, if_neg hge]
      by_cases heq : r.resource = res
      · subst heq
        have hcond : r.resource = r.resource ∧ r.resource < count := ⟨rfl, by omega⟩
        rw [if_pos hcond] at hb ⊢
        have hlt : ctr r.resource + 1 < two32 := by omega
        have hmod : (ctr r.resource + 1) % two32 = ctr r.resource + 1 :=
          Nat.mod_eq_of_lt hlt
        have h1 := ih (setAt ctr r.resource ((ctr r.resource + 1) % two32)) r.resource
          (by rw [setAt_same, hmod]; omega)
        rw [setAt_same] at h1
        conv at h1 => rhs; rw [hmod]
        show (writeVersions count (setAt ctr r.resource ((ctr r.resource + 1) % two32))
            rest).2 r.resource = ctr r.resource + (1 + countWritesTo count r.resource rest)
        rw [h1]
        omega
      · have hcond : ¬ (r.resource = res ∧ r.resource < count) := fun hc => heq hc.1
        rw [if_neg hcond] at hb ⊢
        have hne : ¬ res = r.resource := fun h => heq h.symm
        have h1 := ih (setAt ctr r.resource ((ctr r.resource + 1) % two32)) res
          (by rw [setAt_other _ _ hne]; omega)
        rw [setAt_other _ _ hne] at h1
        show (writeVersions count (setAt ctr r.resource ((ctr r.resource + 1) % two32))
            rest).2 res = ctr res + (0 + countWritesTo count res rest)
        rw [h1]
        omega

theorem writeVersions_fst (count : Nat) :
    ∀ (writes : List DepRecord) (ctr : Nat → Nat),
      (∀ res, ctr res + countWritesTo count res writes < two32) →
      ∀ j, j < writes.length →
      (writeVersions count ctr writes).1.getD j 0 =
        (if (writes.getD j ⟨0, 0⟩).resource < count then
          pack (writes.getD j ⟨0, 0⟩).resource
            (ctr (writes.getD j ⟨0, 0⟩).resource +
              countWritesTo count (writes.getD j ⟨0, 0⟩).resource (writes.take j))
        else invalidResourceVersion) := by
  intro writes
  induction writes with
  | nil =>
    intro ctr _ j hj
    exact absurd hj (by simp)
  | cons r rest ih =>
    intro ctr hb j hj
    have hbr := hb r.resource
    rw [countWritesTo_cons] at hbr
    by_cases hge : r.resource ≥ count
    · simp only [writeVersions, if_pos hge]
      cases j with
      | zero =>
        simp only [List.getD_cons_zero]
        rw [if_neg (by omega : ¬ r.resource < count)]
      | succ j =>
        have hb' : ∀ res, ctr res + countWritesTo count res rest < two32 := by
          intro res
          have := hb res
          rw [countWritesTo_cons] at this
          omega
        have h1 := ih ctr hb' j (by simpa using hj)
        simp only [List.getD_cons_succ, List.take_succ_cons]
        rw [h1]
        by_cases hlt : (rest.getD j ⟨0, 0⟩).resource < count
        · rw [if_pos hlt, if_pos hlt, countWritesTo_cons,
            if_neg (by omega : ¬ (r.resource = (rest.getD j ⟨0, 0⟩).resource ∧
              r.resource < count)), Nat.zero_add]
        · rw [if_neg hlt, if_neg hlt]
    · simp only [writeVersions, if_neg hge]
      rw [if_pos (⟨rfl, by omega⟩ : r.resource = r.resource ∧ r.resource < count)] at hbr
      cases j with
      | zero =>
        simp only [List.getD_cons_zero]
        rw [if_pos (by omega : r.resource < count)]
        have : countWritesTo count r.resource (List.take 0 (r :: rest)) = 0 := by
          simp [countWritesTo]
        rw [this, Nat.add_zero]
      | succ j =>
        have hmod : (ctr r.resource + 1) % two32 = ctr r.resource + 1 :=
          Nat.mod_eq_of_lt (by omega)
        have hb' : ∀ res,
            setAt ctr r.resource ((ctr r.resource + 1) % two32) res +
              countWritesTo count res rest < two32 := by
          intro res
          by_cases heq : res = r.resource
          · subst heq
            rw [setAt_same, hmod]
            omega
          · rw [setAt_other _ _ heq]
            have := hb res
            rw [countWritesTo_cons] at this
            omega
        have h1 := ih (setAt ctr r.resource ((ctr r.resource + 1) % two32)) hb' j
          (by simpa using hj)
        simp only [List.getD_cons_succ, List.take_succ_cons]
        rw [h1]
        by_cases hlt : (rest.getD j ⟨0, 0⟩).resource < count
        · rw [if_pos hlt, if_pos hlt, countWritesTo_cons]
          by_cases heq : (rest.getD j ⟨0, 0⟩).resource = r.resource
          · rw [heq, setAt_same, hmod,
              if_pos (⟨rfl, by omega⟩ : r.resource = r.resource ∧ r.resource < count)]
            congr 1
            omega
          · rw [setAt_other _ _ heq,
              if_neg (fun hc => heq (hc.1.symm)), Nat.zero_add]
        · rw [if_neg hlt, if_neg hlt]

theorem versionPasses_spec (count : Nat) :
    ∀ (pairs : List (List DepRecord × List DepRecord)) (ctr : Nat → Nat),
      (∀ res, ctr res + totalWritesTo count res pairs < two32) →
      ((∀ res, (versionPasses count ctr pairs).2.2 res
          = ctr res + totalWritesTo count res pairs) ∧
       (∀ p, p < pairs.length →
          (versionPasses count ctr pairs).1.getD p []
            = (pairs.getD p ([], [])).1.map fun r =>
                if r.resource < count ∧
                    ¬ (ctr r.resource + writesBeforePass count r.resource pairs p) = 0
                then
                  pack r.resource
                    (ctr r.resource + writesBeforePass count r.resource pairs p - 1)
                else invalidResourceVersion) ∧
       (∀ p, p < pairs.length → ∀ j, j < (pairs.getD p ([], [])).2.length →
          ((versionPasses count ctr pairs).2.1.getD p []).getD j 0
            = (if ((pairs.getD p ([], [])).2.getD j ⟨0, 0⟩).resource < count then
                pack ((pairs.getD p ([], [])).2.getD j ⟨0, 0⟩).resource
                  (ctr ((pairs.getD p ([], [])).2.getD j ⟨0, 0⟩).resource +
                    writesBeforePass count
                      ((pairs.getD p ([], [])).2.getD j ⟨0, 0⟩).resource pairs p +
                    countWritesTo count ((pairs.getD p ([], [])).2.getD j ⟨0, 0⟩).resource
                      ((pairs.getD p ([], [])).2.take j))
              else invalidResourceVersion))) := by
  intro pairs
  induction pairs with
  | nil =>
    intro ctr _
    refine ⟨fun res => ?_, fun p hp => absurd hp (by simp), fun p hp => absurd hp (by simp)⟩
    simp [versionPasses, totalWritesTo]
  | cons pr rest ih =>
    intro ctr hb
    have hbpr : ∀ res, ctr res + countWritesTo count res pr.2 < two32 := by
      intro res
      have := hb res
      rw [totalWritesTo_cons] at this
      omega
    have hctr1 : ∀ res, (writeVersions count ctr pr.2).2 res
        = ctr res + countWritesTo count res pr.2 :=
      fun res => writeVersions_ctr count pr.2 ctr res (hbpr res)
    have hbrest : ∀ res,
        (writeVersions count ctr pr.2).2 res + totalWritesTo count res rest < two32 := by
      intro res
      rw [hctr1 res]
      have := hb res
      rw [totalWritesTo_cons] at this
      omega
    obtain ⟨ihA, ihB, ihC⟩ := ih ((writeVersions count ctr pr.2).2) hbrest
    refine ⟨?_, ?_, ?_⟩
    · intro res
      show (versionPasses count ((writeVersions count ctr pr.2).2) rest).2.2 res = _
      rw [ihA res, hctr1 res, totalWritesTo_cons]
      omega
    · intro p hp
      cases p with
      | zero =>
        show (pr.1.map fun r => readVersionHandle count ctr r.resource) = _
        refine List.map_congr_left ?_
        intro r _
        rw [readVersionHandle_eq, writesBeforePass_zero, Nat.add_zero]
      | succ q =>
        have hq : q < rest.length := by simpa using hp
        show (versionPasses count ((writeVersions count ctr pr.2).2) rest).1.getD q [] = _
        rw [ihB q hq]
        show _ = ((pr :: rest).getD (q + 1) ([], [])).1.map _
        simp only [List.getD_cons_succ]
        refine List.map_congr_left ?_
        intro r _
        rw [hctr1 r.resource, writesBeforePass_cons_succ, Nat.add_assoc]
    · intro p hp j hj
      cases p with
      | zero =>
        simp only [List.getD_cons_zero] at hj ⊢
        show ((writeVersions count ctr pr.2).1).getD j 0 = _
        rw [writeVersions_fst count pr.2 ctr hbpr j hj]
        rw [writesBeforePass_zero, Nat.add_zero]
      | succ q =>
        have hq : q < rest.length := by simpa using hp
        simp only [List.getD_cons_succ] at hj ⊢
        show ((versionPasses count ((writeVersions count ctr pr.2).2) rest).2.1.getD q
          []).getD j 0 = _
        rw [ihC q hq j hj]
        by_cases hlt : ((rest.getD q ([], [])).2.getD j ⟨0, 0⟩).resource < count
        · rw [if_pos hlt, if_pos hlt, hctr1, writesBeforePass_cons_succ]
          congr 1
          omega
        · rw [if_neg hlt, if_neg hlt]

theorem versioningSpec_of_flat (count : Nat)
    (pairs : List (List DepRecord × List DepRecord)) (h : flatWriteLen pairs < two32) :
    versioningSpec count pairs (versionPasses count (fun _ => 0) pairs).1
      (versionPasses count (fun _ => 0) pairs).2.1
      (versionPasses count (fun _ => 0) pairs).2.2 := by
  have hb : ∀ res, (fun _ => (0 : Nat)) res + totalWritesTo count res pairs < two32 := by
    intro res
    have := totalWritesTo_le_flat count res pairs
    simp only []
    omega
  obtain ⟨hA, hRead, hWrite⟩ := versionPasses_spec count pairs (fun _ => 0) hb
  refine ⟨?_, ?_, ?_, ?_⟩
  · intro res
    rw [hA res, Nat.zero_add]
  · intro h' hh'
    unfold latestVersion
    rw [hA h']
    by_cases h0 : totalWritesTo count h' pairs = 0
    · rw [h0]
      simp
    · rw [if_pos (by omega), if_neg h0, Nat.zero_add]
  · intro p hp
    rw [hRead p hp]
    simp only [Nat.zero_add]
  · intro p hp j hj
    rw [hWrite p hp j hj]
    simp only [Nat.zero_add]

/-! ### C5: the versioning stage and the latest table -/

/-- C5: walking passes in declaration order with per-resource counters
starting at zero, every write site is recorded with the counter's current
value (the number of in-range writes to that handle strictly before the
site) and increments the counter; every read site is recorded with
counter - 1 (the counter being the number of writes by earlier passes)
when that counter is nonzero and with the sentinel otherwise; and
afterwards latest[h] is pack(h, version_count(h) - 1) when
version_count(h) > 0 and the sentinel when it is zero — for both the
image and the buffer kind. -/
theorem versioning_characterization (passes : List (List SetupCmd))
    (m : ResourceMetaTable)
    (hI : flatWriteLen (passPairsImg (compileSetup passes m).pass_deps) < two32)
    (hB : flatWriteLen (passPairsBuf (compileSetup passes m).pass_deps) < two32) :
    versioningSpec (compileImageCount passes m)
      (passPairsImg (compileSetup passes m).pass_deps)
      (compile passes m).img_ver_reads (compile passes m).img_ver_writes
      (compile passes m).img_version_count ∧
    versioningSpec (compileBufferCount passes m)
      (passPairsBuf (compileSetup passes m).pass_deps)
      (compile passes m).buf_ver_reads (compile passes m).buf_ver_writes
      (compile passes m).buf_version_count :=
  ⟨versioningSpec_of_flat _ _ hI, versioningSpec_of_flat _ _ hB⟩

/-- Witness for C5 on the straight-line chain graph. -/
theorem versioning_characterization_witness :
    flatWriteLen (passPairsImg (compileSetup chainGraph {}).pass_deps) < two32 ∧
    flatWriteLen (passPairsBuf (compileSetup chainGraph {}).pass_deps) < two32 ∧
    (versioningSpec (compileImageCount chainGraph {})
      (passPairsImg (compileSetup chainGraph {}).pass_deps)
      (compile chainGraph {}).img_ver_reads (compile chainGraph {}).img_ver_writes
      (compile chainGraph {}).img_version_count ∧
    versioningSpec (compileBufferCount chainGraph {})
      (passPairsBuf (compileSetup chainGraph {}).pass_deps)
      (compile chainGraph {}).buf_ver_reads (compile chainGraph {}).buf_ver_writes
      (compile chainGraph {}).buf_version_count) :=
  ⟨by decide, by decide,
   versioning_characterization chainGraph {} (by decide) (by decide)⟩

/-! ### C10: reads are versioned before the same pass's writes -/

theorem foldl_runCmd_deps (bi bb : Nat) :
    ∀ (cmds : List SetupCmd) (s : SetupState),
      (cmds.foldl (runCmd bi bb) s).deps =
        { imageReads := s.deps.imageReads ++ extractImageReads bi cmds
          imageWrites := s.deps.imageWrites ++ extractImageWrites bi cmds
          bufferReads := s.deps.bufferReads ++ extractBufferReads bb cmds
          bufferWrites := s.deps.bufferWrites ++ extractBufferWrites bb cmds } := by
  intro cmds
  induction cmds with
  | nil =>
    intro s
    simp [extractImageReads, extractImageWrites, extractBufferReads, extractBufferWrites]
  | cons c rest ih =>
    intro s
    cases c <;>
      simp [runCmd, extractImageReads, extractImageWrites, extractBufferReads,
        extractBufferWrites, ih, List.filterMap_cons]

theorem runPassSetup_deps (bi bb : Nat) (meta : ResourceMetaTable)
    (io bo : List Nat) (cmds : List SetupCmd) :
    (runPassSetup bi bb meta io bo cmds).deps = depsOfCmds bi bb cmds := by
  unfold runPassSetup depsOfCmds
  rw [foldl_runCmd_deps]
  simp

theorem runSetups_pass_deps (m : ResourceMetaTable) (passes : List (List SetupCmd)) :
    (runSetups m passes).pass_deps =
      passes.map
        (depsOfCmds m.image_metas.names.length m.buffer_metas.names.length) := by
  unfold runSetups
  suffices H : ∀ (l : List (List SetupCmd)) (acc : SetupOut),
      ((l.foldl (fun acc cmds =>
        let st := runPassSetup m.image_metas.names.length m.buffer_metas.names.length
          acc.meta_table acc.image_outputs acc.buffer_outputs cmds
        { meta_table := st.meta_table
          pass_deps := acc.pass_deps ++ [st.deps]
          image_outputs := st.image_outputs
          buffer_outputs := st.buffer_outputs }) acc).pass_deps
        = acc.pass_deps ++ l.map
            (depsOfCmds m.image_metas.names.length m.buffer_metas.names.length)) by
    simpa using H passes ⟨m, [], [], []⟩
  intro l
  induction l with
  | nil =>
    intro acc
    simp
  | cons cmds rest ih =>
    intro acc
    simp only [List.foldl_cons, List.map_cons]
    rw [ih]
    rw [runPassSetup_deps]
    simp

/-- C10: within a single pass the versioning stage versions every read
record against the write counters as they stood when the pass began —
the counters accumulated from earlier passes' writes only — regardless of
how the setup callback interleaved its read and write calls.  First: the
dependency capture stores a pass's reads and writes in separate lists
(its segment is depsOfCmds of its command list, reads in call order),
so versioning, which runs the read loop before the write loop, consumes
all reads before any write of the same pass.  Second: on the
interleaved scenario — whose pass 1 calls write_image(0) before
read_image(0) in the same callback — pass 1's read is versioned as
pack(0, 0), the version written by pass 0, whose producer is pass 0,
not pass 1's own write pack(0, 1). -/
theorem reads_versioned_before_writes :
    (∀ (bi bb : Nat) (meta : ResourceMetaTable) (io bo : List Nat)
        (cmds : List SetupCmd),
      (runPassSetup bi bb meta io bo cmds).deps = depsOfCmds bi bb cmds) ∧
    (∀ (passes : List (List SetupCmd)) (m : ResourceMetaTable),
      flatWriteLen (passPairsImg (compileSetup passes m).pass_deps) < two32 →
      ∀ p, p < (passPairsImg (compileSetup passes m).pass_deps).length →
        (compile passes m).img_ver_reads.getD p [] =
          ((passPairsImg (compileSetup passes m).pass_deps).getD p ([], [])).1.map
            fun r =>
              if r.resource < compileImageCount passes m ∧
                  ¬ writesBeforePass (compileImageCount passes m) r.resource
                      (passPairsImg (compileSetup passes m).pass_deps) p = 0 then
                pack r.resource
                  (writesBeforePass (compileImageCount passes m) r.resource
                    (passPairsImg (compileSetup passes m).pass_deps) p - 1)
              else invalidResourceVersion) ∧
    (compile interleavedGraph {}).img_ver_reads.getD 1 [] = [pack 0 0] ∧
    (compile interleavedGraph {}).img_producers 0 0 = 0 := by
  refine ⟨runPassSetup_deps, ?_, by decide, by decide⟩
  intro passes m hI p hp
  exact (versioningSpec_of_flat _ _ hI).2.2.1 p hp

/-! ### Culling lemmas (Step D) -/

theorem activeCountOf_le (n : Nat) (f : Nat → Bool) : activeCountOf n f ≤ n := by
  unfold activeCountOf
  calc ((List.range n).filter fun p => f p).length ≤ (List.range n).length :=
        List.length_filter_le _ _
    _ = n := List.length_range n

theorem filter_congr_of_ne (l : List Nat) (f : Nat → Bool) (q : Nat) (v : Bool)
    (hq : q ∉ l) : (l.filter fun x => setAt f q v x) = l.filter fun x => f x := by
  refine List.filter_congr ?_
  intro x hx
  have hne : ¬ x = q := fun h => hq (h ▸ hx)
  rw [setAt_other _ _ hne]

theorem filter_setAt_true_length (f : Nat → Bool) (q : Nat) :
    ∀ (l : List Nat), l.Nodup → q ∈ l → f q = false →
      (l.filter fun x => setAt f q true x).length = (l.filter fun x => f x).length + 1 := by
  intro l
  induction l with
  | nil => intro _ h; cases h
  | cons a rest ih =>
    intro hnd hmem hf
    rcases List.mem_cons.mp hmem with ha | ha
    · subst ha
      have hq_not : q ∉ rest := (List.nodup_cons.mp hnd).1
      rw [List.filter_cons, List.filter_cons, setAt_same,
        filter_congr_of_ne rest f q true hq_not, hf]
      simp
    · have hnd' := (List.nodup_cons.mp hnd).2
      have hne : ¬ a = q := fun h => (List.nodup_cons.mp hnd).1 (h.symm ▸ ha)
      rw [List.filter_cons, List.filter_cons, setAt_other _ _ hne]
      cases hfa : f a <;> simp [ih hnd' ha hf]

theorem activeCount_setAt_true (n q : Nat) (f : Nat → Bool) (hq : q < n)
    (hf : f q = false) :
    activeCountOf n (setAt f q true) = activeCountOf n f + 1 :=
  filter_setAt_true_length f q (List.range n) (List.nodup_range n)
    (List.mem_range.mpr hq) hf

theorem filter_length_lt_of_mem_false (f : Nat → Bool) (q : Nat) :
    ∀ (l : List Nat), q ∈ l → f q = false →
      (l.filter fun x => f x).length < l.length := by
  intro l
  induction l with
  | nil => intro h; cases h
  | cons a rest ih =>
    intro hmem hf
    rcases List.mem_cons.mp hmem with ha | ha
    · subst ha
      rw [List.filter_cons, hf]
      simp only [Bool.false_eq_true, if_false, List.length_cons]
      exact Nat.lt_succ_of_le (List.length_filter_le _ _)
    · rw [List.filter_cons]
      cases hfa : f a
      · simp only [Bool.false_eq_true, if_false, List.length_cons]
        exact Nat.lt_succ_of_lt (ih ha hf)
      · simp only [if_true, List.length_cons]
        exact Nat.succ_lt_succ (ih ha hf)

theorem activeCount_lt_of_false (n q : Nat) (f : Nat → Bool) (hq : q < n)
    (hf : f q = false) : activeCountOf n f < n := by
  have := filter_length_lt_of_mem_false f q (List.range n) (List.mem_range.mpr hq) hf
  simpa [activeCountOf] using this

theorem enqueuePass_flags (n : Nat) (st : CullState) (q p : Nat) :
    (enqueuePass n st q).flags p = true ↔
      st.flags p = true ∨ (p = q ∧ ¬ q = invalidPass ∧ q < n) := by
  unfold enqueuePass
  by_cases h1 : q = invalidPass ∨ q ≥ n
  · rw [if_pos h1]
    constructor
    · exact fun h => Or.inl h
    · rintro (h | ⟨rfl, h2, h3⟩)
      · exact h
      · omega
  · rw [if_neg h1]
    by_cases h2 : st.flags q = true
    · rw [if_pos h2]
      constructor
      · exact fun h => Or.inl h
      · rintro (h | ⟨rfl, _, _⟩)
        · exact h
        · exact h2
    · rw [if_neg h2]
      show setAt st.flags q true p = true ↔ _
      by_cases hp : p = q
      · subst hp
        rw [setAt_same]
        constructor
        · intro _
          exact Or.inr ⟨rfl, fun h => h1 (Or.inl h), by omega⟩
        · intro _
          rfl
      · rw [setAt_other _ _ hp]
        constructor
        · exact fun h => Or.inl h
        · rintro (h | ⟨h, _, _⟩)
          · exact h
          · exact absurd h hp

theorem enqueuePass_flags_mono (n : Nat) (st : CullState) (q p : Nat)
    (h : st.flags p = true) : (enqueuePass n st q).flags p = true :=
  (enqueuePass_flags n st q p).mpr (Or.inl h)

theorem enqueuePass_new_flag_in_wl (n : Nat) (st : CullState) (q p : Nat)
    (h : (enqueuePass n st q).flags p = true) :
    st.flags p = true ∨ p ∈ (enqueuePass n st q).wl := by
  by_cases h0 : st.flags p = true
  · exact Or.inl h0
  · right
    rcases (enqueuePass_flags n st q p).mp h with h1 | ⟨rfl, hv, hlt⟩
    · exact absurd h1 h0
    · unfold enqueuePass
      rw [if_neg (by omega : ¬ (p = invalidPass ∨ p ≥ n))]
      have hf : ¬ st.flags p = true := h0
      rw [if_neg hf]
      show p ∈ st.wl ++ [p]
      simp

theorem enqueuePass_wl (n : Nat) (st : CullState) (q : Nat) :
    (enqueuePass n st q).wl = st.wl ∨
      ((enqueuePass n st q).wl = st.wl ++ [q] ∧
        (enqueuePass n st q).flags q = true) := by
  unfold enqueuePass
  by_cases h1 : q = invalidPass ∨ q ≥ n
  · rw [if_pos h1]; exact Or.inl rfl
  · rw [if_neg h1]
    by_cases h2 : st.flags q = true
    · rw [if_pos h2]; exact Or.inl rfl
    · rw [if_neg h2]
      exact Or.inr ⟨rfl, setAt_same _ _ _⟩

theorem enqueuePass_wl_mono (n : Nat) (st : CullState) (q x : Nat)
    (h : x ∈ st.wl) : x ∈ (enqueuePass n st q).wl := by
  rcases enqueuePass_wl n st q with hw | ⟨hw, _⟩ <;> rw [hw]
  · exact h
  · exact List.mem_append_left _ h

theorem enqueuePass_wl_flags_preserved (n : Nat) (st : CullState) (q : Nat)
    (h : ∀ x ∈ st.wl, st.flags x = true) :
    ∀ x ∈ (enqueuePass n st q).wl, (enqueuePass n st q).flags x = true := by
  intro x hx
  rcases enqueuePass_wl n st q with hw | ⟨hw, hq⟩
  · rw [hw] at hx
    exact enqueuePass_flags_mono n st q x (h x hx)
  · rw [hw] at hx
    rcases List.mem_append.mp hx with hx' | hx'
    · exact enqueuePass_flags_mono n st q x (h x hx')
    · rw [List.mem_singleton.mp hx']
      exact hq

theorem enqueuePass_measure (n : Nat) (st : CullState) (q : Nat) :
    (enqueuePass n st q).wl.length +
        (n - activeCountOf n (enqueuePass n st q).flags) =
      st.wl.length + (n - activeCountOf n st.flags) := by
  unfold enqueuePass
  by_cases h1 : q = invalidPass ∨ q ≥ n
  · rw [if_pos h1]
  · rw [if_neg h1]
    by_cases h2 : st.flags q = true
    · rw [if_pos h2]
    · rw [if_neg h2]
      have hq : q < n := by omega
      have hf : st.flags q = false := by
        cases h : st.flags q
        · rfl
        · exact absurd h h2
      show (st.wl ++ [q]).length + (n - activeCountOf n (setAt st.flags q true)) = _
      rw [List.length_append, activeCount_setAt_true n q st.flags hq hf]
      have := activeCount_lt_of_false n q st.flags hq hf
      simp only [List.length_singleton]
      omega

theorem foldl_enqueue_flags (n : Nat) (g : Nat → Nat) :
    ∀ (l : List Nat) (st : CullState) (p : Nat),
      ((l.foldl (fun st vh => enqueuePass n st (g vh)) st).flags p = true ↔
        st.flags p = true ∨ (¬ p = invalidPass ∧ p < n ∧ ∃ vh ∈ l, g vh = p)) := by
  intro l
  induction l with
  | nil =>
    intro st p
    simp
  | cons vh rest ih =>
    intro st p
    simp only [List.foldl_cons]
    rw [ih, enqueuePass_flags]
    constructor
    · rintro ((h | ⟨rfl, hv, hlt⟩) | ⟨hv, hlt, vh', hmem, hg⟩)
      · exact Or.inl h
      · exact Or.inr ⟨hv, hlt, vh, List.mem_cons_self _ _, rfl⟩
      · exact Or.inr ⟨hv, hlt, vh', List.mem_cons_of_mem _ hmem, hg⟩
    · rintro (h | ⟨hv, hlt, vh', hmem, hg⟩)
      · exact Or.inl (Or.inl h)
      · rcases List.mem_cons.mp hmem with rfl | hmem'
        · exact Or.inl (Or.inr ⟨hg.symm, fun hh => hv (hg.symm.trans hh),
            hg.symm ▸ hlt⟩)
        · exact Or.inr ⟨hv, hlt, vh', hmem', hg⟩

theorem foldl_enqueue_wl_mono (n : Nat) (g : Nat → Nat) :
    ∀ (l : List Nat) (st : CullState) (x : Nat), x ∈ st.wl →
      x ∈ (l.foldl (fun st vh => enqueuePass n st (g vh)) st).wl := by
  intro l
  induction l with
  | nil => intro st x h; exact h
  | cons vh rest ih =>
    intro st x h
    simp only [List.foldl_cons]
    exact ih _ x (enqueuePass_wl_mono n st (g vh) x h)

theorem foldl_enqueue_wl_flags (n : Nat) (g : Nat → Nat) :
    ∀ (l : List Nat) (st : CullState),
      (∀ x ∈ st.wl, st.flags x = true) →
      ∀ x ∈ (l.foldl (fun st vh => enqueuePass n st (g vh)) st).wl,
        (l.foldl (fun st vh => enqueuePass n st (g vh)) st).flags x = true := by
  intro l
  induction l with
  | nil => intro st h; exact h
  | cons vh rest ih =>
    intro st h
    simp only [List.foldl_cons]
    exact ih _ (enqueuePass_wl_flags_preserved n st (g vh) h)

theorem foldl_enqueue_measure (n : Nat) (g : Nat → Nat) :
    ∀ (l : List Nat) (st : CullState),
      (l.foldl (fun st vh => enqueuePass n st (g vh)) st).wl.length +
          (n - activeCountOf n
            (l.foldl (fun st vh => enqueuePass n st (g vh)) st).flags) =
        st.wl.length + (n - activeCountOf n st.flags) := by
  intro l
  induction l with
  | nil => intro st; rfl
  | cons vh rest ih =>
    intro st
    simp only [List.foldl_cons]
    rw [ih, enqueuePass_measure]

theorem foldl_enqueue_new_flag_in_wl (n : Nat) (g : Nat → Nat) :
    ∀ (l : List Nat) (st : CullState) (x : Nat),
      (l.foldl (fun st vh => enqueuePass n st (g vh)) st).flags x = true →
      st.flags x = true ∨
        x ∈ (l.foldl (fun st vh => enqueuePass n st (g vh)) st).wl := by
  intro l
  induction l with
  | nil => intro st x h; exact Or.inl h
  | cons vh rest ih =>
    intro st x h
    simp only [List.foldl_cons] at h ⊢
    rcases ih _ x h with h1 | h1
    · rcases enqueuePass_new_flag_in_wl n st (g vh) x h1 with h2 | h2
      · exact Or.inl h2
      · exact Or.inr (foldl_enqueue_wl_mono n g rest _ x h2)
    · exact Or.inr h1

theorem foldl_seed_flags (n count : Nat) (g : Nat → Nat) :
    ∀ (l : List Nat) (st : CullState) (p : Nat),
      ((l.foldl (fun st out =>
          if out < count then enqueuePass n st (g out) else st) st).flags p = true ↔
        st.flags p = true ∨
          (¬ p = invalidPass ∧ p < n ∧ ∃ out ∈ l, out < count ∧ g out = p)) := by
  intro l
  induction l with
  | nil =>
    intro st p
    simp
  | cons o rest ih =>
    intro st p
    simp only [List.foldl_cons]
    by_cases hc : o < count
    · rw [if_pos hc, ih, enqueuePass_flags]
      constructor
      · rintro ((h | ⟨rfl, hv, hlt⟩) | ⟨hv, hlt, o', hmem, hc', hg⟩)
        · exact Or.inl h
        · exact Or.inr ⟨hv, hlt, o, List.mem_cons_self _ _, hc, rfl⟩
        · exact Or.inr ⟨hv, hlt, o', List.mem_cons_of_mem _ hmem, hc', hg⟩
      · rintro (h | ⟨hv, hlt, o', hmem, hc', hg⟩)
        · exact Or.inl (Or.inl h)
        · rcases List.mem_cons.mp hmem with rfl | hmem'
          · exact Or.inl (Or.inr ⟨hg.symm, fun hh => hv (hg.symm.trans hh),
              hg.symm ▸ hlt⟩)
          · exact Or.inr ⟨hv, hlt, o', hmem', hc', hg⟩
    · rw [if_neg hc, ih]
      constructor
      · rintro (h | ⟨hv, hlt, o', hmem, hc', hg⟩)
        · exact Or.inl h
        · exact Or.inr ⟨hv, hlt, o', List.mem_cons_of_mem _ hmem, hc', hg⟩
      · rintro (h | ⟨hv, hlt, o', hmem, hc', hg⟩)
        · exact Or.inl h
        · rcases List.mem_cons.mp hmem with rfl | hmem'
          · exact absurd hc' hc
          · exact Or.inr ⟨hv, hlt, o', hmem', hc', hg⟩

theorem foldl_seed_wl_flags (n count : Nat) (g : Nat → Nat) :
    ∀ (l : List Nat) (st : CullState),
      (∀ x ∈ st.wl, st.flags x = true) →
      ∀ x ∈ (l.foldl (fun st out =>
          if out < count then enqueuePass n st (g out) else st) st).wl,
        (l.foldl (fun st out =>
          if out < count then enqueuePass n st (g out) else st) st).flags x = true := by
  intro l
  induction l with
  | nil => intro st h; exact h
  | cons o rest ih =>
    intro st h
    simp only [List.foldl_cons]
    by_cases hc : o < count
    · rw [if_pos hc]
      exact ih _ (enqueuePass_wl_flags_preserved n st (g o) h)
    · rw [if_neg hc]
      exact ih _ h

theorem foldl_seed_measure (n count : Nat) (g : Nat → Nat) :
    ∀ (l : List Nat) (st : CullState),
      (l.foldl (fun st out =>
          if out < count then enqueuePass n st (g out) else st) st).wl.length +
        (n - activeCountOf n (l.foldl (fun st out =>
          if out < count then enqueuePass n st (g out) else st) st).flags) =
      st.wl.length + (n - activeCountOf n st.flags) := by
  intro l
  induction l with
  | nil => intro st; rfl
  | cons o rest ih =>
    intro st
    simp only [List.foldl_cons]
    by_cases hc : o < count
    · rw [if_pos hc, ih, enqueuePass_measure]
    · rw [if_neg hc, ih]

theorem foldl_seed_new_flag_in_wl (n count : Nat) (g : Nat → Nat) :
    ∀ (l : List Nat) (st : CullState) (x : Nat),
      (l.foldl (fun st out =>
          if out < count then enqueuePass n st (g out) else st) st).flags x = true →
      st.flags x = true ∨
        x ∈ (l.foldl (fun st out =>
          if out < count then enqueuePass n st (g out) else st) st).wl := by
  intro l
  induction l with
  | nil => intro st x h; exact Or.inl h
  | cons o rest ih =>
    intro st x h
    simp only [List.foldl_cons] at h ⊢
    by_cases hc : o < count
    · rw [if_pos hc] at h ⊢
      rcases ih _ x h with h1 | h1
      · rcases enqueuePass_new_flag_in_wl n st (g o) x h1 with h2 | h2
        · exact Or.inl h2
        · right
          have : ∀ (l' : List Nat) (st' : CullState) (y : Nat), y ∈ st'.wl →
              y ∈ (l'.foldl (fun st out =>
                if out < count then enqueuePass n st (g out) else st) st').wl := by
            intro l'
            induction l' with
            | nil => intro st' y hy; exact hy
            | cons o' rest' ih' =>
              intro st' y hy
              simp only [List.foldl_cons]
              by_cases hc' : o' < count
              · rw [if_pos hc']
                exact ih' _ y (enqueuePass_wl_mono n st' (g o') y hy)
              · rw [if_neg hc']
                exact ih' _ y hy
          exact this rest _ x h2
      · exact Or.inr h1
    · rw [if_neg hc] at h ⊢
      exact ih _ x h

theorem mem_cullSuccOf (ctx : CullCtx) (q p : Nat) :
    p ∈ cullSuccOf ctx q ↔
      (¬ p = invalidPass ∧ p < ctx.passCount) ∧
        ((∃ vh ∈ ctx.imgReadVers q,
            getProducerFrom ctx.imageCount ctx.imgVc ctx.imgProd vh = p) ∨
         (∃ vh ∈ ctx.bufReadVers q,
            getProducerFrom ctx.bufferCount ctx.bufVc ctx.bufProd vh = p)) := by
  unfold cullSuccOf
  simp only [List.mem_filter, List.mem_append, List.mem_map, decide_eq_true_eq]
  constructor
  · rintro ⟨h1, hval⟩
    refine ⟨hval, ?_⟩
    rcases h1 with ⟨vh, hmem, hg⟩ | ⟨vh, hmem, hg⟩
    · exact Or.inl ⟨vh, hmem, hg⟩
    · exact Or.inr ⟨vh, hmem, hg⟩
  · rintro ⟨hval, h1⟩
    refine ⟨?_, hval⟩
    rcases h1 with ⟨vh, hmem, hg⟩ | ⟨vh, hmem, hg⟩
    · exact Or.inl ⟨vh, hmem, hg⟩
    · exact Or.inr ⟨vh, hmem, hg⟩

theorem mem_cullSeedsOf (ctx : CullCtx) (io bo : List Nat) (p : Nat) :
    p ∈ cullSeedsOf ctx io bo ↔
      (¬ p = invalidPass ∧ p < ctx.passCount) ∧
        ((∃ o ∈ io, o < ctx.imageCount ∧
            getProducerFrom ctx.imageCount ctx.imgVc ctx.imgProd
              (latestVersion ctx.imgVc o) = p) ∨
         (∃ o ∈ bo, o < ctx.bufferCount ∧
            getProducerFrom ctx.bufferCount ctx.bufVc ctx.bufProd
              (latestVersion ctx.bufVc o) = p)) := by
  unfold cullSeedsOf
  simp only [List.mem_filter, List.mem_append, List.mem_map, List.mem_filter,
    decide_eq_true_eq]
  constructor
  · rintro ⟨h1 | h1, hval⟩
    · obtain ⟨o, ⟨ho, hoc⟩, hg⟩ := h1
      exact ⟨hval, Or.inl ⟨o, ho, hoc, hg⟩⟩
    · obtain ⟨o, ⟨ho, hoc⟩, hg⟩ := h1
      exact ⟨hval, Or.inr ⟨o, ho, hoc, hg⟩⟩
  · rintro ⟨hval, h1 | h1⟩
    · obtain ⟨o, ho, hoc, hg⟩ := h1
      exact ⟨Or.inl ⟨o, ⟨ho, hoc⟩, hg⟩, hval⟩
    · obtain ⟨o, ho, hoc, hg⟩ := h1
      exact ⟨Or.inr ⟨o, ⟨ho, hoc⟩, hg⟩, hval⟩

theorem cullStep_flags (ctx : CullCtx) (st : CullState) (p x : Nat) :
    (cullStep ctx st p).flags x = true ↔
      st.flags x = true ∨ x ∈ cullSuccOf ctx p := by
  show ((ctx.bufReadVers p).foldl
      (fun st vh => enqueuePass ctx.passCount st
        (getProducerFrom ctx.bufferCount ctx.bufVc ctx.bufProd vh))
      ((ctx.imgReadVers p).foldl
        (fun st vh => enqueuePass ctx.passCount st
          (getProducerFrom ctx.imageCount ctx.imgVc ctx.imgProd vh)) st)).flags x
        = true ↔ _
  rw [foldl_enqueue_flags, foldl_enqueue_flags, mem_cullSuccOf]
  constructor
  · rintro ((h | ⟨hv, hlt, w⟩) | ⟨hv, hlt, w⟩)
    · exact Or.inl h
    · exact Or.inr ⟨⟨hv, hlt⟩, Or.inl w⟩
    · exact Or.inr ⟨⟨hv, hlt⟩, Or.inr w⟩
  · rintro (h | ⟨⟨hv, hlt⟩, w | w⟩)
    · exact Or.inl (Or.inl h)
    · exact Or.inl (Or.inr ⟨hv, hlt, w⟩)
    · exact Or.inr ⟨hv, hlt, w⟩

theorem cullStep_wl_flags (ctx : CullCtx) (st : CullState) (p : Nat)
    (h : ∀ x ∈ st.wl, st.flags x = true) :
    ∀ x ∈ (cullStep ctx st p).wl, (cullStep ctx st p).flags x = true := by
  show ∀ x ∈ ((ctx.bufReadVers p).foldl
      (fun st vh => enqueuePass ctx.passCount st
        (getProducerFrom ctx.bufferCount ctx.bufVc ctx.bufProd vh))
      ((ctx.imgReadVers p).foldl
        (fun st vh => enqueuePass ctx.passCount st
          (getProducerFrom ctx.imageCount ctx.imgVc ctx.imgProd vh)) st)).wl, _
  exact foldl_enqueue_wl_flags _ _ _ _ (foldl_enqueue_wl_flags _ _ _ _ h)

theorem cullStep_measure (ctx : CullCtx) (st : CullState) (p : Nat) :
    (cullStep ctx st p).wl.length +
        (ctx.passCount - activeCountOf ctx.passCount (cullStep ctx st p).flags) =
      st.wl.length + (ctx.passCount - activeCountOf ctx.passCount st.flags) := by
  show ((ctx.bufReadVers p).foldl
      (fun st vh => enqueuePass ctx.passCount st
        (getProducerFrom ctx.bufferCount ctx.bufVc ctx.bufProd vh))
      ((ctx.imgReadVers p).foldl
        (fun st vh => enqueuePass ctx.passCount st
          (getProducerFrom ctx.imageCount ctx.imgVc ctx.imgProd vh)) st)).wl.length
      + (ctx.passCount - activeCountOf ctx.passCount
        ((ctx.bufReadVers p).foldl
          (fun st vh => enqueuePass ctx.passCount st
            (getProducerFrom ctx.bufferCount ctx.bufVc ctx.bufProd vh))
          ((ctx.imgReadVers p).foldl
            (fun st vh => enqueuePass ctx.passCount st
              (getProducerFrom ctx.imageCount ctx.imgVc ctx.imgProd vh)) st)).flags)
      = st.wl.length + (ctx.passCount - activeCountOf ctx.passCount st.flags)
  rw [foldl_enqueue_measure, foldl_enqueue_measure]

theorem cullStep_wl_mono (ctx : CullCtx) (st : CullState) (p x : Nat)
    (h : x ∈ st.wl) : x ∈ (cullStep ctx st p).wl := by
  show x ∈ ((ctx.bufReadVers p).foldl
      (fun st vh => enqueuePass ctx.passCount st
        (getProducerFrom ctx.bufferCount ctx.bufVc ctx.bufProd vh))
      ((ctx.imgReadVers p).foldl
        (fun st vh => enqueuePass ctx.passCount st
          (getProducerFrom ctx.imageCount ctx.imgVc ctx.imgProd vh)) st)).wl
  exact foldl_enqueue_wl_mono _ _ _ _ x (foldl_enqueue_wl_mono _ _ _ _ x h)

theorem cullStep_new_flag_in_wl (ctx : CullCtx) (st : CullState) (p x : Nat)
    (h : (cullStep ctx st p).flags x = true) :
    st.flags x = true ∨ x ∈ (cullStep ctx st p).wl := by
  revert h
  show ((ctx.bufReadVers p).foldl
      (fun st vh => enqueuePass ctx.passCount st
        (getProducerFrom ctx.bufferCount ctx.bufVc ctx.bufProd vh))
      ((ctx.imgReadVers p).foldl
        (fun st vh => enqueuePass ctx.passCount st
          (getProducerFrom ctx.imageCount ctx.imgVc ctx.imgProd vh)) st)).flags x = true
      → _
  intro h
  rcases foldl_enqueue_new_flag_in_wl _ _ _ _ x h with h1 | h1
  · rcases foldl_enqueue_new_flag_in_wl _ _ _ _ x h1 with h2 | h2
    · exact Or.inl h2
    · exact Or.inr (foldl_enqueue_wl_mono _ _ _ _ x h2)
  · exact Or.inr h1

theorem cullStep_flags_mono (ctx : CullCtx) (st : CullState) (p x : Nat)
    (h : st.flags x = true) : (cullStep ctx st p).flags x = true :=
  (cullStep_flags ctx st p x).mpr (Or.inl h)

theorem cullLoop_spec (ctx : CullCtx) (R : Nat → Prop)
    (hRstep : ∀ q p, R q → p ∈ cullSuccOf ctx q → R p) :
    ∀ (fuel : Nat) (st : CullState),
      st.wl.length + (ctx.passCount - activeCountOf ctx.passCount st.flags) ≤ fuel →
      (∀ x ∈ st.wl, st.flags x = true) →
      (∀ p, st.flags p = true → R p) →
      (∀ p, st.flags p = true → p ∉ st.wl →
        ∀ q ∈ cullSuccOf ctx p, st.flags q = true) →
      ((cullLoop ctx fuel st).wl = [] ∧
       (∀ p, st.flags p = true → (cullLoop ctx fuel st).flags p = true) ∧
       (∀ p, (cullLoop ctx fuel st).flags p = true → R p) ∧
       (∀ p, (cullLoop ctx fuel st).flags p = true →
          ∀ q ∈ cullSuccOf ctx p, (cullLoop ctx fuel st).flags q = true)) := by
  intro fuel
  induction fuel with
  | zero =>
    intro st hm hwf hflR hcl
    have hwl : st.wl = [] := by
      cases hw : st.wl with
      | nil => rfl
      | cons a l =>
        rw [hw] at hm
        simp only [List.length_cons] at hm
        omega
    refine ⟨hwl, fun p h => h, hflR, ?_⟩
    intro p hp q hq
    exact hcl p hp (by rw [hwl]; exact List.not_mem_nil p) q hq
  | succ fuel ih =>
    intro st hm hwf hflR hcl
    cases hw : st.wl with
    | nil =>
      have hstep : cullLoop ctx (fuel + 1) st = st := by
        unfold cullLoop
        rw [hw]
      rw [hstep]
      exact ⟨hw, fun p h => h, hflR,
        fun p hp q hq => hcl p hp (by rw [hw]; exact List.not_mem_nil p) q hq⟩
    | cons p rest =>
      have hloop : cullLoop ctx (fuel + 1) st =
          cullLoop ctx fuel (cullStep ctx { st with wl := rest } p) := by
        show (match st.wl with
          | [] => st
          | p :: rest => cullLoop ctx fuel (cullStep ctx { st with wl := rest } p)) = _
        rw [hw]
      have hpf : st.flags p = true := hwf p (by rw [hw]; exact List.mem_cons_self _ _)
      have hmes := cullStep_measure ctx { st with wl := rest } p
      have hm1 : (cullStep ctx { st with wl := rest } p).wl.length +
          (ctx.passCount - activeCountOf ctx.passCount
            (cullStep ctx { st with wl := rest } p).flags) ≤ fuel := by
        rw [hw] at hm
        simp only [List.length_cons] at hm
        rw [hmes]
        show rest.length + (ctx.passCount -
          activeCountOf ctx.passCount st.flags) ≤ fuel
        omega
      have hwf1 : ∀ x ∈ (cullStep ctx { st with wl := rest } p).wl,
          (cullStep ctx { st with wl := rest } p).flags x = true := by
        refine cullStep_wl_flags ctx _ p ?_
        intro x hx
        show st.flags x = true
        exact hwf x (by rw [hw]; exact List.mem_cons_of_mem _ hx)
      have hflR1 : ∀ x, (cullStep ctx { st with wl := rest } p).flags x = true → R x := by
        intro x hx
        rcases (cullStep_flags ctx _ p x).mp hx with h1 | h1
        · exact hflR x h1
        · exact hRstep p x (hflR p hpf) h1
      have hcl1 : ∀ x, (cullStep ctx { st with wl := rest } p).flags x = true →
          x ∉ (cullStep ctx { st with wl := rest } p).wl →
          ∀ q ∈ cullSuccOf ctx x, (cullStep ctx { st with wl := rest } p).flags q
            = true := by
        intro x hx hnx q hq
        rcases cullStep_new_flag_in_wl ctx _ p x hx with hold | hnew
        · by_cases hxp : x = p
          · subst hxp
            exact (cullStep_flags ctx _ x q).mpr (Or.inr hq)
          · by_cases hxw : x ∈ st.wl
            · rw [hw] at hxw
              rcases List.mem_cons.mp hxw with h' | h'
              · exact absurd h' hxp
              · exact absurd (cullStep_wl_mono ctx _ p x h') hnx
            · have hcls := hcl x hold hxw q hq
              exact cullStep_flags_mono ctx _ p q hcls
        · exact absurd hnew hnx
      obtain ⟨ha, hb, hc, hd⟩ := ih (cullStep ctx { st with wl := rest } p)
        hm1 hwf1 hflR1 hcl1
      rw [hloop]
      refine ⟨ha, ?_, hc, hd⟩
      intro x hx
      exact hb x (cullStep_flags_mono ctx _ p x hx)

theorem seedOutputs_flags (n count : Nat) (vc : Nat → Nat) (prod : Nat → Nat → Nat)
    (outs : List Nat) (st : CullState) (p : Nat) :
    (seedOutputs n count vc prod outs st).flags p = true ↔
      st.flags p = true ∨
        (¬ p = invalidPass ∧ p < n ∧ ∃ o ∈ outs, o < count ∧
          getProducerFrom count vc prod (latestVersion vc o) = p) := by
  show (outs.foldl (fun st out => if out < count then
      enqueuePass n st (getProducerFrom count vc prod (latestVersion vc out))
    else st) st).flags p = true ↔ _
  exact foldl_seed_flags n count _ outs st p

theorem seedOutputs_wl_flags (n count : Nat) (vc : Nat → Nat) (prod : Nat → Nat → Nat)
    (outs : List Nat) (st : CullState)
    (h : ∀ x ∈ st.wl, st.flags x = true) :
    ∀ x ∈ (seedOutputs n count vc prod outs st).wl,
      (seedOutputs n count vc prod outs st).flags x = true := by
  show ∀ x ∈ (outs.foldl (fun st out => if out < count then
      enqueuePass n st (getProducerFrom count vc prod (latestVersion vc out))
    else st) st).wl, _
  exact foldl_seed_wl_flags n count _ outs st h

theorem seedOutputs_measure (n count : Nat) (vc : Nat → Nat) (prod : Nat → Nat → Nat)
    (outs : List Nat) (st : CullState) :
    (seedOutputs n count vc prod outs st).wl.length +
        (n - activeCountOf n (seedOutputs n count vc prod outs st).flags) =
      st.wl.length + (n - activeCountOf n st.flags) := by
  show (outs.foldl (fun st out => if out < count then
        enqueuePass n st (getProducerFrom count vc prod (latestVersion vc out))
      else st) st).wl.length +
      (n - activeCountOf n (outs.foldl (fun st out => if out < count then
        enqueuePass n st (getProducerFrom count vc prod (latestVersion vc out))
      else st) st).flags) = _
  exact foldl_seed_measure n count _ outs st

theorem seedOutputs_new_flag_in_wl (n count : Nat) (vc : Nat → Nat)
    (prod : Nat → Nat → Nat) (outs : List Nat) (st : CullState) (x : Nat)
    (h : (seedOutputs n count vc prod outs st).flags x = true) :
    st.flags x = true ∨ x ∈ (seedOutputs n count vc prod outs st).wl := by
  revert h
  show (outs.foldl (fun st out => if out < count then
      enqueuePass n st (getProducerFrom count vc prod (latestVersion vc out))
    else st) st).flags x = true → _
  exact foldl_seed_new_flag_in_wl n count _ outs st x

theorem seedOutputs_wl_mono (n count : Nat) (vc : Nat → Nat)
    (prod : Nat → Nat → Nat) (outs : List Nat) (st : CullState) (x : Nat)
    (h : x ∈ st.wl) : x ∈ (seedOutputs n count vc prod outs st).wl := by
  show x ∈ (outs.foldl (fun st out => if out < count then
      enqueuePass n st (getProducerFrom count vc prod (latestVersion vc out))
    else st) st).wl
  induction outs generalizing st with
  | nil => exact h
  | cons o rest ih =>
    simp only [List.foldl_cons]
    by_cases hc : o < count
    · rw [if_pos hc]
      exact ih _ (enqueuePass_wl_mono n st _ x h)
    · rw [if_neg hc]
      exact ih _ h

theorem cullingStage_flags_iff (ctx : CullCtx) (io bo : List Nat) (p : Nat) :
    (cullingStage ctx io bo).flags p = true ↔
      ReachesFrom (cullSeedsOf ctx io bo) (cullSuccOf ctx) p := by
  unfold cullingStage
  have hseed : ∀ x,
      (seedOutputs ctx.passCount ctx.bufferCount ctx.bufVc ctx.bufProd bo
        (seedOutputs ctx.passCount ctx.imageCount ctx.imgVc ctx.imgProd io
          ⟨fun _ => false, []⟩)).flags x = true ↔ x ∈ cullSeedsOf ctx io bo := by
    intro x
    rw [seedOutputs_flags, seedOutputs_flags, mem_cullSeedsOf]
    constructor
    · rintro ((h | ⟨hv, hlt, w⟩) | ⟨hv, hlt, w⟩)
      · cases h
      · exact ⟨⟨hv, hlt⟩, Or.inl w⟩
      · exact ⟨⟨hv, hlt⟩, Or.inr w⟩
    · rintro ⟨⟨hv, hlt⟩, w | w⟩
      · exact Or.inl (Or.inr ⟨hv, hlt, w⟩)
      · exact Or.inr ⟨hv, hlt, w⟩
  have hwf2 : ∀ x ∈ (seedOutputs ctx.passCount ctx.bufferCount ctx.bufVc ctx.bufProd bo
      (seedOutputs ctx.passCount ctx.imageCount ctx.imgVc ctx.imgProd io
        ⟨fun _ => false, []⟩)).wl,
      (seedOutputs ctx.passCount ctx.bufferCount ctx.bufVc ctx.bufProd bo
        (seedOutputs ctx.passCount ctx.imageCount ctx.imgVc ctx.imgProd io
          ⟨fun _ => false, []⟩)).flags x = true := by
    refine seedOutputs_wl_flags _ _ _ _ _ _ ?_
    refine seedOutputs_wl_flags _ _ _ _ _ _ ?_
    intro x hx
    cases hx
  have hflin : ∀ x,
      (seedOutputs ctx.passCount ctx.bufferCount ctx.bufVc ctx.bufProd bo
        (seedOutputs ctx.passCount ctx.imageCount ctx.imgVc ctx.imgProd io
          ⟨fun _ => false, []⟩)).flags x = true →
      x ∈ (seedOutputs ctx.passCount ctx.bufferCount ctx.bufVc ctx.bufProd bo
        (seedOutputs ctx.passCount ctx.imageCount ctx.imgVc ctx.imgProd io
          ⟨fun _ => false, []⟩)).wl := by
    intro x hx
    rcases seedOutputs_new_flag_in_wl _ _ _ _ _ _ x hx with h1 | h1
    · rcases seedOutputs_new_flag_in_wl _ _ _ _ _ _ x h1 with h2 | h2
      · cases h2
      · exact seedOutputs_wl_mono _ _ _ _ _ _ x h2
    · exact h1
  have hmeas : (seedOutputs ctx.passCount ctx.bufferCount ctx.bufVc ctx.bufProd bo
      (seedOutputs ctx.passCount ctx.imageCount ctx.imgVc ctx.imgProd io
        ⟨fun _ => false, []⟩)).wl.length +
      (ctx.passCount - activeCountOf ctx.passCount
        (seedOutputs ctx.passCount ctx.bufferCount ctx.bufVc ctx.bufProd bo
          (seedOutputs ctx.passCount ctx.imageCount ctx.imgVc ctx.imgProd io
            ⟨fun _ => false, []⟩)).flags) ≤
      cullFuel ctx.passCount
        (seedOutputs ctx.passCount ctx.bufferCount ctx.bufVc ctx.bufProd bo
          (seedOutputs ctx.passCount ctx.imageCount ctx.imgVc ctx.imgProd io
            ⟨fun _ => false, []⟩)) := by
    unfold cullFuel
    omega
  obtain ⟨ha, hb, hc, hd⟩ := cullLoop_spec ctx
    (ReachesFrom (cullSeedsOf ctx io bo) (cullSuccOf ctx))
    (fun q p hq hp => ReachesFrom.step q p hq hp)
    (cullFuel ctx.passCount
      (seedOutputs ctx.passCount ctx.bufferCount ctx.bufVc ctx.bufProd bo
        (seedOutputs ctx.passCount ctx.imageCount ctx.imgVc ctx.imgProd io
          ⟨fun _ => false, []⟩)))
    (seedOutputs ctx.passCount ctx.bufferCount ctx.bufVc ctx.bufProd bo
      (seedOutputs ctx.passCount ctx.imageCount ctx.imgVc ctx.imgProd io
        ⟨fun _ => false, []⟩))
    hmeas hwf2
    (fun x hx => ReachesFrom.seed x ((hseed x).mp hx))
    (fun x hx hnx _ _ => absurd (hflin x hx) hnx)
  constructor
  · exact fun h => hc p h
  · intro hr
    induction hr with
    | seed s hs => exact hb s ((hseed s).mpr hs)
    | step q s hq hqs ihq => exact hd q ihq s hqs

/-! ### C1: culling marks exactly the passes reachable from the outputs -/

/-- C1: after compile()'s culling stage, a pass is marked active iff it is
reachable by following read-site producer edges backwards from the
producer of the latest version of some declared output: the seeds are the
valid producers of the latest versions of the declared in-range outputs,
and each live pass keeps the valid producers of its read records live.
In particular a pass that merely declares an output but neither writes it
nor chains into any of its writers is not reachable and stays inactive. -/
theorem culling_active_iff_reachable (passes : List (List SetupCmd))
    (m : ResourceMetaTable) (p : Nat) :
    (compile passes m).active_pass_flags p = true ↔
      ReachesFrom
        (cullSeedsOf (compileCtx passes m) (compileSetup passes m).image_outputs
          (compileSetup passes m).buffer_outputs)
        (cullSuccOf (compileCtx passes m)) p := by
  show (cullingStage (compileCtx passes m) (compileSetup passes m).image_outputs
      (compileSetup passes m).buffer_outputs).flags p = true ↔ _
  exact cullingStage_flags_iff _ _ _ p

/-! ### Kahn scheduling lemmas (Step G) -/

theorem indexOf_append_left {a : Nat} {l1 : List Nat} (l2 : List Nat) (h : a ∈ l1) :
    (l1 ++ l2).indexOf a = l1.indexOf a := by
  induction l1 with
  | nil => cases h
  | cons b rest ih =>
    by_cases hb : b = a
    · subst hb
      simp [List.indexOf_cons_self]
    · rcases List.mem_cons.mp h with h' | h'
      · exact absurd h'.symm hb
      · have hba : (b == a) = false := beq_eq_false_iff_ne.mpr hb
        simp only [List.cons_append, List.indexOf_cons, hba, Bool.cond_false]
        rw [ih h']

theorem indexOf_append_right {a : Nat} {l1 : List Nat} (l2 : List Nat) (h : a ∉ l1) :
    (l1 ++ l2).indexOf a = l1.length + l2.indexOf a := by
  induction l1 with
  | nil => simp
  | cons b rest ih =>
    have hba : (b == a) = false := beq_eq_false_iff_ne.mpr
      (fun hb => h (hb ▸ List.mem_cons_self b rest))
    have ha : a ∉ rest := fun h' => h (List.mem_cons_of_mem _ h')
    simp only [List.cons_append, List.indexOf_cons, hba, Bool.cond_false,
      List.length_cons]
    rw [ih ha]
    omega

theorem foldl_kahnRelax_sorted :
    ∀ (l : List Nat) (st : KahnState), (l.foldl kahnRelax st).sorted = st.sorted := by
  intro l
  induction l with
  | nil => intro st; rfl
  | cons d rest ih =>
    intro st
    simp only [List.foldl_cons]
    rw [ih]
    rfl

theorem foldl_kahnRelax_ctr :
    ∀ (l : List Nat) (st : KahnState) (x : Nat), l.Nodup →
      (l.foldl kahnRelax st).ctr x =
        if x ∈ l then st.ctr x - 1 else st.ctr x := by
  intro l
  induction l with
  | nil => intro st x _; simp
  | cons d rest ih =>
    intro st x hnd
    obtain ⟨hd, hnd'⟩ := List.nodup_cons.mp hnd
    simp only [List.foldl_cons]
    rw [ih _ x hnd']
    by_cases hx : x ∈ rest
    · have hxd : ¬ x = d := fun h => hd (h ▸ hx)
      rw [if_pos hx, if_pos (List.mem_cons_of_mem _ hx)]
      show setAt st.ctr d (st.ctr d - 1) x - 1 = st.ctr x - 1
      rw [setAt_other _ _ hxd]
    · rw [if_neg hx]
      by_cases hxd : x = d
      · subst hxd
        rw [if_pos (List.mem_cons_self _ _)]
        exact setAt_same _ _ _
      · rw [if_neg (by simp [hxd, hx])]
        exact setAt_other _ _ hxd

theorem foldl_kahnRelax_queue :
    ∀ (l : List Nat) (st : KahnState), l.Nodup →
      (l.foldl kahnRelax st).queue =
        st.queue ++ l.filter (fun d => st.ctr d - 1 = 0) := by
  intro l
  induction l with
  | nil => intro st _; simp
  | cons d rest ih =>
    intro st hnd
    obtain ⟨hd, hnd'⟩ := List.nodup_cons.mp hnd
    simp only [List.foldl_cons]
    rw [ih _ hnd', List.filter_cons]
    have hrest : (rest.filter fun e => (kahnRelax st d).ctr e - 1 = 0) =
        rest.filter fun e => st.ctr e - 1 = 0 := by
      refine List.filter_congr ?_
      intro e he
      have hed : ¬ e = d := fun h => hd (h ▸ he)
      show decide (setAt st.ctr d (st.ctr d - 1) e - 1 = 0) = _
      rw [setAt_other _ _ hed]
    rw [hrest]
    by_cases hc : st.ctr d - 1 = 0
    · rw [if_pos (by simpa using hc)]
      show (if st.ctr d - 1 = 0 then st.queue ++ [d] else st.queue) ++ _ = _
      rw [if_pos hc]
      simp
    · rw [if_neg (by simpa using hc)]
      show (if st.ctr d - 1 = 0 then st.queue ++ [d] else st.queue) ++ _ = _
      rw [if_neg hc]

theorem remainingDeg_nil (n : Nat) (adj : Nat → List Nat) (v : Nat) :
    remainingDeg n adj [] v = inDegreeOf n adj v := by
  unfold remainingDeg inDegreeOf
  congr 1
  rw [List.filter_eq_self.mpr]
  intro a _
  simp

theorem sum_split_at_mem (f : Nat → Nat) (sorted : List Nat) (p : Nat) :
    ∀ (l : List Nat), l.Nodup → p ∈ l → p ∉ sorted →
      ((l.filter fun u => ¬ u ∈ sorted).map f).sum =
        ((l.filter fun u => ¬ u ∈ sorted ++ [p]).map f).sum + f p := by
  intro l
  induction l with
  | nil => intro _ h; cases h
  | cons a rest ih =>
    intro hnd hmem hps
    obtain ⟨hna, hnd'⟩ := List.nodup_cons.mp hnd
    rcases List.mem_cons.mp hmem with rfl | hmem'
    · have hfc : (rest.filter fun u => ¬ u ∈ sorted ++ [p]) =
          rest.filter fun u => ¬ u ∈ sorted := by
        refine List.filter_congr ?_
        intro u hu
        have hup : ¬ u = p := fun h => hna (h ▸ hu)
        simp [List.mem_append, hup]
      rw [List.filter_cons, List.filter_cons, hfc]
      rw [if_pos (by simpa using hps), if_neg (by simp)]
      simp only [List.map_cons, List.sum_cons]
      omega
    · have haa : ¬ a = p := fun h => hna (h ▸ hmem')
      rw [List.filter_cons, List.filter_cons]
      by_cases has : a ∈ sorted
      · rw [if_neg (by simpa using has), if_neg (by simp [List.mem_append, has])]
        exact ih hnd' hmem' hps
      · rw [if_pos (by simpa using has),
          if_pos (by simp [List.mem_append, has, haa])]
        simp only [List.map_cons, List.sum_cons]
        rw [ih hnd' hmem' hps]
        omega

theorem remainingDeg_append (n : Nat) (adj : Nat → List Nat) (sorted : List Nat)
    (p v : Nat) (hp : p < n) (hps : p ∉ sorted) :
    remainingDeg n adj sorted v =
      remainingDeg n adj (sorted ++ [p]) v + (adj p).count v := by
  unfold remainingDeg
  exact sum_split_at_mem _ sorted p (List.range n) (List.nodup_range n)
    (List.mem_range.mpr hp) hps

theorem nodup_bounded_length_le (l : List Nat) (n : Nat) (hnd : l.Nodup)
    (hb : ∀ x ∈ l, x < n) : l.length ≤ n := by
  have h1 : l.toFinset ⊆ Finset.range n := by
    intro x hx
    exact Finset.mem_range.mpr (hb x (List.mem_toFinset.mp hx))
  have h2 : l.toFinset.card = l.length := List.toFinset_card_of_nodup hnd
  have := Finset.card_le_card h1
  rw [h2, Finset.card_range] at this
  exact this

theorem nodup_bounded_full (l : List Nat) (n : Nat) (hnd : l.Nodup)
    (hb : ∀ x ∈ l, x < n) (hlen : n ≤ l.length) : ∀ x, x < n → x ∈ l := by
  have h1 : l.toFinset ⊆ Finset.range n := by
    intro x hx
    exact Finset.mem_range.mpr (hb x (List.mem_toFinset.mp hx))
  have h2 : l.toFinset.card = l.length := List.toFinset_card_of_nodup hnd
  have heq : l.toFinset = Finset.range n := by
    refine Finset.eq_of_subset_of_card_le h1 ?_
    rw [h2, Finset.card_range]
    exact hlen
  intro x hx
  have : x ∈ l.toFinset := heq ▸ Finset.mem_range.mpr hx
  exact List.mem_toFinset.mp this

theorem remainingDeg_eq_zero_iff (n : Nat) (adj : Nat → List Nat) (sorted : List Nat)
    (v : Nat) :
    remainingDeg n adj sorted v = 0 ↔
      ∀ u, u < n → u ∉ sorted → ¬ v ∈ adj u := by
  unfold remainingDeg
  rw [List.sum_eq_zero_iff]
  constructor
  · intro h u hu hus hv
    have hm : (adj u).count v ∈ ((List.range n).filter
        fun u => ¬ u ∈ sorted).map fun u => (adj u).count v := by
      refine List.mem_map.mpr ⟨u, ?_, rfl⟩
      refine List.mem_filter.mpr ⟨List.mem_range.mpr hu, by simpa using hus⟩
    have := h _ hm
    rw [List.count_eq_zero] at this
    exact this hv
  · intro h x hx
    obtain ⟨u, hu, rfl⟩ := List.mem_map.mp hx
    obtain ⟨hur, hus⟩ := List.mem_filter.mp hu
    rw [List.count_eq_zero]
    exact h u (List.mem_range.mp hur) (by simpa using hus)

theorem kahnLoop_spec (n : Nat) (flags : Nat → Bool) (adj : Nat → List Nat)
    (hA1 : ∀ u, u < n → (adj u).Nodup)
    (hA2 : ∀ u, u < n → ∀ v ∈ adj u,
      flags u = true ∧ flags v = true ∧ v < n ∧ ¬ u = v) :
    ∀ (fuel : Nat) (st : KahnState),
      n - st.sorted.length < fuel →
      (∀ x ∈ st.queue, flags x = true ∧ x < n) →
      st.sorted.Nodup →
      st.queue.Nodup →
      (∀ x ∈ st.queue, x ∉ st.sorted) →
      (∀ x ∈ st.sorted, flags x = true ∧ x < n) →
      (∀ v, v < n → st.ctr v = remainingDeg n adj st.sorted v) →
      (∀ v, v < n → flags v = true → st.ctr v = 0 → v ∈ st.sorted ∨ v ∈ st.queue) →
      (∀ v ∈ st.queue, ∀ u, u < n → v ∈ adj u → u ∈ st.sorted) →
      (∀ v ∈ st.sorted, ∀ u, u < n → v ∈ adj u →
        u ∈ st.sorted ∧ st.sorted.indexOf u < st.sorted.indexOf v) →
      ((kahnLoop adj fuel st).queue = [] ∧
       (kahnLoop adj fuel st).sorted.Nodup ∧
       (∀ x ∈ (kahnLoop adj fuel st).sorted, flags x = true ∧ x < n) ∧
       (∀ v, v < n → (kahnLoop adj fuel st).ctr v
          = remainingDeg n adj (kahnLoop adj fuel st).sorted v) ∧
       (∀ v, v < n → flags v = true → (kahnLoop adj fuel st).ctr v = 0 →
          v ∈ (kahnLoop adj fuel st).sorted) ∧
       (∀ v ∈ (kahnLoop adj fuel st).sorted, ∀ u, u < n → v ∈ adj u →
          u ∈ (kahnLoop adj fuel st).sorted ∧
            (kahnLoop adj fuel st).sorted.indexOf u <
              (kahnLoop adj fuel st).sorted.indexOf v)) := by
  intro fuel
  induction fuel with
  | zero =>
    intro st hfuel
    exact absurd hfuel (Nat.not_lt_zero _)
  | succ fuel ih =>
    intro st hfuel hI1 hI2a hI2b hI2c hI2d hI3 hI4 hI5 hI6
    cases hw : st.queue with
    | nil =>
      have hstep : kahnLoop adj (fuel + 1) st = st := by
        show (match st.queue with
          | [] => st
          | p :: rest => kahnLoop adj fuel
              ((adj p).foldl kahnRelax
                { st with queue := rest, sorted := st.sorted ++ [p] })) = st
        rw [hw]
      rw [hstep]
      refine ⟨hw, hI2a, hI2d, hI3, ?_, hI6⟩
      intro v hv hfv hcv
      rcases hI4 v hv hfv hcv with h | h
      · exact h
      · rw [hw] at h
        cases h
    | cons p rest =>
      have hloop : kahnLoop adj (fuel + 1) st =
          kahnLoop adj fuel
            ((adj p).foldl kahnRelax
              { st with queue := rest, sorted := st.sorted ++ [p] }) := by
        show (match st.queue with
          | [] => st
          | p :: rest => kahnLoop adj fuel
              ((adj p).foldl kahnRelax
                { st with queue := rest, sorted := st.sorted ++ [p] })) = _
        rw [hw]
      have hpq : p ∈ st.queue := by rw [hw]; exact List.mem_cons_self _ _
      obtain ⟨hpf, hpn⟩ := hI1 p hpq
      have hpns : p ∉ st.sorted := hI2c p hpq
      have hadjnd := hA1 p hpn
      -- closed forms for the relaxed state
      have hsorted1 : ((adj p).foldl kahnRelax
          { st with queue := rest, sorted := st.sorted ++ [p] }).sorted =
            st.sorted ++ [p] :=
        foldl_kahnRelax_sorted _ _
      have hctr1 : ∀ x, ((adj p).foldl kahnRelax
          { st with queue := rest, sorted := st.sorted ++ [p] }).ctr x =
            if x ∈ adj p then st.ctr x - 1 else st.ctr x :=
        fun x => foldl_kahnRelax_ctr _ _ x hadjnd
      have hqueue1 : ((adj p).foldl kahnRelax
          { st with queue := rest, sorted := st.sorted ++ [p] }).queue =
            rest ++ (adj p).filter (fun d => st.ctr d - 1 = 0) :=
        foldl_kahnRelax_queue _ _ hadjnd
      -- length bound for the fuel step
      have hlen : st.sorted.length + 1 ≤ n := by
        have hnd' : (st.sorted ++ [p]).Nodup := by
          rw [List.nodup_append]
          refine ⟨hI2a, List.nodup_singleton p, ?_⟩
          intro a ha hb
          rw [List.mem_singleton] at hb
          exact hpns (hb ▸ ha)
        have hb' : ∀ x ∈ st.sorted ++ [p], x < n := by
          intro x hx
          rcases List.mem_append.mp hx with h | h
          · exact (hI2d x h).2
          · rw [List.mem_singleton.mp h]
            exact hpn
        have := nodup_bounded_length_le _ n hnd' hb'
        simpa using this
      -- remaining-degree accounting
      have hrem : ∀ v, v < n → remainingDeg n adj st.sorted v =
          remainingDeg n adj (st.sorted ++ [p]) v + (adj p).count v :=
        fun v _ => remainingDeg_append n adj st.sorted p v hpn hpns
      -- new invariants
      have hI3' : ∀ v, v < n → ((adj p).foldl kahnRelax
          { st with queue := rest, sorted := st.sorted ++ [p] }).ctr v =
            remainingDeg n adj (st.sorted ++ [p]) v := by
        intro v hv
        rw [hctr1 v]
        by_cases hmem : v ∈ adj p
        · rw [if_pos hmem, hI3 v hv, hrem v hv,
            List.count_eq_one_of_mem hadjnd hmem]
          omega
        · rw [if_neg hmem, hI3 v hv, hrem v hv, List.count_eq_zero.mpr hmem]
          omega
      have hI1' : ∀ x ∈ rest ++ (adj p).filter (fun d => st.ctr d - 1 = 0),
          flags x = true ∧ x < n := by
        intro x hx
        rcases List.mem_append.mp hx with h | h
        · exact hI1 x (by rw [hw]; exact List.mem_cons_of_mem _ h)
        · have hxa : x ∈ adj p := List.mem_of_mem_filter h
          obtain ⟨_, hfx, hxn, _⟩ := hA2 p hpn x hxa
          exact ⟨hfx, hxn⟩
      have hrestq : ∀ x ∈ rest, x ∈ st.queue := by
        intro x hx
        rw [hw]
        exact List.mem_cons_of_mem _ hx
      have hqnd : st.queue.Nodup := hI2b
      have hpnotrest : p ∉ rest := by
        rw [hw] at hqnd
        exact (List.nodup_cons.mp hqnd).1
      have hrestnd : rest.Nodup := by
        rw [hw] at hqnd
        exact (List.nodup_cons.mp hqnd).2
      have hI2b' : (rest ++ (adj p).filter (fun d => st.ctr d - 1 = 0)).Nodup := by
        rw [List.nodup_append]
        refine ⟨hrestnd, List.Nodup.filter _ hadjnd, ?_⟩
        intro a ha hb
        have hadj : a ∈ adj p := List.mem_of_mem_filter hb
        have := hI5 a (hrestq a ha) p hpn hadj
        exact hpns this
      have hI2c' : ∀ x ∈ rest ++ (adj p).filter (fun d => st.ctr d - 1 = 0),
          x ∉ st.sorted ++ [p] := by
        intro x hx hmem
        rcases List.mem_append.mp hmem with hs | hs
        · rcases List.mem_append.mp hx with h | h
          · exact hI2c x (hrestq x h) hs
          · have hadj : x ∈ adj p := List.mem_of_mem_filter h
            exact hpns (hI6 x hs p hpn hadj).1
        · rw [List.mem_singleton] at hs
          rcases List.mem_append.mp hx with h | h
          · exact hpnotrest (hs ▸ h)
          · have hadj : x ∈ adj p := List.mem_of_mem_filter h
            exact (hA2 p hpn x hadj).2.2.2 hs.symm
      have hI2a' : (st.sorted ++ [p]).Nodup := by
        rw [List.nodup_append]
        refine ⟨hI2a, List.nodup_singleton p, ?_⟩
        intro a ha hb
        rw [List.mem_singleton] at hb
        exact hpns (hb ▸ ha)
      have hI2d' : ∀ x ∈ st.sorted ++ [p], flags x = true ∧ x < n := by
        intro x hx
        rcases List.mem_append.mp hx with h | h
        · exact hI2d x h
        · rw [List.mem_singleton.mp h]
          exact ⟨hpf, hpn⟩
      have hI4' : ∀ v, v < n → flags v = true →
          ((adj p).foldl kahnRelax
            { st with queue := rest, sorted := st.sorted ++ [p] }).ctr v = 0 →
          v ∈ st.sorted ++ [p] ∨
            v ∈ rest ++ (adj p).filter (fun d => st.ctr d - 1 = 0) := by
        intro v hv hfv hcv
        rw [hctr1 v] at hcv
        by_cases hmem : v ∈ adj p
        · rw [if_pos hmem] at hcv
          right
          refine List.mem_append_right _ (List.mem_filter.mpr ⟨hmem, ?_⟩)
          simpa using hcv
        · rw [if_neg hmem] at hcv
          rcases hI4 v hv hfv hcv with h | h
          · exact Or.inl (List.mem_append_left _ h)
          · rw [hw] at h
            rcases List.mem_cons.mp h with rfl | h'
            · exact Or.inl (List.mem_append_right _ (List.mem_singleton.mpr rfl))
            · exact Or.inr (List.mem_append_left _ h')
      have hI5' : ∀ v ∈ rest ++ (adj p).filter (fun d => st.ctr d - 1 = 0),
          ∀ u, u < n → v ∈ adj u → u ∈ st.sorted ++ [p] := by
        intro v hv u hu hvu
        rcases List.mem_append.mp hv with h | h
        · exact List.mem_append_left _ (hI5 v (hrestq v h) u hu hvu)
        · have hadj : v ∈ adj p := List.mem_of_mem_filter h
          have hvn : v < n := (hA2 p hpn v hadj).2.2.1
          have hcz : ((adj p).foldl kahnRelax
              { st with queue := rest, sorted := st.sorted ++ [p] }).ctr v = 0 := by
            rw [hctr1 v, if_pos hadj]
            have := List.mem_filter.mp h
            simpa using this.2
          have hrz : remainingDeg n adj (st.sorted ++ [p]) v = 0 := by
            rw [← hI3' v hvn]
            exact hcz
          by_contra hns
          exact (remainingDeg_eq_zero_iff n adj _ v).mp hrz u hu hns hvu
      have hI6' : ∀ v ∈ st.sorted ++ [p], ∀ u, u < n → v ∈ adj u →
          u ∈ st.sorted ++ [p] ∧
            (st.sorted ++ [p]).indexOf u < (st.sorted ++ [p]).indexOf v := by
        intro v hv u hu hvu
        rcases List.mem_append.mp hv with h | h
        · obtain ⟨hus, hidx⟩ := hI6 v h u hu hvu
          refine ⟨List.mem_append_left _ hus, ?_⟩
          rw [indexOf_append_left _ hus, indexOf_append_left _ h]
          exact hidx
        · rw [List.mem_singleton] at h
          subst h
          have hus : u ∈ st.sorted := hI5 v hpq u hu hvu
          refine ⟨List.mem_append_left _ hus, ?_⟩
          rw [indexOf_append_left _ hus, indexOf_append_right _ hpns]
          have := List.indexOf_lt_length.mpr hus
          simp only [List.indexOf_cons_self, Nat.add_zero]
          omega
      have hfuel' : n - (st.sorted ++ [p]).length < fuel := by
        rw [List.length_append, List.length_singleton]
        omega
      rw [hloop]
      exact ih _ (by rw [hsorted1]; exact hfuel')
        (by rw [hqueue1]; exact hI1')
        (by rw [hsorted1]; exact hI2a')
        (by rw [hqueue1]; exact hI2b')
        (by rw [hqueue1, hsorted1]; exact hI2c')
        (by rw [hsorted1]; exact hI2d')
        (by rw [hsorted1]; exact hI3')
        (by rw [hqueue1, hsorted1]; exact hI4')
        (by rw [hqueue1, hsorted1]; exact hI5')
        (by rw [hsorted1]; exact hI6')

/-- Witness for C10: the second conjunct applied to the interleaved
scenario at pass 1. -/
theorem reads_versioned_before_writes_witness :
    flatWriteLen (passPairsImg (compileSetup interleavedGraph {}).pass_deps) < two32 ∧
    (1 : Nat) < (passPairsImg (compileSetup interleavedGraph {}).pass_deps).length ∧
    (compile interleavedGraph {}).img_ver_reads.getD 1 [] =
      ((passPairsImg (compileSetup interleavedGraph {}).pass_deps).getD 1 ([], [])).1.map
        (fun r =>
          if r.resource < compileImageCount interleavedGraph {} ∧
              ¬ writesBeforePass (compileImageCount interleavedGraph {}) r.resource
                  (passPairsImg (compileSetup interleavedGraph {}).pass_deps) 1 = 0 then
            pack r.resource
              (writesBeforePass (compileImageCount interleavedGraph {}) r.resource
                (passPairsImg (compileSetup interleavedGraph {}).pass_deps) 1 - 1)
          else invalidResourceVersion) :=
  ⟨by decide, by decide,
   reads_versioned_before_writes.2.1 interleavedGraph {} (by decide) 1 (by decide)⟩

/-! ### DAG construction lemmas (Step F) -/

theorem mem_orderedInsert (a b : Nat) (l : List Nat) :
    b ∈ orderedInsert a l ↔ b = a ∨ b ∈ l := by
  induction l with
  | nil => simp [orderedInsert]
  | cons c rest ih =>
    simp only [orderedInsert]
    by_cases h : a ≤ c
    · rw [if_pos h]
      simp
    · rw [if_neg h]
      simp only [List.mem_cons, ih]
      tauto

theorem mem_insertionSort (b : Nat) (l : List Nat) :
    b ∈ insertionSort l ↔ b ∈ l := by
  induction l with
  | nil => simp [insertionSort]
  | cons a rest ih =>
    simp only [insertionSort]
    rw [mem_orderedInsert]
    simp [ih]

theorem sorted_orderedInsert (a : Nat) (l : List Nat)
    (h : List.Sorted (· ≤ ·) l) : List.Sorted (· ≤ ·) (orderedInsert a l) := by
  induction l with
  | nil => simp [orderedInsert]
  | cons c rest ih =>
    simp only [orderedInsert]
    by_cases hac : a ≤ c
    · rw [if_pos hac]
      refine List.sorted_cons.mpr ⟨?_, h⟩
      intro b hb
      rcases List.mem_cons.mp hb with rfl | hb
      · exact hac
      · exact le_trans hac ((List.sorted_cons.mp h).1 b hb)
    · rw [if_neg hac]
      have hres := List.sorted_cons.mp h
      refine List.sorted_cons.mpr ⟨?_, ih hres.2⟩
      intro b hb
      rcases (mem_orderedInsert a b rest).mp hb with rfl | hb
      · omega
      · exact hres.1 b hb

theorem sorted_insertionSort (l : List Nat) :
    List.Sorted (· ≤ ·) (insertionSort l) := by
  induction l with
  | nil => simp [insertionSort]
  | cons a rest ih =>
    simp only [insertionSort]
    exact sorted_orderedInsert a _ ih

theorem mem_dedupAdjacent (b : Nat) : ∀ l : List Nat, b ∈ dedupAdjacent l ↔ b ∈ l := by
  intro l
  induction l with
  | nil => simp [dedupAdjacent]
  | cons a rest ih =>
    cases rest with
    | nil => simp [dedupAdjacent]
    | cons c rest2 =>
      simp only [dedupAdjacent]
      by_cases hac : a = c
      · subst hac
        rw [if_pos rfl, ih]
        simp only [List.mem_cons]
        tauto
      · rw [if_neg hac]
        simp only [List.mem_cons, ih]

theorem nodup_dedupAdjacent : ∀ l : List Nat, List.Sorted (· ≤ ·) l →
    (dedupAdjacent l).Nodup := by
  intro l
  induction l with
  | nil => intro _; simp [dedupAdjacent]
  | cons a rest ih =>
    intro hs
    cases rest with
    | nil => simp [dedupAdjacent]
    | cons c rest2 =>
      have hs' := List.sorted_cons.mp hs
      simp only [dedupAdjacent]
      by_cases hac : a = c
      · rw [if_pos hac]
        exact ih hs'.2
      · rw [if_neg hac]
        refine List.nodup_cons.mpr ⟨?_, ih hs'.2⟩
        intro hmem
        have hm2 : a ∈ c :: rest2 := (mem_dedupAdjacent a _).mp hmem
        have hca : a ≤ c := hs'.1 c (List.mem_cons_self c rest2)
        rcases List.mem_cons.mp hm2 with h | h
        · exact hac h
        · have := (List.sorted_cons.mp hs'.2).1 a h
          omega

theorem adjacencyOf_nodup (edges : List (Nat × Nat)) (u : Nat) :
    (adjacencyOf edges u).Nodup :=
  nodup_dedupAdjacent _ (sorted_insertionSort _)

theorem mem_adjacencyOf (edges : List (Nat × Nat)) (u v : Nat) :
    v ∈ adjacencyOf edges u ↔ (u, v) ∈ edges := by
  unfold adjacencyOf
  rw [mem_dedupAdjacent, mem_insertionSort]
  unfold outgoingRaw
  simp only [List.mem_map, List.mem_filter]
  constructor
  · rintro ⟨e, ⟨he, hfst⟩, hsnd⟩
    have h1 : e.1 = u := by simpa using hfst
    have h2 : e = (u, v) := by
      cases e
      simp_all
    exact h2 ▸ he
  · intro h
    exact ⟨(u, v), ⟨h, by simp⟩, rfl⟩

theorem edgeOk_spec (n : Nat) (flags : Nat → Bool) (e : Nat × Nat)
    (h : edgeOk n flags e = true) :
    ¬ e.1 = invalidPass ∧ ¬ e.2 = invalidPass ∧ e.1 < n ∧ e.2 < n ∧
      ¬ e.1 = e.2 ∧ flags e.1 = true ∧ flags e.2 = true := by
  unfold edgeOk at h
  simpa using h

theorem edgeOk_intro (n : Nat) (flags : Nat → Bool) (e : Nat × Nat)
    (h1 : ¬ e.1 = invalidPass) (h2 : ¬ e.2 = invalidPass) (h3 : e.1 < n)
    (h4 : e.2 < n) (h5 : ¬ e.1 = e.2) (h6 : flags e.1 = true)
    (h7 : flags e.2 = true) : edgeOk n flags e = true := by
  unfold edgeOk
  rw [decide_eq_true_eq]
  exact ⟨h1, h2, h3, h4, h5, h6, h7⟩

theorem dagEdges_ok (ctx : CullCtx) (flags : Nat → Bool) (e : Nat × Nat)
    (h : e ∈ dagEdges ctx flags) : edgeOk ctx.passCount flags e = true := by
  unfold dagEdges at h
  rcases List.mem_flatMap.mp h with ⟨c, _, he⟩
  by_cases hf : flags c = true
  · rw [if_pos hf] at he
    exact (List.mem_filter.mp he).2
  · rw [if_neg hf] at he
    cases he

theorem dagEdges_intro_img (ctx : CullCtx) (flags : Nat → Bool) (c vh : Nat)
    (hc : c < ctx.passCount) (hf : flags c = true)
    (hvh : vh ∈ ctx.imgReadVers c)
    (hok : edgeOk ctx.passCount flags
      (getProducerFrom ctx.imageCount ctx.imgVc ctx.imgProd vh, c) = true) :
    (getProducerFrom ctx.imageCount ctx.imgVc ctx.imgProd vh, c) ∈
      dagEdges ctx flags := by
  unfold dagEdges
  refine List.mem_flatMap.mpr ⟨c, List.mem_range.mpr hc, ?_⟩
  rw [if_pos hf]
  refine List.mem_filter.mpr ⟨?_, hok⟩
  exact List.mem_append_left _ (List.mem_map.mpr ⟨vh, hvh, rfl⟩)

theorem dagEdges_intro_buf (ctx : CullCtx) (flags : Nat → Bool) (c vh : Nat)
    (hc : c < ctx.passCount) (hf : flags c = true)
    (hvh : vh ∈ ctx.bufReadVers c)
    (hok : edgeOk ctx.passCount flags
      (getProducerFrom ctx.bufferCount ctx.bufVc ctx.bufProd vh, c) = true) :
    (getProducerFrom ctx.bufferCount ctx.bufVc ctx.bufProd vh, c) ∈
      dagEdges ctx flags := by
  unfold dagEdges
  refine List.mem_flatMap.mpr ⟨c, List.mem_range.mpr hc, ?_⟩
  rw [if_pos hf]
  refine List.mem_filter.mpr ⟨?_, hok⟩
  exact List.mem_append_right _ (List.mem_map.mpr ⟨vh, hvh, rfl⟩)

theorem compileAdj_nodup (passes : List (List SetupCmd)) (m : ResourceMetaTable)
    (u : Nat) : (compileAdj passes m u).Nodup :=
  adjacencyOf_nodup _ _

theorem compileAdj_ok (passes : List (List SetupCmd)) (m : ResourceMetaTable)
    (u v : Nat) (h : v ∈ compileAdj passes m u) :
    edgeOk passes.length (compileFlags passes m) (u, v) = true := by
  unfold compileAdj at h
  exact dagEdges_ok _ _ _ ((mem_adjacencyOf _ u v).mp h)

theorem compileAdj_hA2 (passes : List (List SetupCmd)) (m : ResourceMetaTable) :
    ∀ u, u < passes.length → ∀ v ∈ compileAdj passes m u,
      compileFlags passes m u = true ∧ compileFlags passes m v = true ∧
        v < passes.length ∧ ¬ u = v := by
  intro u _ v hv
  have h := edgeOk_spec _ _ _ (compileAdj_ok passes m u v hv)
  exact ⟨h.2.2.2.2.2.1, h.2.2.2.2.2.2, h.2.2.2.1, h.2.2.2.2.1⟩

/-! ### Active-set counting -/

theorem mem_activeList (n : Nat) (flags : Nat → Bool) (x : Nat) :
    (x ∈ (List.range n).filter fun p => flags p) ↔ x < n ∧ flags x = true := by
  simp [List.mem_filter, List.mem_range]

theorem nodup_active_length_le (l : List Nat) (n : Nat) (flags : Nat → Bool)
    (hnd : l.Nodup) (hb : ∀ x ∈ l, flags x = true ∧ x < n) :
    l.length ≤ activeCountOf n flags := by
  have hal : ((List.range n).filter fun p => flags p).Nodup :=
    List.Nodup.filter _ (List.nodup_range n)
  have h1 : l.toFinset ⊆ ((List.range n).filter fun p => flags p).toFinset := by
    intro x hx
    have hx' := hb x (List.mem_toFinset.mp hx)
    exact List.mem_toFinset.mpr ((mem_activeList n flags x).mpr ⟨hx'.2, hx'.1⟩)
  have h2 := List.toFinset_card_of_nodup hnd
  have h3 := List.toFinset_card_of_nodup hal
  have h4 := Finset.card_le_card h1
  unfold activeCountOf
  omega

theorem nodup_active_full (l : List Nat) (n : Nat) (flags : Nat → Bool)
    (hnd : l.Nodup) (hb : ∀ x ∈ l, flags x = true ∧ x < n)
    (hlen : activeCountOf n flags ≤ l.length) :
    ∀ x, x < n → flags x = true → x ∈ l := by
  intro x hxn hxf
  have hal : ((List.range n).filter fun p => flags p).Nodup :=
    List.Nodup.filter _ (List.nodup_range n)
  have h1 : l.toFinset ⊆ ((List.range n).filter fun p => flags p).toFinset := by
    intro y hy
    have hy' := hb y (List.mem_toFinset.mp hy)
    exact List.mem_toFinset.mpr ((mem_activeList n flags y).mpr ⟨hy'.2, hy'.1⟩)
  have h2 := List.toFinset_card_of_nodup hnd
  have h3 := List.toFinset_card_of_nodup hal
  have hcard : ((List.range n).filter fun p => flags p).toFinset.card ≤
      l.toFinset.card := by
    unfold activeCountOf at hlen
    omega
  have heq := Finset.eq_of_subset_of_card_le h1 hcard
  have hx : x ∈ ((List.range n).filter fun p => flags p).toFinset :=
    List.mem_toFinset.mpr ((mem_activeList n flags x).mpr ⟨hxn, hxf⟩)
  rw [← heq] at hx
  exact List.mem_toFinset.mp hx

/-! ### The final Kahn state -/

theorem kahnFinal_spec (n : Nat) (flags : Nat → Bool) (adj : Nat → List Nat)
    (hA1 : ∀ u, u < n → (adj u).Nodup)
    (hA2 : ∀ u, u < n → ∀ v ∈ adj u,
      flags u = true ∧ flags v = true ∧ v < n ∧ ¬ u = v) :
    (kahnLoop adj (kahnFuel n) (kahnInit n flags adj)).sorted.Nodup ∧
    (∀ x ∈ (kahnLoop adj (kahnFuel n) (kahnInit n flags adj)).sorted,
       flags x = true ∧ x < n) ∧
    (∀ v, v < n → flags v = true →
       remainingDeg n adj
         (kahnLoop adj (kahnFuel n) (kahnInit n flags adj)).sorted v = 0 →
       v ∈ (kahnLoop adj (kahnFuel n) (kahnInit n flags adj)).sorted) ∧
    (∀ v ∈ (kahnLoop adj (kahnFuel n) (kahnInit n flags adj)).sorted,
       ∀ u, u < n → v ∈ adj u →
         u ∈ (kahnLoop adj (kahnFuel n) (kahnInit n flags adj)).sorted ∧
           (kahnLoop adj (kahnFuel n) (kahnInit n flags adj)).sorted.indexOf u <
             (kahnLoop adj (kahnFuel n) (kahnInit n flags adj)).sorted.indexOf v) := by
  have hq : ∀ x ∈ (kahnInit n flags adj).queue, flags x = true ∧ x < n := by
    intro x hx
    have hx' := List.mem_filter.mp hx
    have hd := of_decide_eq_true hx'.2
    exact ⟨hd.1, List.mem_range.mp hx'.1⟩
  have hqnd : (kahnInit n flags adj).queue.Nodup :=
    List.Nodup.filter _ (List.nodup_range n)
  have hmemq : ∀ v, v < n → flags v = true → inDegreeOf n adj v = 0 →
      v ∈ (kahnInit n flags adj).queue := by
    intro v hv hf hd
    exact List.mem_filter.mpr ⟨List.mem_range.mpr hv, decide_eq_true ⟨hf, hd⟩⟩
  have h := kahnLoop_spec n flags adj hA1 hA2 (kahnFuel n) (kahnInit n flags adj)
    (by show n - ([] : List Nat).length < n + 1; simp)
    hq
    List.nodup_nil
    hqnd
    (fun x _ hmem => absurd hmem (List.not_mem_nil x))
    (fun x hx => absurd hx (List.not_mem_nil x))
    (fun v _ => (remainingDeg_nil n adj v).symm)
    (fun v hv hf hc => Or.inr (hmemq v hv hf hc))
    (fun v hvq u hu hvu => by
      have hd := of_decide_eq_true (List.mem_filter.mp hvq).2
      have hz : remainingDeg n adj [] v = 0 := by
        rw [remainingDeg_nil]
        exact hd.2
      exact absurd hvu
        ((remainingDeg_eq_zero_iff n adj [] v).mp hz u hu (List.not_mem_nil u)))
    (fun v hv => absurd hv (List.not_mem_nil v))
  obtain ⟨_, hnd, hbd, hctr, hcov, hord⟩ := h
  refine ⟨hnd, hbd, ?_, hord⟩
  intro v hv hf hrd
  refine hcov v hv hf ?_
  rw [hctr v hv]
  exact hrd

theorem topoSort_snd_iff (n : Nat) (flags : Nat → Bool) (adj : Nat → List Nat) :
    (topoSort n flags adj).2 = true ↔
      ¬ (topoSort n flags adj).1.length = activeCountOf n flags := by
  unfold topoSort
  simp

theorem topoSort_snd_false (n : Nat) (flags : Nat → Bool) (adj : Nat → List Nat) :
    (topoSort n flags adj).2 = false ↔
      (topoSort n flags adj).1.length = activeCountOf n flags := by
  rw [← Bool.not_eq_true, topoSort_snd_iff, not_not]

/-! ### Cycle extraction when the schedule is incomplete -/

theorem transGen_of_iterate (adj : Nat → List Nat) (f : Nat → Nat) (v0 : Nat)
    (hstep : ∀ k, f^[k] v0 ∈ adj (f^[k + 1] v0)) :
    ∀ d i, Relation.TransGen (fun a b => b ∈ adj a) (f^[i + (d + 1)] v0) (f^[i] v0) := by
  intro d
  induction d with
  | zero =>
    intro i
    exact Relation.TransGen.single (hstep i)
  | succ d ih =>
    intro i
    exact Relation.TransGen.head (hstep (i + (d + 1))) (ih i)

theorem cycle_in_set (adj : Nat → List Nat) (S : Finset Nat) (v0 : Nat)
    (hv0 : v0 ∈ S)
    (hstep : ∀ v ∈ S, ∃ u, u ∈ S ∧ v ∈ adj u) :
    ∃ p, p ∈ S ∧ Relation.TransGen (fun a b => b ∈ adj a) p p := by
  have hstep' : ∀ v, ∃ u, v ∈ S → u ∈ S ∧ v ∈ adj u := by
    intro v
    by_cases hv : v ∈ S
    · obtain ⟨u, hu1, hu2⟩ := hstep v hv
      exact ⟨u, fun _ => ⟨hu1, hu2⟩⟩
    · exact ⟨0, fun h => absurd h hv⟩
  choose f hf using hstep'
  have hiter : ∀ k, f^[k] v0 ∈ S := by
    intro k
    induction k with
    | zero => exact hv0
    | succ k ih =>
      rw [Function.iterate_succ_apply']
      exact (hf _ ih).1
  have hstepk : ∀ k, f^[k] v0 ∈ adj (f^[k + 1] v0) := by
    intro k
    rw [Function.iterate_succ_apply']
    exact (hf _ (hiter k)).2
  have hmaps : ∀ a ∈ Finset.range (S.card + 1), f^[a] v0 ∈ S := fun a _ => hiter a
  have hcard : S.card < (Finset.range (S.card + 1)).card := by
    rw [Finset.card_range]
    omega
  obtain ⟨i, _, j, _, hij, heq⟩ :=
    Finset.exists_ne_map_eq_of_card_lt_of_maps_to hcard hmaps
  have key : ∀ a b : Nat, a < b → (f^[a] v0 = f^[b] v0) →
      ∃ p, p ∈ S ∧ Relation.TransGen (fun x y => y ∈ adj x) p p := by
    intro a b hab heq2
    have hd : b = a + ((b - a - 1) + 1) := by omega
    have htg := transGen_of_iterate adj f v0 hstepk (b - a - 1) a
    rw [← hd] at htg
    rw [← heq2] at htg
    exact ⟨f^[a] v0, hiter a, htg⟩
  rcases Nat.lt_trichotomy i j with h | h | h
  · exact key i j h heq
  · exact absurd h hij
  · exact key j i h heq.symm

theorem topoSort_incomplete_cycle (n : Nat) (flags : Nat → Bool)
    (adj : Nat → List Nat)
    (hA1 : ∀ u, u < n → (adj u).Nodup)
    (hA2 : ∀ u, u < n → ∀ v ∈ adj u,
      flags u = true ∧ flags v = true ∧ v < n ∧ ¬ u = v)
    (hne : ¬ (topoSort n flags adj).1.length = activeCountOf n flags) :
    ∃ p, flags p = true ∧ Relation.TransGen (fun a b => b ∈ adj a) p p := by
  classical
  obtain ⟨hnd, hbd, hcov, _⟩ := kahnFinal_spec n flags adj hA1 hA2
  have hsorted : (topoSort n flags adj).1 =
      (kahnLoop adj (kahnFuel n) (kahnInit n flags adj)).sorted := rfl
  rw [hsorted] at hne
  set sorted := (kahnLoop adj (kahnFuel n) (kahnInit n flags adj)).sorted with hs
  set S : Finset Nat :=
    (Finset.range n).filter (fun v => flags v = true ∧ v ∉ sorted) with hS
  have hmemS : ∀ v, v ∈ S ↔ v < n ∧ flags v = true ∧ v ∉ sorted := by
    intro v
    rw [hS, Finset.mem_filter, Finset.mem_range]
  have hSne : ∃ v, v ∈ S := by
    by_contra hno
    push_neg at hno
    have hcov' : ∀ v, v < n → flags v = true → v ∈ sorted := by
      intro v hv hf
      by_contra hvs
      exact hno v ((hmemS v).mpr ⟨hv, hf, hvs⟩)
    have hal : ((List.range n).filter fun p => flags p).Nodup :=
      List.Nodup.filter _ (List.nodup_range n)
    have hsub : ((List.range n).filter fun p => flags p).toFinset ⊆
        sorted.toFinset := by
      intro x hx
      have hx' := (mem_activeList n flags x).mp (List.mem_toFinset.mp hx)
      exact List.mem_toFinset.mpr (hcov' x hx'.1 hx'.2)
    have h1 := List.toFinset_card_of_nodup hal
    have h2 := Finset.card_le_card hsub
    have h3 := List.toFinset_card_le sorted
    have h4 := nodup_active_length_le sorted n flags hnd hbd
    unfold activeCountOf at h1 h4 hne
    omega
  obtain ⟨v0, hv0⟩ := hSne
  have hstuck : ∀ v ∈ S, ∃ u, u ∈ S ∧ v ∈ adj u := by
    intro v hv
    obtain ⟨hvn, hvf, hvs⟩ := (hmemS v).mp hv
    have hrd : ¬ remainingDeg n adj sorted v = 0 := by
      intro h0
      exact hvs (hcov v hvn hvf h0)
    have hex := (not_iff_not.mpr (remainingDeg_eq_zero_iff n adj sorted v)).mp hrd
    push_neg at hex
    obtain ⟨u, hun, hus, hvu⟩ := hex
    have hfu := (hA2 u hun v hvu).1
    exact ⟨u, (hmemS u).mpr ⟨hun, hfu, hus⟩, hvu⟩
  obtain ⟨p, hpS, htg⟩ := cycle_in_set adj S v0 hv0 hstuck
  exact ⟨p, ((hmemS p).mp hpS).2.1, htg⟩

/-! ### C2: the schedule is a topological order of the live DAG -/

/-- C2: after a successful compile (the Kahn cycle flag is clear), the
schedule is a topological order of the live DAG: for every CSR edge
u → v the schedule position of u is strictly before that of v, and
equivalently, for every live pass p and every image or buffer read
record of p whose producer q is a valid in-range live pass distinct from
p, the schedule position of q is strictly before that of p. -/
theorem schedule_respects_dag (passes : List (List SetupCmd)) (m : ResourceMetaTable)
    (hS : (compileTopo passes m).2 = false) :
    (∀ u v, u < passes.length → v ∈ compileAdj passes m u →
       (compileTopo passes m).1.indexOf u < (compileTopo passes m).1.indexOf v) ∧
    (∀ p q vh, p < passes.length → compileFlags passes m p = true →
       ((vh ∈ (compileCtx passes m).imgReadVers p ∧
           q = getProducerFrom (compileCtx passes m).imageCount
                 (compileCtx passes m).imgVc (compileCtx passes m).imgProd vh) ∨
        (vh ∈ (compileCtx passes m).bufReadVers p ∧
           q = getProducerFrom (compileCtx passes m).bufferCount
                 (compileCtx passes m).bufVc (compileCtx passes m).bufProd vh)) →
       ¬ q = invalidPass → ¬ p = invalidPass → q < passes.length →
       ¬ q = p → compileFlags passes m q = true →
       (compileTopo passes m).1.indexOf q < (compileTopo passes m).1.indexOf p) := by
  have hA1 : ∀ u, u < passes.length → (compileAdj passes m u).Nodup :=
    fun u _ => compileAdj_nodup passes m u
  have hA2 := compileAdj_hA2 passes m
  obtain ⟨hnd, hbd, _, hord⟩ :=
    kahnFinal_spec passes.length (compileFlags passes m) (compileAdj passes m) hA1 hA2
  have hfst : (compileTopo passes m).1 =
      (kahnLoop (compileAdj passes m) (kahnFuel passes.length)
        (kahnInit passes.length (compileFlags passes m)
          (compileAdj passes m))).sorted := rfl
  have hlen : (compileTopo passes m).1.length =
      activeCountOf passes.length (compileFlags passes m) :=
    (topoSort_snd_false passes.length (compileFlags passes m)
      (compileAdj passes m)).mp hS
  have hlen' : activeCountOf passes.length (compileFlags passes m) ≤
      (kahnLoop (compileAdj passes m) (kahnFuel passes.length)
        (kahnInit passes.length (compileFlags passes m)
          (compileAdj passes m))).sorted.length := by
    rw [hfst] at hlen
    omega
  have hmain : ∀ u v, u < passes.length → v ∈ compileAdj passes m u →
      (compileTopo passes m).1.indexOf u < (compileTopo passes m).1.indexOf v := by
    intro u v hu hv
    have hvinfo := hA2 u hu v hv
    have hcover :=
      nodup_active_full _ passes.length (compileFlags passes m) hnd hbd hlen'
        v hvinfo.2.2.1 hvinfo.2.1
    have hres := hord v hcover u hu hv
    rw [hfst]
    exact hres.2
  refine ⟨hmain, ?_⟩
  intro p q vh hp hfp hread hqinv hpinv hq hqp hfq
  rcases hread with ⟨hvh, hqdef⟩ | ⟨hvh, hqdef⟩
  · subst hqdef
    have hok : edgeOk (compileCtx passes m).passCount (compileFlags passes m)
        (getProducerFrom (compileCtx passes m).imageCount
          (compileCtx passes m).imgVc (compileCtx passes m).imgProd vh, p) = true :=
      edgeOk_intro _ _ _ hqinv hpinv hq hp hqp hfq hfp
    have hedge := dagEdges_intro_img (compileCtx passes m) (compileFlags passes m)
      p vh hp hfp hvh hok
    have hpadj : p ∈ compileAdj passes m
        (getProducerFrom (compileCtx passes m).imageCount
          (compileCtx passes m).imgVc (compileCtx passes m).imgProd vh) :=
      (mem_adjacencyOf _ _ _).mpr hedge
    exact hmain _ p hq hpadj
  · subst hqdef
    have hok : edgeOk (compileCtx passes m).passCount (compileFlags passes m)
        (getProducerFrom (compileCtx passes m).bufferCount
          (compileCtx passes m).bufVc (compileCtx passes m).bufProd vh, p) = true :=
      edgeOk_intro _ _ _ hqinv hpinv hq hp hqp hfq hfp
    have hedge := dagEdges_intro_buf (compileCtx passes m) (compileFlags passes m)
      p vh hp hfp hvh hok
    have hpadj : p ∈ compileAdj passes m
        (getProducerFrom (compileCtx passes m).bufferCount
          (compileCtx passes m).bufVc (compileCtx passes m).bufProd vh) :=
      (mem_adjacencyOf _ _ _).mpr hedge
    exact hmain _ p hq hpadj

/-- Witness for C2: the three-pass chain compiles with the cycle flag
clear, and its schedule puts every producer before its consumer. -/
theorem schedule_respects_dag_witness :
    (compileTopo chainGraph {}).2 = false ∧
    (∀ u v, u < chainGraph.length → v ∈ compileAdj chainGraph {} u →
       (compileTopo chainGraph {}).1.indexOf u <
         (compileTopo chainGraph {}).1.indexOf v) :=
  ⟨by decide, (schedule_respects_dag chainGraph {} (by decide)).1⟩

/-! ### C7: cycle detection -/

theorem cycleAdj_nodup : ∀ u, u < 2 → (cycleAdj u).Nodup := by
  intro u hu
  interval_cases u <;> decide

theorem cycleAdj_ok : ∀ u, u < 2 → ∀ v ∈ cycleAdj u,
    cycleFlags u = true ∧ cycleFlags v = true ∧ v < 2 ∧ ¬ u = v := by
  intro u hu v hv
  interval_cases u <;> simp [cycleAdj] at hv <;> subst hv <;> decide

/-- C7: over any live DAG state fed to the scheduling stage (nodup
adjacency rows whose edges join distinct live in-range passes — what the
deduplicated CSR built by compile() always satisfies), if the drained
queue scheduled fewer passes than are live the flag of the fatal assert
at system.h line 702 is set and a genuine cycle exists among the live
passes; conversely, when the flag is clear the schedule length equals
the live pass count. -/
theorem kahn_cycle_detection (n : Nat) (flags : Nat → Bool) (adj : Nat → List Nat)
    (hA1 : ∀ u, u < n → (adj u).Nodup)
    (hA2 : ∀ u, u < n → ∀ v ∈ adj u,
      flags u = true ∧ flags v = true ∧ v < n ∧ ¬ u = v) :
    ((topoSort n flags adj).2 = true →
       (topoSort n flags adj).1.length < activeCountOf n flags ∧
       HasCycle adj ∧
       ∃ p, flags p = true ∧ Relation.TransGen (fun a b => b ∈ adj a) p p) ∧
    ((topoSort n flags adj).2 = false →
       (topoSort n flags adj).1.length = activeCountOf n flags) := by
  constructor
  · intro hflag
    have hne := (topoSort_snd_iff n flags adj).mp hflag
    obtain ⟨hnd, hbd, _, _⟩ := kahnFinal_spec n flags adj hA1 hA2
    have hle : (topoSort n flags adj).1.length ≤ activeCountOf n flags :=
      nodup_active_length_le _ n flags hnd hbd
    obtain ⟨p, hpf, htg⟩ := topoSort_incomplete_cycle n flags adj hA1 hA2 hne
    exact ⟨by omega, ⟨p, htg⟩, ⟨p, hpf, htg⟩⟩
  · intro hflag
    exact (topoSort_snd_false n flags adj).mp hflag

/-- Witness for C7: the injected two-node cycle (the dag_cycle unit
test's shape) drains the queue with nothing scheduled, so the flag is
set and the theorem recovers the cycle. -/
theorem kahn_cycle_detection_witness :
    (topoSort 2 cycleFlags cycleAdj).2 = true ∧
    ((topoSort 2 cycleFlags cycleAdj).1.length < activeCountOf 2 cycleFlags ∧
     HasCycle cycleAdj ∧
     ∃ p, cycleFlags p = true ∧
       Relation.TransGen (fun a b => b ∈ cycleAdj a) p p) :=
  ⟨by decide,
   (kahn_cycle_detection 2 cycleFlags cycleAdj cycleAdj_nodup cycleAdj_ok).1
     (by decide)⟩

/-! ### Aliasing lemmas (Step H.3) -/

theorem getD_set_self {α : Type} (l : List α) (i : Nat) (a d : α)
    (h : i < l.length) : (l.set i a).getD i d = a := by
  rw [List.getD_eq_getElem?_getD, List.getElem?_set_self h]
  rfl

theorem getD_set_other {α : Type} (l : List α) (i j : Nat) (a d : α)
    (h : ¬ i = j) : (l.set i a).getD j d = l.getD j d := by
  rw [List.getD_eq_getElem?_getD, List.getElem?_set_ne h,
    ← List.getD_eq_getElem?_getD]

theorem getD_append_self {α : Type} (l : List α) (x d : α) :
    (l ++ [x]).getD l.length d = x := by
  rw [List.getD_append_right _ _ _ _ (Nat.le_refl _), Nat.sub_self]
  rfl

theorem isOverlapping_comm (a1 a2 b1 b2 : Nat) :
    isOverlapping a1 a2 b1 b2 = isOverlapping b1 b2 a1 a2 := by
  unfold isOverlapping
  rw [Nat.max_comm, Nat.min_comm]

theorem overlapsAny_false (first last : Nat) (ivs : List (Nat × Nat))
    (h : overlapsAny first last ivs = false) :
    ∀ iv ∈ ivs, isOverlapping iv.1 iv.2 first last = false := by
  intro iv hiv
  rw [isOverlapping_comm]
  unfold overlapsAny at h
  rw [List.any_eq_false] at h
  have := h iv hiv
  simpa using this

theorem findAliasSlot_spec (compat : Nat → Nat → Bool) (res first last : Nat) :
    ∀ (reps : List Nat) (ivs : List (List (Nat × Nat))) (u0 u : Nat),
      findAliasSlot compat res first last reps ivs u0 = some u →
      u0 ≤ u ∧ u - u0 < ivs.length ∧
      ¬ (ivs.getD (u - u0) []) = [] ∧
      overlapsAny first last (ivs.getD (u - u0) []) = false := by
  intro reps
  induction reps with
  | nil =>
    intro ivs u0 u h
    simp [findAliasSlot] at h
  | cons rep reps ih =>
    intro ivs u0 u h
    cases ivs with
    | nil => simp [findAliasSlot] at h
    | cons iv0 rest =>
      simp only [findAliasSlot] at h
      by_cases he : iv0.isEmpty = true
      · rw [if_pos he] at h
        obtain ⟨hh1, hh2, hh3, hh4⟩ := ih rest (u0 + 1) u h
        have hu : u - u0 = (u - (u0 + 1)) + 1 := by omega
        refine ⟨by omega, ?_, ?_, ?_⟩
        · simp only [List.length_cons]
          omega
        · rw [hu, List.getD_cons_succ]
          exact hh3
        · rw [hu, List.getD_cons_succ]
          exact hh4
      · rw [if_neg he] at h
        by_cases hc : ¬ compat rep res = true
        · rw [if_pos hc] at h
          obtain ⟨hh1, hh2, hh3, hh4⟩ := ih rest (u0 + 1) u h
          have hu : u - u0 = (u - (u0 + 1)) + 1 := by omega
          refine ⟨by omega, ?_, ?_, ?_⟩
          · simp only [List.length_cons]
            omega
          · rw [hu, List.getD_cons_succ]
            exact hh3
          · rw [hu, List.getD_cons_succ]
            exact hh4
        · rw [if_neg hc] at h
          by_cases ho : overlapsAny first last iv0 = true
          · rw [if_pos ho] at h
            obtain ⟨hh1, hh2, hh3, hh4⟩ := ih rest (u0 + 1) u h
            have hu : u - u0 = (u - (u0 + 1)) + 1 := by omega
            refine ⟨by omega, ?_, ?_, ?_⟩
            · simp only [List.length_cons]
              omega
            · rw [hu, List.getD_cons_succ]
              exact hh3
            · rw [hu, List.getD_cons_succ]
              exact hh4
          · rw [if_neg ho] at h
            have hu : u0 = u := by
              have := Option.some.inj h
              exact this
            subst hu
            rw [Nat.sub_self]
            refine ⟨Nat.le_refl _, by simp, ?_, ?_⟩
            · rw [List.getD_cons_zero]
              intro hnil
              rw [hnil] at he
              exact he rfl
            · rw [List.getD_cons_zero]
              exact Bool.not_eq_true _ ▸ (by simpa using ho)

theorem aliasOne_inv (count : Nat) (isImported : Nat → Bool)
    (compat : Nat → Nat → Bool) (firstU lastU : Nat → Nat)
    (hcount : count ≤ invalidResource) (st : AliasState) (k : Nat) (hk : k < count)
    (h1 : st.physical_meta.length = st.life_intervals.length)
    (h2 : st.physical_meta.length ≤ k)
    (h3 : ∀ r, ¬ st.handle_to_physical r = invalidResource →
      r < k ∧ ¬ firstU r = invalidPass ∧
        st.handle_to_physical r < st.physical_meta.length)
    (h4 : ∀ r, r < k → ¬ firstU r = invalidPass →
      ¬ st.handle_to_physical r = invalidResource)
    (h5 : ∀ u, (st.life_intervals.getD u []).Pairwise
      (fun a b => isOverlapping a.1 a.2 b.1 b.2 = false))
    (h6 : ∀ r, r < k → ¬ firstU r = invalidPass → isImported r = true →
      st.life_intervals.getD (st.handle_to_physical r) [] = [] ∧
      ∀ r', ¬ r' = r →
        ¬ st.handle_to_physical r' = st.handle_to_physical r)
    (h7 : ∀ r, r < k → ¬ firstU r = invalidPass → isImported r = false →
      ¬ st.life_intervals.getD (st.handle_to_physical r) [] = []) :
    (aliasOne isImported compat firstU lastU st k).physical_meta.length =
      (aliasOne isImported compat firstU lastU st k).life_intervals.length ∧
    (aliasOne isImported compat firstU lastU st k).physical_meta.length ≤ k + 1 ∧
    (∀ r, ¬ (aliasOne isImported compat firstU lastU st k).handle_to_physical r
        = invalidResource →
      r < k + 1 ∧ ¬ firstU r = invalidPass ∧
        (aliasOne isImported compat firstU lastU st k).handle_to_physical r <
          (aliasOne isImported compat firstU lastU st k).physical_meta.length) ∧
    (∀ r, r < k + 1 → ¬ firstU r = invalidPass →
      ¬ (aliasOne isImported compat firstU lastU st k).handle_to_physical r
        = invalidResource) ∧
    (∀ u, ((aliasOne isImported compat firstU lastU st k).life_intervals.getD
        u []).Pairwise (fun a b => isOverlapping a.1 a.2 b.1 b.2 = false)) ∧
    (∀ r, r < k + 1 → ¬ firstU r = invalidPass → isImported r = true →
      (aliasOne isImported compat firstU lastU st k).life_intervals.getD
          ((aliasOne isImported compat firstU lastU st k).handle_to_physical r)
          [] = [] ∧
      ∀ r', ¬ r' = r →
        ¬ (aliasOne isImported compat firstU lastU st k).handle_to_physical r' =
            (aliasOne isImported compat firstU lastU st k).handle_to_physical r) ∧
    (∀ r, r < k + 1 → ¬ firstU r = invalidPass → isImported r = false →
      ¬ (aliasOne isImported compat firstU lastU st k).life_intervals.getD
          ((aliasOne isImported compat firstU lastU st k).handle_to_physical r)
          [] = []) := by
  have hlt : st.physical_meta.length < invalidResource := by omega
  by_cases hu : firstU k = invalidPass
  · have hstate : aliasOne isImported compat firstU lastU st k = st := by
      simp only [aliasOne]
      rw [if_pos hu]
    rw [hstate]
    refine ⟨h1, by omega, ?_, ?_, h5, ?_, ?_⟩
    · intro r hr
      obtain ⟨ha, hb, hc⟩ := h3 r hr
      exact ⟨by omega, hb, hc⟩
    · intro r hr hf
      rcases Nat.lt_succ_iff_lt_or_eq.mp hr with h | h
      · exact h4 r h hf
      · subst h
        exact absurd hu hf
    · intro r hr hf him
      rcases Nat.lt_succ_iff_lt_or_eq.mp hr with h | h
      · exact h6 r h hf him
      · subst h
        exact absurd hu hf
    · intro r hr hf him
      rcases Nat.lt_succ_iff_lt_or_eq.mp hr with h | h
      · exact h7 r h hf him
      · subst h
        exact absurd hu hf
  · by_cases hi : isImported k = true
    · have hstate : aliasOne isImported compat firstU lastU st k =
          { physical_meta := st.physical_meta ++ [k]
            handle_to_physical :=
              setAt st.handle_to_physical k st.physical_meta.length
            life_intervals := st.life_intervals ++ [[]] } := by
        simp only [aliasOne]
        rw [if_neg hu, if_pos hi]
      have hpm : (aliasOne isImported compat firstU lastU st k).physical_meta =
          st.physical_meta ++ [k] := by rw [hstate]
      have hh2p : (aliasOne isImported compat firstU lastU st k).handle_to_physical =
          setAt st.handle_to_physical k st.physical_meta.length := by rw [hstate]
      have hli : (aliasOne isImported compat firstU lastU st k).life_intervals =
          st.life_intervals ++ [[]] := by rw [hstate]
      simp only [hpm, hh2p, hli]
      refine ⟨?_, ?_, ?_, ?_, ?_, ?_, ?_⟩
      · simp [h1]
      · simp only [List.length_append, List.length_singleton]
        omega
      · intro r hr
        by_cases hrk : r = k
        · subst hrk
          rw [setAt_same] at hr ⊢
          refine ⟨by omega, hu, ?_⟩
          simp only [List.length_append, List.length_singleton]
          omega
        · rw [setAt_other _ _ hrk] at hr ⊢
          obtain ⟨ha, hb, hc⟩ := h3 r hr
          refine ⟨by omega, hb, ?_⟩
          simp only [List.length_append, List.length_singleton]
          omega
      · intro r hr hf
        by_cases hrk : r = k
        · subst hrk
          rw [setAt_same]
          omega
        · rw [setAt_other _ _ hrk]
          rcases Nat.lt_succ_iff_lt_or_eq.mp hr with h | h
          · exact h4 r h hf
          · exact absurd h hrk
      · intro u
        rcases Nat.lt_trichotomy u st.life_intervals.length with h | h | h
        · rw [List.getD_append _ _ _ _ h]
          exact h5 u
        · subst h
          rw [getD_append_self]
          exact List.Pairwise.nil
        · rw [List.getD_eq_default]
          · exact List.Pairwise.nil
          · simp only [List.length_append, List.length_singleton]
            omega
      · intro r hr hf him
        by_cases hrk : r = k
        · subst hrk
          constructor
          · rw [setAt_same, h1, getD_append_self]
          · intro r' hr'
            rw [setAt_same, setAt_other _ _ hr']
            intro heq
            by_cases hinv : st.handle_to_physical r' = invalidResource
            · rw [hinv] at heq
              omega
            · have := (h3 r' hinv).2.2
              omega
        · rw [setAt_other _ _ hrk]
          have hlr : r < k := by omega
          obtain ⟨hempty, huniq⟩ := h6 r hlr hf him
          have hslot : st.handle_to_physical r < st.physical_meta.length :=
            (h3 r (h4 r hlr hf)).2.2
          constructor
          · rw [List.getD_append]
            · exact hempty
            · omega
          · intro r' hr'
            by_cases hr'k : r' = k
            · subst hr'k
              rw [setAt_same]
              omega
            · rw [setAt_other _ _ hr'k]
              exact huniq r' hr'
      · intro r hr hf him
        by_cases hrk : r = k
        · subst hrk
          rw [hi] at him
          exact absurd him (by decide)
        · rw [setAt_other _ _ hrk]
          have hlr : r < k := by omega
          have hslot : st.handle_to_physical r < st.physical_meta.length :=
            (h3 r (h4 r hlr hf)).2.2
          rw [List.getD_append]
          · exact h7 r hlr hf him
          · omega
    · have hif : isImported k = false := by
        revert hi
        cases isImported k <;> simp
      cases hfs : findAliasSlot compat k (firstU k) (lastU k) st.physical_meta
          st.life_intervals 0 with
      | some u =>
        obtain ⟨-, hulen, hune, hov⟩ := findAliasSlot_spec compat k (firstU k)
          (lastU k) st.physical_meta st.life_intervals 0 u hfs
        rw [Nat.sub_zero] at hulen hune hov
        have hstate : aliasOne isImported compat firstU lastU st k =
            { st with
              life_intervals := st.life_intervals.set u
                (st.life_intervals.getD u [] ++ [(firstU k, lastU k)])
              handle_to_physical := setAt st.handle_to_physical k u } := by
          simp only [aliasOne]
          rw [if_neg hu, if_neg hi, hfs]
        have hpm : (aliasOne isImported compat firstU lastU st k).physical_meta =
            st.physical_meta := by rw [hstate]
        have hh2p : (aliasOne isImported compat firstU lastU st k).handle_to_physical =
            setAt st.handle_to_physical k u := by rw [hstate]
        have hli : (aliasOne isImported compat firstU lastU st k).life_intervals =
            st.life_intervals.set u
              (st.life_intervals.getD u [] ++ [(firstU k, lastU k)]) := by
          rw [hstate]
        simp only [hpm, hh2p, hli]
        refine ⟨?_, ?_, ?_, ?_, ?_, ?_, ?_⟩
        · rw [List.length_set]
          exact h1
        · omega
        · intro r hr
          by_cases hrk : r = k
          · subst hrk
            rw [setAt_same] at hr ⊢
            exact ⟨by omega, hu, by omega⟩
          · rw [setAt_other _ _ hrk] at hr ⊢
            obtain ⟨ha, hb, hc⟩ := h3 r hr
            exact ⟨by omega, hb, hc⟩
        · intro r hr hf
          by_cases hrk : r = k
          · subst hrk
            rw [setAt_same]
            omega
          · rw [setAt_other _ _ hrk]
            rcases Nat.lt_succ_iff_lt_or_eq.mp hr with h | h
            · exact h4 r h hf
            · exact absurd h hrk
        · intro w
          by_cases hwu : w = u
          · subst hwu
            rw [getD_set_self _ _ _ _ hulen]
            refine List.pairwise_append.mpr ⟨h5 w, by simp, ?_⟩
            intro a ha b hb
            rw [List.mem_singleton] at hb
            subst hb
            exact overlapsAny_false _ _ _ hov a ha
          · rw [getD_set_other _ _ _ _ _ (fun hh => hwu hh.symm)]
            exact h5 w
        · intro r hr hf him
          by_cases hrk : r = k
          · subst hrk
            rw [hif] at him
            exact absurd him (by decide)
          · have hlr : r < k := by omega
            obtain ⟨hempty, huniq⟩ := h6 r hlr hf him
            have hinv := h4 r hlr hf
            have hsu : ¬ st.handle_to_physical r = u := by
              intro hh
              rw [hh] at hempty
              exact hune hempty
            constructor
            · rw [setAt_other _ _ hrk,
                getD_set_other _ _ _ _ _ (fun hh => hsu hh.symm)]
              exact hempty
            · intro r' hr'
              rw [setAt_other _ _ hrk]
              by_cases hr'k : r' = k
              · subst hr'k
                rw [setAt_same]
                exact fun hh => hsu hh.symm
              · rw [setAt_other _ _ hr'k]
                exact huniq r' hr'
        · intro r hr hf him
          by_cases hrk : r = k
          · subst hrk
            rw [setAt_same, getD_set_self _ _ _ _ hulen]
            simp
          · rw [setAt_other _ _ hrk]
            have hlr : r < k := by omega
            by_cases hsu : st.handle_to_physical r = u
            · rw [hsu, getD_set_self _ _ _ _ hulen]
              simp
            · rw [getD_set_other _ _ _ _ _ (fun hh => hsu hh.symm)]
              exact h7 r hlr hf him
      | none =>
        have hstate : aliasOne isImported compat firstU lastU st k =
            { physical_meta := st.physical_meta ++ [k]
              handle_to_physical :=
                setAt st.handle_to_physical k st.physical_meta.length
              life_intervals :=
                st.life_intervals ++ [[(firstU k, lastU k)]] } := by
          simp only [aliasOne]
          rw [if_neg hu, if_neg hi, hfs]
        have hpm : (aliasOne isImported compat firstU lastU st k).physical_meta =
            st.physical_meta ++ [k] := by rw [hstate]
        have hh2p : (aliasOne isImported compat firstU lastU st k).handle_to_physical =
            setAt st.handle_to_physical k st.physical_meta.length := by rw [hstate]
        have hli : (aliasOne isImported compat firstU lastU st k).life_intervals =
            st.life_intervals ++ [[(firstU k, lastU k)]] := by rw [hstate]
        simp only [hpm, hh2p, hli]
        refine ⟨?_, ?_, ?_, ?_, ?_, ?_, ?_⟩
        · simp [h1]
        · simp only [List.length_append, List.length_singleton]
          omega
        · intro r hr
          by_cases hrk : r = k
          · subst hrk
            rw [setAt_same] at hr ⊢
            refine ⟨by omega, hu, ?_⟩
            simp only [List.length_append, List.length_singleton]
            omega
          · rw [setAt_other _ _ hrk] at hr ⊢
            obtain ⟨ha, hb, hc⟩ := h3 r hr
            refine ⟨by omega, hb, ?_⟩
            simp only [List.length_append, List.length_singleton]
            omega
        · intro r hr hf
          by_cases hrk : r = k
          · subst hrk
            rw [setAt_same]
            omega
          · rw [setAt_other _ _ hrk]
            rcases Nat.lt_succ_iff_lt_or_eq.mp hr with h | h
            · exact h4 r h hf
            · exact absurd h hrk
        · intro w
          rcases Nat.lt_trichotomy w st.life_intervals.length with h | h | h
          · rw [List.getD_append _ _ _ _ h]
            exact h5 w
          · subst h
            rw [getD_append_self]
            simp
          · rw [List.getD_eq_default]
            · exact List.Pairwise.nil
            · simp only [List.length_append, List.length_singleton]
              omega
        · intro r hr hf him
          by_cases hrk : r = k
          · subst hrk
            rw [hif] at him
            exact absurd him (by decide)
          · rw [setAt_other _ _ hrk]
            have hlr : r < k := by omega
            obtain ⟨hempty, huniq⟩ := h6 r hlr hf him
            have hslot : st.handle_to_physical r < st.physical_meta.length :=
              (h3 r (h4 r hlr hf)).2.2
            constructor
            · rw [List.getD_append]
              · exact hempty
              · omega
            · intro r' hr'
              by_cases hr'k : r' = k
              · subst hr'k
                rw [setAt_same]
                omega
              · rw [setAt_other _ _ hr'k]
                exact huniq r' hr'
        · intro r hr hf him
          by_cases hrk : r = k
          · subst hrk
            rw [setAt_same, h1, getD_append_self]
            simp
          · rw [setAt_other _ _ hrk]
            have hlr : r < k := by omega
            have hslot : st.handle_to_physical r < st.physical_meta.length :=
              (h3 r (h4 r hlr hf)).2.2
            rw [List.getD_append]
            · exact h7 r hlr hf him
            · omega

theorem aliasLoop_inv (count : Nat) (isImported : Nat → Bool)
    (compat : Nat → Nat → Bool) (firstU lastU : Nat → Nat)
    (hcount : count ≤ invalidResource) :
    ∀ k, k ≤ count →
      ((List.range k).foldl (aliasOne isImported compat firstU lastU)
          ⟨[], fun _ => invalidResource, []⟩).physical_meta.length =
        ((List.range k).foldl (aliasOne isImported compat firstU lastU)
          ⟨[], fun _ => invalidResource, []⟩).life_intervals.length ∧
      ((List.range k).foldl (aliasOne isImported compat firstU lastU)
          ⟨[], fun _ => invalidResource, []⟩).physical_meta.length ≤ k ∧
      (∀ r, ¬ ((List.range k).foldl (aliasOne isImported compat firstU lastU)
          ⟨[], fun _ => invalidResource, []⟩).handle_to_physical r
            = invalidResource →
        r < k ∧ ¬ firstU r = invalidPass ∧
          ((List.range k).foldl (aliasOne isImported compat firstU lastU)
            ⟨[], fun _ => invalidResource, []⟩).handle_to_physical r <
            ((List.range k).foldl (aliasOne isImported compat firstU lastU)
              ⟨[], fun _ => invalidResource, []⟩).physical_meta.length) ∧
      (∀ r, r < k → ¬ firstU r = invalidPass →
        ¬ ((List.range k).foldl (aliasOne isImported compat firstU lastU)
          ⟨[], fun _ => invalidResource, []⟩).handle_to_physical r
            = invalidResource) ∧
      (∀ u, (((List.range k).foldl (aliasOne isImported compat firstU lastU)
          ⟨[], fun _ => invalidResource, []⟩).life_intervals.getD u []).Pairwise
        (fun a b => isOverlapping a.1 a.2 b.1 b.2 = false)) ∧
      (∀ r, r < k → ¬ firstU r = invalidPass → isImported r = true →
        ((List.range k).foldl (aliasOne isImported compat firstU lastU)
            ⟨[], fun _ => invalidResource, []⟩).life_intervals.getD
          (((List.range k).foldl (aliasOne isImported compat firstU lastU)
            ⟨[], fun _ => invalidResource, []⟩).handle_to_physical r) [] = [] ∧
        ∀ r', ¬ r' = r →
          ¬ ((List.range k).foldl (aliasOne isImported compat firstU lastU)
              ⟨[], fun _ => invalidResource, []⟩).handle_to_physical r' =
            ((List.range k).foldl (aliasOne isImported compat firstU lastU)
              ⟨[], fun _ => invalidResource, []⟩).handle_to_physical r) ∧
      (∀ r, r < k → ¬ firstU r = invalidPass → isImported r = false →
        ¬ ((List.range k).foldl (aliasOne isImported compat firstU lastU)
            ⟨[], fun _ => invalidResource, []⟩).life_intervals.getD
          (((List.range k).foldl (aliasOne isImported compat firstU lastU)
            ⟨[], fun _ => invalidResource, []⟩).handle_to_physical r) [] = []) := by
  intro k
  induction k with
  | zero =>
    intro _
    refine ⟨rfl, by simp, ?_, ?_, ?_, ?_, ?_⟩
    · intro r hr
      exact absurd rfl hr
    · intro r hr
      exact absurd hr (Nat.not_lt_zero r)
    · intro u
      exact List.Pairwise.nil
    · intro r hr
      exact absurd hr (Nat.not_lt_zero r)
    · intro r hr
      exact absurd hr (Nat.not_lt_zero r)
  | succ k ih =>
    intro hk1
    have hk : k < count := by omega
    obtain ⟨g1, g2, g3, g4, g5, g6, g7⟩ := ih (by omega)
    have hfold : (List.range (k + 1)).foldl
        (aliasOne isImported compat firstU lastU)
        ⟨[], fun _ => invalidResource, []⟩ =
      aliasOne isImported compat firstU lastU
        ((List.range k).foldl (aliasOne isImported compat firstU lastU)
          ⟨[], fun _ => invalidResource, []⟩) k := by
      rw [List.range_succ, List.foldl_append]
      rfl
    rw [hfold]
    exact aliasOne_inv count isImported compat firstU lastU hcount _ k hk
      g1 g2 g3 g4 g5 g6 g7

theorem aliasStage_spec (count : Nat) (isImported : Nat → Bool)
    (compat : Nat → Nat → Bool) (firstU lastU : Nat → Nat)
    (hcount : count ≤ invalidResource) :
    (∀ u, ((aliasStage count isImported compat firstU lastU).life_intervals.getD
        u []).Pairwise (fun a b => isOverlapping a.1 a.2 b.1 b.2 = false)) ∧
    (∀ r, r < count → ¬ firstU r = invalidPass → isImported r = true →
      (aliasStage count isImported compat firstU lastU).life_intervals.getD
          ((aliasStage count isImported compat firstU lastU).handle_to_physical r)
          [] = [] ∧
      ∀ r', ¬ r' = r →
        ¬ (aliasStage count isImported compat firstU lastU).handle_to_physical r' =
            (aliasStage count isImported compat firstU lastU).handle_to_physical r) := by
  obtain ⟨-, -, -, -, g5, g6, -⟩ :=
    aliasLoop_inv count isImported compat firstU lastU hcount count (Nat.le_refl _)
  exact ⟨g5, g6⟩

/-! ### C3: aliasing produces disjoint lifetimes and private imported slots -/

/-- C3: for the physical mapping of the greedy first-fit allocator (both
kinds), every physical slot's recorded lifetime intervals are pairwise
non-overlapping in the is_overlapping sense (two intervals overlap iff
max(a.first, b.first) ≤ min(a.last, b.last)), and every imported resource
that is used maps to a physical id with an empty interval list (so it
never holds a transient) that no other logical resource is mapped to.
The hypotheses bound the handle counts by the uint32 sentinel, which is
what makes the sentinel distinguishable from a physical id. -/
theorem aliasing_disjoint_and_private (passes : List (List SetupCmd))
    (m : ResourceMetaTable)
    (himg : compileImageCount passes m ≤ invalidResource)
    (hbuf : compileBufferCount passes m ≤ invalidResource) :
    ((∀ u, ((compileAliasImg passes m).life_intervals.getD u []).Pairwise
        (fun a b => isOverlapping a.1 a.2 b.1 b.2 = false)) ∧
     (∀ r, r < compileImageCount passes m →
       ¬ (compileImgLife passes m).1 r = invalidPass →
       (compileSetup passes m).meta_table.image_metas.is_imported.getD r false
         = true →
       (compileAliasImg passes m).life_intervals.getD
           ((compileAliasImg passes m).handle_to_physical r) [] = [] ∧
       ∀ r', ¬ r' = r →
         ¬ (compileAliasImg passes m).handle_to_physical r' =
             (compileAliasImg passes m).handle_to_physical r)) ∧
    ((∀ u, ((compileAliasBuf passes m).life_intervals.getD u []).Pairwise
        (fun a b => isOverlapping a.1 a.2 b.1 b.2 = false)) ∧
     (∀ r, r < compileBufferCount passes m →
       ¬ (compileBufLife passes m).1 r = invalidPass →
       (compileSetup passes m).meta_table.buffer_metas.is_imported.getD r false
         = true →
       (compileAliasBuf passes m).life_intervals.getD
           ((compileAliasBuf passes m).handle_to_physical r) [] = [] ∧
       ∀ r', ¬ r' = r →
         ¬ (compileAliasBuf passes m).handle_to_physical r' =
             (compileAliasBuf passes m).handle_to_physical r)) := by
  constructor
  · exact aliasStage_spec (compileImageCount passes m)
      (fun r => (compileSetup passes m).meta_table.image_metas.is_imported.getD
        r false)
      (fun a b => (compileSetup passes m).meta_table.image_metas.is_compatible a b)
      (compileImgLife passes m).1 (compileImgLife passes m).2 himg
  · exact aliasStage_spec (compileBufferCount passes m)
      (fun r => (compileSetup passes m).meta_table.buffer_metas.is_imported.getD
        r false)
      (fun a b => (compileSetup passes m).meta_table.buffer_metas.is_compatible a b)
      (compileBufLife passes m).1 (compileBufLife passes m).2 hbuf

/-- Witness for C3: the three-pass chain's image allocator; its three
transient images all fit the sentinel bound, and the theorem yields the
pairwise-disjoint interval lists. -/
theorem aliasing_disjoint_and_private_witness :
    compileImageCount chainGraph {} ≤ invalidResource ∧
    compileBufferCount chainGraph {} ≤ invalidResource ∧
    (∀ u, ((compileAliasImg chainGraph {}).life_intervals.getD u []).Pairwise
        (fun a b => isOverlapping a.1 a.2 b.1 b.2 = false)) :=
  ⟨by decide, by decide,
   (aliasing_disjoint_and_private chainGraph {} (by decide) (by decide)).1.1⟩

/-! ### Barrier-plan lemmas (Step I) -/

theorem uav_mem_iff (A B C : Prop) [Decidable A] [Decidable B] [Decidable C]
    (a t u : BarrierOp) (ha : a.type = BarrierOpType.aliasing)
    (ht : t.type = BarrierOpType.transition) (hu : u.type = BarrierOpType.uav) :
    ((∃ op ∈ (if A then [a] else []) ++ (if B then [t] else []) ++
        (if C then [u] else []), op.type = BarrierOpType.uav) ↔ C) ∧
    (C → ∃ pre, (if A then [a] else []) ++ (if B then [t] else []) ++
        (if C then [u] else []) = pre ++ [u] ∧
      ∀ op ∈ pre, op.type = BarrierOpType.aliasing ∨
        op.type = BarrierOpType.transition) := by
  constructor
  · constructor
    · rintro ⟨op, hop, htype⟩
      rcases List.mem_append.mp hop with h | h
      · rcases List.mem_append.mp h with h1 | h1
        · by_cases hA : A
          · rw [if_pos hA] at h1
            rw [List.mem_singleton] at h1
            subst h1
            rw [ha] at htype
            exact absurd htype (by decide)
          · rw [if_neg hA] at h1
            cases h1
        · by_cases hB : B
          · rw [if_pos hB] at h1
            rw [List.mem_singleton] at h1
            subst h1
            rw [ht] at htype
            exact absurd htype (by decide)
          · rw [if_neg hB] at h1
            cases h1
      · by_cases hC : C
        · exact hC
        · rw [if_neg hC] at h
          cases h
    · intro hC
      rw [if_pos hC]
      exact ⟨u, List.mem_append_right _ (List.mem_singleton.mpr rfl), hu⟩
  · intro hC
    rw [if_pos hC]
    refine ⟨(if A then [a] else []) ++ (if B then [t] else []), rfl, ?_⟩
    intro op hop
    rcases List.mem_append.mp hop with h | h
    · by_cases hA : A
      · rw [if_pos hA] at h
        rw [List.mem_singleton] at h
        subst h
        exact Or.inl ha
      · rw [if_neg hA] at h
        cases h
    · by_cases hB : B
      · rw [if_pos hB] at h
        rw [List.mem_singleton] at h
        subst h
        exact Or.inr ht
      · rw [if_neg hB] at h
        cases h

theorem insertBarrier_uav (physCount : Nat) (last : Nat → LastUse)
    (kind : ResourceKind) (logical physical : Nat) (acc : AccessType) (bits : Nat)
    (hinv : ¬ physical = invalidResource) (hlt : physical < physCount) :
    ((∃ op ∈ (insertBarrier physCount last kind logical physical acc bits).1,
        op.type = BarrierOpType.uav) ↔
      ((last physical).valid = true ∧
       ¬ (last physical).access = AccessType.read ∧
       needsUavLike kind bits = true)) ∧
    (((last physical).valid = true ∧
      ¬ (last physical).access = AccessType.read ∧
      needsUavLike kind bits = true) →
      ∃ pre, (insertBarrier physCount last kind logical physical acc bits).1 =
          pre ++ [{ type := BarrierOpType.uav, kind := kind, logical := logical, physical := physical }] ∧
        ∀ op ∈ pre, op.type = BarrierOpType.aliasing ∨
          op.type = BarrierOpType.transition) := by
  have hops : (insertBarrier physCount last kind logical physical acc bits).1 =
      (if (last physical).valid = true ∧ ¬ (last physical).logical = logical then
        [{ type := .aliasing, kind := kind, logical := logical,
           prev_logical := (last physical).logical, physical := physical }]
      else []) ++
      (if (last physical).valid = true ∧ (¬ (last physical).usage_bits = bits ∨
          ¬ (last physical).access = acc ∨
          ¬ (last physical).domain = PipelineDomain.any) then
        [{ type := .transition, kind := kind, logical := logical,
           physical := physical,
           src_domain := (last physical).domain, dst_domain := .any,
           src_access := (last physical).access, dst_access := acc,
           src_usage_bits := (last physical).usage_bits, dst_usage_bits := bits }]
      else []) ++
      (if (last physical).valid = true ∧
          ¬ (last physical).access = AccessType.read ∧
          needsUavLike kind bits = true then
        [{ type := .uav, kind := kind, logical := logical, physical := physical }]
      else []) := by
    simp only [insertBarrier]
    rw [if_neg hinv, if_neg (by omega)]
  rw [hops]
  exact uav_mem_iff _ _ _ _ _ _ rfl rfl rfl

/-! ### C6: UAV op emission -/

/-- C6: for any touch of a valid in-range physical slot, insert_barrier
emits a UAV op exactly when the slot's previously recorded access was
not a pure read and the desired usage bitmask has the storage bit set
(STORAGE = 8 for images, STORAGE_BUFFER = 8 for buffers); when emitted
it comes after the aliasing/transition ops of the touch.  Concretely, in
the scenario where pass 0 writes buffer 0 with storage-buffer usage and
pass 1 reads it with storage-buffer usage, pass 1's barrier slice
contains a UAV op for buffer 0. -/
theorem uav_op_condition :
    (∀ (physCount : Nat) (last : Nat → LastUse) (kind : ResourceKind)
       (logical physical : Nat) (acc : AccessType) (bits : Nat),
       ¬ physical = invalidResource → physical < physCount →
       (((∃ op ∈ (insertBarrier physCount last kind logical physical acc bits).1,
            op.type = BarrierOpType.uav) ↔
          ((last physical).valid = true ∧
           ¬ (last physical).access = AccessType.read ∧
           needsUavLike kind bits = true)) ∧
        (((last physical).valid = true ∧
          ¬ (last physical).access = AccessType.read ∧
          needsUavLike kind bits = true) →
          ∃ pre, (insertBarrier physCount last kind logical physical acc bits).1 =
              pre ++ [{ type := BarrierOpType.uav, kind := kind, logical := logical, physical := physical }] ∧
            ∀ op ∈ pre, op.type = BarrierOpType.aliasing ∨
              op.type = BarrierOpType.transition))) ∧
    (∃ op ∈ (compileBarriers uavGraph {}).getD 1 [],
       op.type = BarrierOpType.uav ∧ op.kind = ResourceKind.buffer ∧
       op.logical = 0) :=
  ⟨fun physCount last kind logical physical acc bits hinv hlt =>
    insertBarrier_uav physCount last kind logical physical acc bits hinv hlt,
   by decide⟩

/-- Witness for C6: the general conjunct applied to a one-slot state
whose previous access was a write, touched with storage bits. -/
theorem uav_op_condition_witness :
    ((∃ op ∈ (insertBarrier 1 (fun _ => { valid := true, access := AccessType.write })
        ResourceKind.buffer 0 0 AccessType.read 8).1,
        op.type = BarrierOpType.uav) ↔
      (((fun (_ : Nat) => ({ valid := true, access := AccessType.write } : LastUse)) 0).valid = true ∧
       ¬ ((fun (_ : Nat) => ({ valid := true, access := AccessType.write } : LastUse)) 0).access = AccessType.read ∧
       needsUavLike ResourceKind.buffer 8 = true)) ∧
    ((((fun (_ : Nat) => ({ valid := true, access := AccessType.write } : LastUse)) 0).valid = true ∧
      ¬ ((fun (_ : Nat) => ({ valid := true, access := AccessType.write } : LastUse)) 0).access = AccessType.read ∧
      needsUavLike ResourceKind.buffer 8 = true) →
      ∃ pre, (insertBarrier 1 (fun _ => { valid := true, access := AccessType.write })
          ResourceKind.buffer 0 0 AccessType.read 8).1 =
          pre ++ [{ type := BarrierOpType.uav, kind := ResourceKind.buffer, logical := 0, physical := 0 }] ∧
        ∀ op ∈ pre, op.type = BarrierOpType.aliasing ∨
          op.type = BarrierOpType.transition) :=
  uav_op_condition.1 1 (fun _ => { valid := true, access := AccessType.write })
    ResourceKind.buffer 0 0 AccessType.read 8 (by decide) (by decide)
